import Mathlib

/-!
# dismod_at: sparsity merge, the fixed-effects Ipopt adapter, Hessian recorders,
data subset and covariate multiplier bounds

Shallow embedding of `devel/approx_mixed/ipopt_fixed.cpp`, of the index lists
built by `devel/approx_mixed/record_hes_ran.cpp` and
`devel/approx_mixed/record_hessian.cpp`, of
`devel/cppad_mixed/record_hes_ran.cpp`, of `devel/utility/data_subset.cpp` and
of the bound computation of `devel/cmd/bnd_mulcov_command.cpp`.

Conventions of the embedding

* `CppAD::vector<size_t>` is `List Nat`; `size_t` arithmetic that can wrap is
  taken modulo `2^64`.
* A C `assert` that fails, and an out-of-range read or write of a vector or
  buffer, make the embedded function return `none`.
* `double` values on which the code does arithmetic are exact rationals; the
  `double` values the code compares with an infinity (bounds, sentinels, the
  incumbent objective) have type `Dbl`, the rationals with both infinities.
  Where the rounding of a sum matters the sum is an argument of the embedding
  (`eval_f_with`), and `double_add` is the sum rounded to the nearest double.
* A `double` that may be nan, the value of a null entry of the database, is an
  `Option`, with `none` for nan.
* What CppAD computes (recordings, sparsity patterns) is a parameter; a
  `std::set<size_t>` is the ascending list of its elements.
* Structures and classes that are declared outside the embedded files
  (`data_struct`, `covariate_struct`, `child_info`, `mulcov_struct`) are taken
  with the fields and member functions that the embedded code uses.
-/

set_option linter.unusedVariables false

namespace dismod_at

/-! ## Vectors, buffers and counted loops -/

/-- Checked element write `v[i] = x`: fails when `i` is out of range. -/
def vec_write {α : Type} (v : List α) (i : Nat) (x : α) : Option (List α) :=
  if i < v.length then some (v.set i x) else none

/-- C `assert(c)`: continue when `c` holds, abort otherwise. -/
def c_assert (c : Bool) : Option Unit :=
  if c then some () else none

/-- Counted loop `for(size_t j = 0; j < n; j++) s = body(j, s)`, aborting as soon
as one pass aborts. -/
def for_loop {σ : Type} (body : Nat → σ → Option σ) : Nat → σ → Option σ
  | 0, s => some s
  | n + 1, s => (for_loop body n s).bind (body n)

/-- Width of `size_t` arithmetic. -/
def size_t_mod : Nat := 2 ^ 64

/-! ## merge_sparse -/

/-- Insert `(key, index)` into a list ordered by key, after every entry with a
key that is not larger. -/
def index_sort_insert (e : Nat × Nat) : List (Nat × Nat) → List (Nat × Nat)
  | [] => [e]
  | h :: t => if e.1 < h.1 then e :: h :: t else h :: index_sort_insert e t

/-- Result `ind` of `CppAD::index_sort(keys, ind)`: the indices of `keys` listed
so that `keys[ind[0]] <= keys[ind[1]] <= ...`; equal keys, whose order CppAD
leaves open, are kept in index order. -/
def index_sort (keys : List Nat) : List Nat :=
  ((keys.enum.foldl (fun acc e => index_sort_insert (e.2, e.1) acc) []).map Prod.snd)

/-- Running state of the loops of `merge_sparse`. -/
structure merge_state where
  row_out : List Nat
  col_out : List Nat
  one_2_out : List Nat
  two_2_out : List Nat
  k_one : Nat
  k_two : Nat
deriving DecidableEq, Repr

/-- The value `max_col` of `merge_sparse`: two loops of `std::max`, starting
from zero. -/
def merge_max_col (col_one col_two : List Nat) : Nat :=
  col_two.foldl (fun m c => max c m) (col_one.foldl (fun m c => max c m) 0)

/-- The sort key `row * max_col + col` of one entry, in `size_t` arithmetic. -/
def merge_key (max_col row col : Nat) : Nat :=
  (row * max_col + col) % size_t_mod

/-- The vector of sort keys `key[k] = row[k] * max_col + col[k]`. -/
def merge_keys (max_col : Nat) (row col : List Nat) : Option (List Nat) :=
  (List.range row.length).mapM
    (fun k => do
      let r ← row[k]?
      let c ← col[k]?
      pure (merge_key max_col r c))

/-- One pass of the first `while` loop of `merge_sparse`
(`k_one < n_one && k_two < n_two` holds on entry). -/
def merge_step (row_one col_one row_two col_two key_one key_two : List Nat)
    (s : merge_state) : Option merge_state := do
  let a ← key_one[s.k_one]?
  let b ← key_two[s.k_two]?
  if a = b then
    let r1 ← row_one[s.k_one]?
    let c1 ← col_one[s.k_one]?
    let r2 ← row_two[s.k_two]?
    let c2 ← col_two[s.k_two]?
    c_assert (r1 = r2)
    c_assert (c1 = c2)
    let row_out := s.row_out ++ [r1]
    let col_out := s.col_out ++ [c1]
    let one_2_out ← vec_write s.one_2_out s.k_one row_out.length
    let two_2_out ← vec_write s.two_2_out s.k_two row_out.length
    pure { row_out := row_out, col_out := col_out, one_2_out := one_2_out,
           two_2_out := two_2_out, k_one := s.k_one + 1, k_two := s.k_two + 1 }
  else if a < b then
    let r1 ← row_one[s.k_one]?
    let c1 ← col_one[s.k_one]?
    let row_out := s.row_out ++ [r1]
    let col_out := s.col_out ++ [c1]
    let one_2_out ← vec_write s.one_2_out s.k_one row_out.length
    pure { s with row_out := row_out, col_out := col_out, one_2_out := one_2_out,
                  k_one := s.k_one + 1 }
  else
    c_assert (b < a)
    let r2 ← row_two[s.k_two]?
    let c2 ← col_two[s.k_two]?
    let row_out := s.row_out ++ [r2]
    let col_out := s.col_out ++ [c2]
    let two_2_out ← vec_write s.two_2_out s.k_two row_out.length
    pure { s with row_out := row_out, col_out := col_out, two_2_out := two_2_out,
                  k_two := s.k_two + 1 }

/-- The loop `while( k_one < n_one && k_two < n_two )` of `merge_sparse`; the
first argument bounds the number of passes. -/
def merge_while (row_one col_one row_two col_two key_one key_two : List Nat) :
    Nat → merge_state → Option merge_state
  | 0, s => if s.k_one < row_one.length ∧ s.k_two < row_two.length then none else some s
  | fuel + 1, s =>
    if s.k_one < row_one.length ∧ s.k_two < row_two.length then
      (merge_step row_one col_one row_two col_two key_one key_two s).bind
        (merge_while row_one col_one row_two col_two key_one key_two fuel)
    else some s

/-- The loop `while( k < n ) { row_out.push_back(row[k]); col_out.push_back(col[k]); k++; }`
that ends `merge_sparse`, once for each input: it appends the entries from `k`
on and writes no position map. -/
def merge_tail (row col : List Nat) (k : Nat) (out : List Nat × List Nat) :
    Option (List Nat × List Nat) :=
  for_loop
    (fun i o => do
      let r ← row[k + i]?
      let c ← col[k + i]?
      pure (o.1 ++ [r], o.2 ++ [c]))
    (row.length - k) out

/-- Outputs of `merge_sparse`. -/
structure merge_result where
  row_out : List Nat
  col_out : List Nat
  one_2_out : List Nat
  two_2_out : List Nat
deriving DecidableEq, Repr

/-- The function `merge_sparse` of `ipopt_fixed.cpp`. The last four arguments are
the contents of the four output vectors on entry. -/
def merge_sparse (row_one col_one row_two col_two row_out col_out one_2_out two_2_out : List Nat) :
    Option merge_result := do
  c_assert (row_out.length = 0)
  c_assert (col_out.length = 0)
  c_assert (row_one.length = col_one.length)
  c_assert (row_one.length = one_2_out.length)
  c_assert (row_two.length = col_two.length)
  c_assert (row_two.length = two_2_out.length)
  let n_one := row_one.length
  let n_two := row_two.length
  let max_col := merge_max_col col_one col_two
  let key_one ← merge_keys max_col row_one col_one
  let key_two ← merge_keys max_col row_two col_two
  -- computed by the source and not read afterwards
  let _ind_one := index_sort key_one
  let _ind_two := index_sort key_two
  let s ← merge_while row_one col_one row_two col_two key_one key_two (n_one + n_two)
    { row_out := row_out, col_out := col_out, one_2_out := one_2_out,
      two_2_out := two_2_out, k_one := 0, k_two := 0 }
  let o1 ← merge_tail row_one col_one s.k_one (s.row_out, s.col_out)
  let o2 ← merge_tail row_two col_two s.k_two o1
  pure { row_out := o2.1, col_out := o2.2, one_2_out := s.one_2_out,
         two_2_out := s.two_2_out }

/-- The sort keys of the merged list, computed as `merge_sparse` computes the
keys of its inputs. -/
def merge_out_keys (max_col : Nat) (r : merge_result) : List Nat :=
  List.zipWith (merge_key max_col) r.row_out r.col_out

/-! ## Doubles that may be infinite -/

/-- A `double` that the code compares with an infinity: minus infinity, a finite
number, or plus infinity. -/
inductive Dbl where
  | ninf : Dbl
  | fin (q : ℚ) : Dbl
  | pinf : Dbl
deriving DecidableEq

/-- The comparison `a < b` of two doubles. -/
def Dbl.lt : Dbl → Dbl → Prop
  | .ninf, .ninf => False
  | .ninf, _ => True
  | .fin a, .fin b => a < b
  | .fin _, .pinf => True
  | _, _ => False

instance : LT Dbl := ⟨Dbl.lt⟩

/-- The comparison `a <= b` of two doubles. -/
def Dbl.le (a b : Dbl) : Prop := a = b ∨ a < b

instance : LE Dbl := ⟨Dbl.le⟩

instance Dbl.decLt (a b : Dbl) : Decidable (a < b) := by
  cases a <;> cases b <;> simp only [LT.lt, Dbl.lt] <;> infer_instance

instance Dbl.decLe (a b : Dbl) : Decidable (a ≤ b) :=
  inferInstanceAs (Decidable (a = b ∨ a < b))

/-- The function `std::min(a, b)`: `b` when `b < a`, else `a`. -/
def std_min (a b : Dbl) : Dbl := if b < a then b else a

/-- The function `std::max(a, b)`: `b` when `a < b`, else `a`. -/
def std_max (a b : Dbl) : Dbl := if a < b then b else a

/-! ## The fixed-effects adapter `ipopt_fixed` -/

/-- The member functions of the `approx_mixed` object that `ipopt_fixed` calls.
Their code is outside `ipopt_fixed.cpp`; the adapter is embedded for an
arbitrary choice of them. The three sparse-matrix functions are given by the
row and column indices they return when called with empty index vectors. -/
structure approx_mixed where
  prior_eval : List ℚ → List ℚ
  prior_jac : List ℚ → List Nat × List Nat
  laplace_hes_fix : List ℚ → List ℚ → List Nat × List Nat
  prior_hes : List ℚ → List ℚ → List Nat × List Nat
  optimize_random : List ℚ → List ℚ → List ℚ
  laplace_eval : List ℚ → List ℚ → List ℚ → ℚ

/-- The member variables of `ipopt_fixed` that `ipopt_fixed.cpp` uses. -/
structure ipopt_fixed where
  n_fixed_ : Nat
  n_random_ : Nat
  fixed_lower_ : List Dbl
  fixed_in_ : List ℚ
  fixed_upper_ : List Dbl
  random_in_ : List ℚ
  approx_object_ : approx_mixed
  nlp_lower_bound_inf_ : Dbl
  nlp_upper_bound_inf_ : Dbl
  prior_n_abs_ : Nat
  prior_nnz_jac_ : Nat
  lag_hes_row_ : List Nat
  lag_hes_col_ : List Nat
  laplace_2_lag_ : List Nat
  prior_2_lag_ : List Nat
  fixed_tmp_ : List ℚ
  random_tmp_ : List ℚ
  prior_vec_tmp_ : List ℚ
  fixed_opt_ : List ℚ
  random_opt_ : List ℚ
  objective_opt_ : Dbl
  finalize_solution_ok_ : Bool

/-- The constant `1e19`. -/
def ten_pow_19 : ℚ := 10000000000000000000

/-- One pass of the constructor loop that sets the two bound sentinels. -/
def sentinel_step (fixed_lower fixed_upper : List Dbl) (j : Nat) (s : Dbl × Dbl) :
    Option (Dbl × Dbl) := do
  let lo ← fixed_lower[j]?
  let up ← fixed_upper[j]?
  pure (if lo ≠ Dbl.ninf then std_min s.1 lo else s.1,
        if up ≠ Dbl.pinf then std_max s.2 up else s.2)

/-- The constructor `ipopt_fixed::ipopt_fixed`. The members it leaves
unassigned, `objective_opt_` and `finalize_solution_ok_`, start with the
arbitrary values `objective_opt_0` and `finalize_solution_ok_0`. -/
def ipopt_fixed_ctor (fixed_lower : List Dbl) (fixed_in : List ℚ) (fixed_upper : List Dbl)
    (random_in : List ℚ) (approx_object : approx_mixed)
    (objective_opt_0 : Dbl) (finalize_solution_ok_0 : Bool) : Option ipopt_fixed := do
  let n_fixed := fixed_in.length
  let n_random := random_in.length
  -- set nlp_lower_bound_inf_, nlp_upper_bound_inf_
  let inf ← for_loop (sentinel_step fixed_lower fixed_upper) n_fixed
    (Dbl.fin (- ten_pow_19), Dbl.fin ten_pow_19)
  -- set prior_n_abs_
  let prior_vec := approx_object.prior_eval fixed_in
  c_assert (prior_vec.length > 0)
  let prior_n_abs := prior_vec.length - 1
  -- set prior_nnz_jac_
  let prior_nnz_jac := (approx_object.prior_jac fixed_in).1.length
  -- set lag_hes_row_, lag_hes_col_, laplace_2_lag_, prior_2_lag_
  let laplace := approx_object.laplace_hes_fix fixed_in random_in
  let weight : List ℚ := List.replicate n_fixed 1
  let prior := approx_object.prior_hes fixed_in weight
  let lag ← merge_sparse laplace.1 laplace.2 prior.1 prior.2 [] [] [] []
  pure {
    n_fixed_ := n_fixed
    n_random_ := n_random
    fixed_lower_ := fixed_lower
    fixed_in_ := fixed_in
    fixed_upper_ := fixed_upper
    random_in_ := random_in
    approx_object_ := approx_object
    nlp_lower_bound_inf_ := inf.1
    nlp_upper_bound_inf_ := inf.2
    prior_n_abs_ := prior_n_abs
    prior_nnz_jac_ := prior_nnz_jac
    lag_hes_row_ := lag.row_out
    lag_hes_col_ := lag.col_out
    laplace_2_lag_ := lag.one_2_out
    prior_2_lag_ := lag.two_2_out
    fixed_tmp_ := List.replicate n_fixed 0
    random_tmp_ := List.replicate n_random 0
    prior_vec_tmp_ := List.replicate (prior_n_abs + 1) 0
    fixed_opt_ := []
    random_opt_ := []
    objective_opt_ := objective_opt_0
    finalize_solution_ok_ := finalize_solution_ok_0 }

/-- The member function `nlp_lower_bound_inf()`. -/
def nlp_lower_bound_inf (a : ipopt_fixed) : Dbl := a.nlp_lower_bound_inf_

/-- The member function `nlp_upper_bound_inf()`. -/
def nlp_upper_bound_inf (a : ipopt_fixed) : Dbl := a.nlp_upper_bound_inf_

/-- The two values of `IndexStyleEnum`. -/
inductive IndexStyleEnum where
  | C_STYLE : IndexStyleEnum
  | FORTRAN_STYLE : IndexStyleEnum
deriving DecidableEq, Repr

/-- The output arguments and return value of `get_nlp_info`. -/
structure nlp_info where
  n : Int
  m : Int
  nnz_jac_g : Int
  nnz_h_lag : Int
  index_style : IndexStyleEnum
  ok : Bool
deriving DecidableEq, Repr

/-- The member function `ipopt_fixed::get_nlp_info`. -/
def get_nlp_info (a : ipopt_fixed) : nlp_info :=
  { n := a.n_fixed_
    m := 2 * a.prior_n_abs_
    nnz_jac_g := 2 * a.prior_nnz_jac_
    nnz_h_lag := a.lag_hes_row_.length
    index_style := IndexStyleEnum.C_STYLE
    ok := true }

/-- The four output buffers and the return value of `get_bounds_info`. -/
structure bounds_info where
  x_l : List Dbl
  x_u : List Dbl
  g_l : List Dbl
  g_u : List Dbl
  ok : Bool
deriving DecidableEq

/-- One pass of the first loop of `get_bounds_info`, over the fixed effects. -/
def bounds_fixed_step (a : ipopt_fixed) (j : Nat) (b : List Dbl × List Dbl) :
    Option (List Dbl × List Dbl) := do
  let lo ← a.fixed_lower_[j]?
  let x_l ←
    if lo = Dbl.ninf then vec_write b.1 j a.nlp_lower_bound_inf_
    else vec_write b.1 j lo
  let up ← a.fixed_upper_[j]?
  if up = Dbl.pinf then
    let x_l ← vec_write x_l j a.nlp_upper_bound_inf_
    pure (x_l, b.2)
  else
    let x_u ← vec_write b.2 j up
    pure (x_l, x_u)

/-- One pass of the second loop of `get_bounds_info`, over the auxiliary
variables. -/
def bounds_abs_step (a : ipopt_fixed) (j : Nat) (b : List Dbl × List Dbl) :
    Option (List Dbl × List Dbl) := do
  let x_l ← vec_write b.1 (a.n_fixed_ + j) a.nlp_lower_bound_inf_
  let x_u ← vec_write b.2 (a.n_fixed_ + j) a.nlp_upper_bound_inf_
  pure (x_l, x_u)

/-- One pass of the third loop of `get_bounds_info`, over the constraints. -/
def bounds_g_step (a : ipopt_fixed) (j : Nat) (b : List Dbl × List Dbl) :
    Option (List Dbl × List Dbl) := do
  let g_l ← vec_write b.1 j (Dbl.fin 0)
  let g_u ← vec_write b.2 j a.nlp_upper_bound_inf_
  pure (g_l, g_u)

/-- The member function `ipopt_fixed::get_bounds_info`; `x_l`, `x_u`, `g_l` and
`g_u` are the contents of the caller's buffers on entry. -/
def get_bounds_info (a : ipopt_fixed) (n : Int) (x_l x_u : List Dbl) (m : Int)
    (g_l g_u : List Dbl) : Option bounds_info := do
  c_assert (n > 0 ∧ n.toNat = a.n_fixed_ + a.prior_n_abs_)
  c_assert (m ≥ 0 ∧ m.toNat = 2 * a.prior_n_abs_)
  let x ← for_loop (bounds_fixed_step a) a.n_fixed_ (x_l, x_u)
  let x ← for_loop (bounds_abs_step a) a.prior_n_abs_ x
  let g ← for_loop (bounds_g_step a) (2 * a.prior_n_abs_) (g_l, g_u)
  pure { x_l := x.1, x_u := x.2, g_l := g.1, g_u := g.2, ok := true }

/-- The two loops of `get_starting_point` that fill the buffer `x` from
`fixed_in_` and from the prior vector `vec`. -/
def get_starting_point_fill (a : ipopt_fixed) (vec : List ℚ) (x : List ℚ) :
    Option (List ℚ) := do
  let x ← for_loop (fun j x => do
      let v ← a.fixed_in_[j]?
      vec_write x j v) a.n_fixed_ x
  for_loop (fun j x => do
      let v ← vec[1 + j]?
      vec_write x (a.n_fixed_ + j) |v|) a.prior_n_abs_ x

/-- The member function `ipopt_fixed::get_starting_point`: the contents of the
buffer `x` on return, and the return value. The buffers `z_L`, `z_U` and
`lambda` are neither read nor written. -/
def get_starting_point (a : ipopt_fixed) (n : Int) (init_x : Bool) (x : List ℚ)
    (init_z : Bool) (m : Int) (init_lambda : Bool) : Option (List ℚ × Bool) := do
  c_assert (init_x = true)
  c_assert (init_z = false)
  c_assert (init_lambda = false)
  c_assert (n > 0 ∧ n.toNat = a.n_fixed_ + a.prior_n_abs_)
  c_assert (m ≥ 0 ∧ m.toNat = 2 * a.prior_n_abs_)
  let vec := a.approx_object_.prior_eval a.fixed_in_
  c_assert (vec.length > 1 + a.prior_n_abs_)
  let x ← get_starting_point_fill a vec x
  pure (x, true)

/-- The first statement of `eval_f`: start the incumbent when `fixed_opt_` is
empty, and choose the random effects the optimization starts from. -/
def eval_f_start (a : ipopt_fixed) : ipopt_fixed :=
  if a.fixed_opt_.length = 0 then
    { a with
      objective_opt_ := Dbl.pinf
      fixed_opt_ := List.replicate a.n_fixed_ 0
      random_opt_ := List.replicate a.n_random_ 0
      random_tmp_ := a.random_in_ }
  else
    { a with random_tmp_ := a.random_opt_ }

/-- The values `eval_f` computes before it compares with the incumbent. -/
structure eval_f_values where
  fixed_tmp : List ℚ
  random_tmp : List ℚ
  H : ℚ
  prior_vec_tmp : List ℚ
  obj_value : ℚ
  obj_tmp : ℚ

/-- The body of `eval_f` from the copy of `x` into `fixed_tmp_` to the
computation of the true objective `obj_tmp`; `a` is the state after
`eval_f_start`. -/
def eval_f_compute (a : ipopt_fixed) (x : List ℚ) : Option eval_f_values := do
  let fixed_tmp ← for_loop (fun j t => do
      let v ← x[j]?
      vec_write t j v) a.n_fixed_ a.fixed_tmp_
  let random_tmp := a.approx_object_.optimize_random fixed_tmp a.random_tmp_
  let H := a.approx_object_.laplace_eval fixed_tmp fixed_tmp random_tmp
  let prior_vec_tmp := a.approx_object_.prior_eval fixed_tmp
  let p0 ← prior_vec_tmp[0]?
  let obj_value ← for_loop (fun j v => do
      let s ← x[a.n_fixed_ + j]?
      pure (v + s)) a.prior_n_abs_ (H + p0)
  let obj_tmp ← for_loop (fun j v => do
      let p ← prior_vec_tmp[1 + j]?
      pure (v + |p|)) a.prior_n_abs_ (H + p0)
  pure { fixed_tmp := fixed_tmp, random_tmp := random_tmp, H := H,
         prior_vec_tmp := prior_vec_tmp, obj_value := obj_value, obj_tmp := obj_tmp }

/-- The last statement of `eval_f`: store the temporaries and replace the
incumbent when the true objective is smaller. -/
def eval_f_finish (a : ipopt_fixed) (v : eval_f_values) : ipopt_fixed :=
  let a := { a with fixed_tmp_ := v.fixed_tmp, random_tmp_ := v.random_tmp,
                    prior_vec_tmp_ := v.prior_vec_tmp }
  if Dbl.fin v.obj_tmp < a.objective_opt_ then
    { a with objective_opt_ := Dbl.fin v.obj_tmp, fixed_opt_ := v.fixed_tmp,
             random_opt_ := v.random_tmp }
  else a

/-- The member function `ipopt_fixed::eval_f`: the state after the call, the
value written to `obj_value`, and the return value. -/
def eval_f (a : ipopt_fixed) (n : Int) (x : List ℚ) (new_x : Bool) :
    Option (ipopt_fixed × ℚ × Bool) := do
  c_assert (n > 0 ∧ n.toNat = a.n_fixed_ + a.prior_n_abs_)
  let a := eval_f_start a
  let v ← eval_f_compute a x
  pure (eval_f_finish a v, v.obj_value, true)

/-- The true objective `obj_tmp` that a call of `eval_f` in state `a` computes. -/
def eval_f_obj_tmp (a : ipopt_fixed) (x : List ℚ) : Option ℚ :=
  (eval_f_compute (eval_f_start a) x).map (fun v => v.obj_tmp)

/-- A sequence of `eval_f` calls, each given by its `x` and `new_x` and made with
`n = n_fixed_ + prior_n_abs_`: for each call, in order, the state after it and
the true objective `obj_tmp` it computed. -/
def eval_f_run (a : ipopt_fixed) : List (List ℚ × Bool) → Option (List (ipopt_fixed × ℚ))
  | [] => some []
  | c :: cs => do
    let t ← eval_f_obj_tmp a c.1
    let r ← eval_f a ((a.n_fixed_ + a.prior_n_abs_ : Nat) : Int) c.1 c.2
    let rest ← eval_f_run r.1 cs
    pure ((r.1, t) :: rest)

/-- The states of an adapter: the one the constructor returns, and every state
a completed `eval_f` call leaves. -/
inductive reachable : ipopt_fixed → Prop
  | ctor {fixed_lower fixed_in fixed_upper random_in approx_object objective_opt_0
      finalize_solution_ok_0 a} :
      ipopt_fixed_ctor fixed_lower fixed_in fixed_upper random_in approx_object
        objective_opt_0 finalize_solution_ok_0 = some a → reachable a
  | eval_f {a n x new_x r} : reachable a → eval_f a n x new_x = some r → reachable r.1

/-- The finite number `q` is an entry of `v` and no finite entry of `v` is
smaller. -/
def smallest_finite (v : List Dbl) (q : ℚ) : Prop :=
  Dbl.fin q ∈ v ∧ ∀ q', Dbl.fin q' ∈ v → q ≤ q'

/-- The finite number `q` is an entry of `v` and no finite entry of `v` is
larger. -/
def largest_finite (v : List Dbl) (q : ℚ) : Prop :=
  Dbl.fin q ∈ v ∧ ∀ q', Dbl.fin q' ∈ v → q' ≤ q

/-! ## The derivative callbacks and `finalize_solution` -/

/-- The member function `ipopt_fixed::eval_grad_f`: the contents of the buffer
`grad_f` on return, and the return value. -/
def eval_grad_f (a : ipopt_fixed) (n : Int) (x : List ℚ) (new_x : Bool) (grad_f : List ℚ) :
    Option (List ℚ × Bool) := do
  c_assert (n = 2)
  let grad_f ← vec_write grad_f 0 0
  let x1 ← x[1]?
  let grad_f ← vec_write grad_f 1 (-2 * (x1 - 2))
  pure (grad_f, true)

/-- The member function `ipopt_fixed::eval_g`: the contents of the buffer `g` on
return, and the return value. The second assertion of the source is
`assert( m = 1 )`: it assigns 1 to `m` and tests the value assigned. -/
def eval_g (a : ipopt_fixed) (n : Int) (x : List ℚ) (new_x : Bool) (m : Int) (g : List ℚ) :
    Option (List ℚ × Bool) := do
  c_assert (n = 2)
  let m : Int := 1
  c_assert (m ≠ 0)
  let x0 ← x[0]?
  let x1 ← x[1]?
  let g ← vec_write g 0 (-(x0 * x0 + x1 - 1))
  pure (g, true)

/-- The three output buffers of `eval_jac_g` and of `eval_h` on return (`values`
is `none` for a null pointer), and the return value. -/
structure sparse_out where
  iRow : List Int
  jCol : List Int
  values : Option (List ℚ)
  ok : Bool
deriving DecidableEq

/-- The member function `ipopt_fixed::eval_jac_g`; `iRow`, `jCol` and `values`
are the contents of the caller's buffers on entry, `values = none` standing
for `values == NULL`. -/
def eval_jac_g (a : ipopt_fixed) (n : Int) (x : List ℚ) (new_x : Bool) (m : Int)
    (nele_jac : Int) (iRow jCol : List Int) (values : Option (List ℚ)) :
    Option sparse_out := do
  c_assert (nele_jac = 2)
  match values with
  | none =>
    let iRow ← vec_write iRow 0 0
    let jCol ← vec_write jCol 0 0
    let iRow ← vec_write iRow 1 0
    let jCol ← vec_write jCol 1 1
    pure { iRow := iRow, jCol := jCol, values := none, ok := true }
  | some values =>
    c_assert (n = 2)
    c_assert (m = 1)
    let x0 ← x[0]?
    let values ← vec_write values 0 (-2 * x0)
    let values ← vec_write values 1 (-1)
    pure { iRow := iRow, jCol := jCol, values := some values, ok := true }

/-- The member function `ipopt_fixed::eval_h`; buffers as for `eval_jac_g`. -/
def eval_h (a : ipopt_fixed) (n : Int) (x : List ℚ) (new_x : Bool) (obj_factor : ℚ)
    (m : Int) (lambda : List ℚ) (new_lambda : Bool) (nele_hess : Int)
    (iRow jCol : List Int) (values : Option (List ℚ)) : Option sparse_out := do
  c_assert (nele_hess = 2)
  match values with
  | none =>
    let iRow ← vec_write iRow 0 0
    let jCol ← vec_write jCol 0 0
    let iRow ← vec_write iRow 1 1
    let jCol ← vec_write jCol 1 1
    pure { iRow := iRow, jCol := jCol, values := none, ok := true }
  | some values =>
    c_assert (n = 2)
    c_assert (m = 1)
    let l0 ← lambda[0]?
    let values ← vec_write values 0 (-2 * l0)
    let values ← vec_write values 1 (-2 * obj_factor)
    pure { iRow := iRow, jCol := jCol, values := some values, ok := true }

/-- The values of `Ipopt::SolverReturn` that the documentation of
`finalize_solution` lists. -/
inductive SolverReturn where
  | SUCCESS : SolverReturn
  | MAXITER_EXCEEDED : SolverReturn
  | CPUTIME_EXCEEDED : SolverReturn
  | STOP_AT_TINY_STEP : SolverReturn
  | STOP_AT_ACCEPTABLE_POINT : SolverReturn
  | LOCAL_INFEASIBILITY : SolverReturn
  | USER_REQUESTED_STOP : SolverReturn
  | DIVERGING_ITERATES : SolverReturn
  | RESTORATION_FAILURE : SolverReturn
  | ERROR_IN_STEP_COMPUTATION : SolverReturn
  | INVALID_NUMBER_DETECTED : SolverReturn
deriving DecidableEq, Repr

/-- The constant `tol = 1e-08` of `finalize_solution`. -/
def finalize_tol : ℚ := 1 / 100000000

/-- The value of the local `ok` at the end of `finalize_solution`. An operand
to the right of `&&` is read only when the left operand holds. -/
def finalize_solution_check (n : Int) (x z_L z_U : List ℚ) (m : Int) (lambda : List ℚ) :
    Option Bool := do
  let ok := true
  let tol := finalize_tol
  -- check problem dimensions
  let ok := ok && decide (n = 2)
  let ok := ok && decide (m = 1)
  -- check that x is feasible
  let x0 ← x[0]?
  let ok := ok && (decide (-1 ≤ x0) && decide (x0 ≤ 1))
  -- check that the bound multipliers are feasible
  let zl0 ← z_L[0]?
  let c ← if 0 ≤ zl0 then (do let zl1 ← z_L[1]?; pure (decide (0 ≤ zl1))) else pure false
  let ok := ok && c
  let zu0 ← z_U[0]?
  let c ← if 0 ≤ zu0 then (do let zu1 ← z_U[1]?; pure (decide (0 ≤ zu1))) else pure false
  let ok := ok && c
  -- check that the constraint on g(x) is satisfied
  let x1 ← x[1]?
  let ok := ok && decide (|x0 * x0 + x1 - 1| ≤ 10 * tol)
  -- check the partial of the Lagrangian w.r.t x[0]
  let l0 ← lambda[0]?
  let ok := ok && decide (|-l0 * 2 * x0 - zl0 + zu0| ≤ 10 * tol)
  -- check the partial of the Lagrangian w.r.t x[1]
  let ok := ok && decide (|2 * (x1 - 2) + l0| ≤ 10 * tol)
  pure ok

/-- The member function `ipopt_fixed::finalize_solution`: the state after the
call. The arguments `ip_data` and `ip_cq` are not used. -/
def finalize_solution (a : ipopt_fixed) (status : SolverReturn) (n : Int)
    (x z_L z_U : List ℚ) (m : Int) (g lambda : List ℚ) (obj_value : ℚ) :
    Option ipopt_fixed := do
  let ok ← finalize_solution_check n x z_L z_U m lambda
  pure { a with finalize_solution_ok_ := ok }

/-! ## The Hessian recorders -/

/-- The vectors `row`, `col` and `key` that the recorders fill with `push_back`
(`key` is used by `cppad_mixed::record_hes_ran` only). -/
structure hes_lists where
  row : List Nat
  col : List Nat
  key : List Nat
deriving DecidableEq, Repr

/-- A `CppAD::vector< std::set<size_t> >`: each set is the list of its elements
in ascending order, the order in which a `std::set` iterator visits them. -/
abbrev sparsity_pattern := List (List Nat)

/-- The member variables of `approx_mixed` that `record_hes_ran` and
`record_hessian` use. The two functions stand for CppAD: `hes_ran_sparsity`
is the pattern `a3_f.RevSparseHes(n_random_, s)` of the function recorded at
`(fixed_vec, random_vec)`, and `hessian_sparsity` is the pattern
`a2_f.RevSparseHes(n_both, s)`. -/
structure approx_mixed_recorder where
  n_fixed_ : Nat
  n_random_ : Nat
  hes_ran_row_ : List Nat
  hes_ran_col_ : List Nat
  hessian_row_ : List Nat
  hessian_col_ : List Nat
  hes_ran_sparsity : List ℚ → List ℚ → sparsity_pattern
  hessian_sparsity : List ℚ → List ℚ → sparsity_pattern

/-- The body of the inner loops of `approx_mixed::record_hes_ran` and
`approx_mixed::record_hessian` for the element `j` of row `i`, after the
test `i >= n_fixed_` that holds throughout the loop of `record_hessian`. -/
def lower_step (i : Nat) (acc : hes_lists) (j : Nat) : hes_lists :=
  if i ≥ j then { acc with row := acc.row ++ [i], col := acc.col ++ [j] } else acc

/-- The member function `approx_mixed::record_hes_ran`: the object after the
call. The calls of `pack`, `unpack` and of CppAD record and use values only. -/
def approx_mixed_record_hes_ran (obj : approx_mixed_recorder) (fixed_vec random_vec : List ℚ) :
    Option approx_mixed_recorder := do
  let pattern := obj.hes_ran_sparsity fixed_vec random_vec
  -- hes_ran_row_.clear(); hes_ran_col_.clear();
  let acc ← for_loop (fun i acc => do
      let s ← pattern[i]?
      pure (s.foldl (lower_step i) acc)) obj.n_random_ { row := [], col := [], key := [] }
  pure { obj with hes_ran_row_ := acc.row, hes_ran_col_ := acc.col }

/-- The member function `approx_mixed::record_hessian`: the object after the
call. The first two loops copy `fixed_vec` and `random_vec` into `a2_both`. -/
def approx_mixed_record_hessian (obj : approx_mixed_recorder) (fixed_vec random_vec : List ℚ) :
    Option approx_mixed_recorder := do
  let n_both := obj.n_fixed_ + obj.n_random_
  let a2_both : List ℚ := List.replicate n_both 0
  let a2_both ← for_loop (fun j b => do
      let v ← fixed_vec[j]?
      vec_write b j v) obj.n_fixed_ a2_both
  let _a2_both ← for_loop (fun j b => do
      let v ← random_vec[j]?
      vec_write b (obj.n_fixed_ + j) v) obj.n_random_ a2_both
  let pattern := obj.hessian_sparsity fixed_vec random_vec
  -- hessian_row_.clear(); hessian_col_.clear();
  let acc ← for_loop (fun k acc => do
      let i := obj.n_fixed_ + k
      let s ← pattern[i]?
      pure (s.foldl (fun acc j => if i ≥ obj.n_fixed_ then lower_step i acc j else acc) acc))
    (n_both - obj.n_fixed_) { row := [], col := [], key := [] }
  pure { obj with hessian_row_ := acc.row, hessian_col_ := acc.col }

/-- The member variables of `cppad_mixed` that `record_hes_ran` uses.
`ran_like_sparsity` stands for CppAD: it is the pattern
`a1_ran_like_.RevSparseHes(n_total, s, transpose)` of the recorded function
`a1_ran_like_`. -/
structure cppad_mixed where
  n_fixed_ : Nat
  n_random_ : Nat
  record_hes_ran_done_ : Bool
  hes_ran_row_ : List Nat
  hes_ran_col_ : List Nat
  ran_like_sparsity : sparsity_pattern
deriving DecidableEq

/-- The body of the inner loop of `cppad_mixed::record_hes_ran` for the element
`j` of row `i`. The key `i + j * n_total` is taken in exact arithmetic: `i` and
`j` are below `n_total`, the length of vectors the call allocates, so the key
is below `n_total^2` and `size_t` cannot wrap for fewer than `2^32`
variables. -/
def cppad_lower_step (n_fixed n_total i : Nat) (acc : hes_lists) (j : Nat) : Option hes_lists := do
  c_assert (j ≥ n_fixed)
  if i ≥ j then
    pure { row := acc.row ++ [i], col := acc.col ++ [j], key := acc.key ++ [i + j * n_total] }
  else pure acc

/-- The member function `cppad_mixed::record_hes_ran` (with
`DISMOD_AT_SET_SPARSITY` equal to 1, as the file defines it): the object after
the call. -/
def cppad_mixed_record_hes_ran (obj : cppad_mixed) (fixed_vec random_vec : List ℚ) :
    Option cppad_mixed := do
  c_assert (!obj.record_hes_ran_done_)
  c_assert (fixed_vec.length = obj.n_fixed_)
  c_assert (random_vec.length = obj.n_random_)
  let n_total := obj.n_fixed_ + obj.n_random_
  let pattern := obj.ran_like_sparsity
  let acc ← for_loop (fun k acc => do
      let i := obj.n_fixed_ + k
      let s ← pattern[i]?
      s.foldlM (cppad_lower_step obj.n_fixed_ n_total i) acc)
    (n_total - obj.n_fixed_) { row := [], col := [], key := [] }
  -- set hes_ran_row_ and hes_ran_col_ in column major order
  let K := acc.row.length
  let ind := index_sort acc.key
  let out ← for_loop (fun k out => do
      let t ← ind[k]?
      let r ← acc.row[t]?
      let hes_ran_row ← vec_write out.1 k r
      let c ← acc.col[t]?
      let hes_ran_col ← vec_write out.2 k c
      pure (hes_ran_row, hes_ran_col)) acc.row.length (List.replicate K 0, List.replicate K 0)
  pure { obj with hes_ran_row_ := out.1, hes_ran_col_ := out.2, record_hes_ran_done_ := true }

/-- The invariant of `std::set<size_t>` for each set of a pattern: the elements
are listed in strictly ascending order. -/
def std_sets (pattern : sparsity_pattern) : Prop :=
  ∀ s ∈ pattern, s.Sorted (fun a b => a < b)

instance (pattern : sparsity_pattern) : Decidable (std_sets pattern) :=
  inferInstanceAs (Decidable (∀ s ∈ pattern, s.Sorted (fun a b => a < b)))

/-- The pattern entries `(i, j)` with `lo <= i < lo + cnt` and `j <= i`, row by
row and within a row in the order of the set. -/
def lower_entries (pattern : sparsity_pattern) (lo cnt : Nat) : List (Nat × Nat) :=
  (List.range' lo cnt).flatMap
    (fun i => ((pattern.getD i []).filter (fun j => j ≤ i)).map (fun j => (i, j)))

/-- Column major order of two index pairs `(row, col)`: the column does not
decrease, and the row does not decrease when the columns are equal. -/
def col_major (p q : Nat × Nat) : Prop := p.2 ≤ q.2 ∧ (p.2 = q.2 → p.1 ≤ q.1)

/-- Row major order of two index pairs `(row, col)`: the row does not decrease,
and the column does not decrease when the rows are equal. -/
def row_major (p q : Nat × Nat) : Prop := p.1 ≤ q.1 ∧ (p.1 = q.1 → p.2 ≤ q.2)

instance (p q : Nat × Nat) : Decidable (col_major p q) :=
  inferInstanceAs (Decidable (p.2 ≤ q.2 ∧ (p.2 = q.2 → p.1 ≤ q.1)))

instance (p q : Nat × Nat) : Decidable (row_major p q) :=
  inferInstanceAs (Decidable (p.1 ≤ q.1 ∧ (p.1 = q.1 → p.2 ≤ q.2)))

/-- A recorder object for one fixed effect and three random effects. Its pattern
over the random effects has the entries (0,0), (1,1), (2,2), (0,2) and (2,0);
its pattern over all four variables has the rows `{0,1}`, `{0,1,3}`, `{2}`
and `{1,3}`. -/
def recorder_example : approx_mixed_recorder :=
  { n_fixed_ := 1, n_random_ := 3
    hes_ran_row_ := [], hes_ran_col_ := [], hessian_row_ := [], hessian_col_ := []
    hes_ran_sparsity := fun _ _ => [[0, 2], [1], [0, 2]]
    hessian_sparsity := fun _ _ => [[0, 1], [0, 1, 3], [2], [1, 3]] }

/-- A `cppad_mixed` object for one fixed effect and three random effects whose
pattern has, in the rows of the random effects, the entries (1,1), (2,2),
(3,3), (1,3) and (3,1). -/
def cppad_example : cppad_mixed :=
  { n_fixed_ := 1, n_random_ := 3, record_hes_ran_done_ := false
    hes_ran_row_ := [], hes_ran_col_ := []
    ran_like_sparsity := [[], [1, 3], [2], [1, 3]] }

/-! ## data_subset -/

/-- The fields of `data_struct`, a row of the data table, that `data_subset`
reads. -/
structure data_struct where
  integrand_id : Int
  density_id : Int
  node_id : Int
  weight_id : Int
  hold_out : Int
  meas_value : ℚ
  meas_std : ℚ
  age_lower : ℚ
  age_upper : ℚ
  time_lower : ℚ
  time_upper : ℚ
deriving DecidableEq

/-- The fields of `covariate_struct`, a row of the covariate table, that the
embedded code reads; `max_difference` may be an infinity. -/
structure covariate_struct where
  reference : ℚ
  max_difference : Dbl
deriving DecidableEq

/-- The member functions of `child_info` that `data_subset` calls. -/
structure child_info where
  child_size : Nat
  table_id2child : Nat → Nat

/-- An element of the vector that `data_subset` returns: the fields of
`data_struct`, the field `original_id` of type `int`, and the covariate
differences `x`. -/
structure data_subset_struct where
  original_id : Int
  integrand_id : Int
  density_id : Int
  node_id : Int
  weight_id : Int
  hold_out : Int
  meas_value : ℚ
  meas_std : ℚ
  age_lower : ℚ
  age_upper : ℚ
  time_lower : ℚ
  time_upper : ℚ
  x : List ℚ
deriving DecidableEq

/-- Conversion of a `size_t` to `int`, a 32 bit two's complement integer. -/
def int_of_size_t (n : Nat) : Int :=
  (((n + 2 ^ 31) % 2 ^ 32 : Nat) : Int) - 2 ^ 31

/-- The statements
`difference = 0.0; if( ! std::isnan(x_j) ) difference = x_j - reference;`
of both loops of `data_subset`; a covariate value that is nan (null) is
`none`. -/
def data_subset_difference (x_j : Option ℚ) (reference : ℚ) : ℚ :=
  match x_j with
  | none => 0
  | some v => v - reference

/-- The value that the first loop of `data_subset` gives `ok[data_id]`. -/
def data_subset_ok (covariate_value : List (Option ℚ))
    (covariate_table : List covariate_struct) (child_object : child_info)
    (data_id : Nat) : Option Bool :=
  let n_child := child_object.child_size
  let n_covariate := covariate_table.length
  let child := child_object.table_id2child data_id
  let ok := decide (child ≤ n_child)
  if ok then
    for_loop
      (fun j ok => do
        let x_j ← covariate_value[data_id * n_covariate + j]?
        let c ← covariate_table[j]?
        let difference := data_subset_difference x_j c.reference
        pure (ok && decide (Dbl.fin |difference| ≤ c.max_difference)))
      n_covariate ok
  else some ok

/-- The first loop of `data_subset`: the vector `ok` and the count `n_subset`. -/
def data_subset_count (n_data : Nat) (covariate_value : List (Option ℚ))
    (covariate_table : List covariate_struct) (child_object : child_info) :
    Option (List Bool × Nat) :=
  for_loop
    (fun data_id s => do
      let b ← data_subset_ok covariate_value covariate_table child_object data_id
      let ok ← vec_write s.1 data_id b
      pure (ok, if b then s.2 + 1 else s.2))
    n_data (List.replicate n_data false, 0)

/-- The covariate loop inside the second loop of `data_subset`: it fills
`one_sample.x`, resized to `n_covariate` elements. -/
def data_subset_x (covariate_value : List (Option ℚ))
    (covariate_table : List covariate_struct) (data_id : Nat) : Option (List ℚ) :=
  let n_covariate := covariate_table.length
  for_loop
    (fun j x => do
      let x_j ← covariate_value[data_id * n_covariate + j]?
      let c ← covariate_table[j]?
      let difference := data_subset_difference x_j c.reference
      vec_write x j difference)
    n_covariate (List.replicate n_covariate 0)

/-- The second loop of `data_subset`: it fills `data_subset_obj`, resized to
`n_subset` elements `fresh`, at the positions `subset_id = 0, 1, ...`. -/
def data_subset_fill (data_table : List data_struct) (covariate_value : List (Option ℚ))
    (covariate_table : List covariate_struct) (ok : List Bool) (n_subset : Nat)
    (fresh : data_subset_struct) : Option (List data_subset_struct × Nat) :=
  for_loop
    (fun data_id s => do
      let b ← ok[data_id]?
      if b then
        let _one_sample ← s.1[s.2]?
        let x ← data_subset_x covariate_value covariate_table data_id
        let row ← data_table[data_id]?
        let obj ← vec_write s.1 s.2
          { original_id := int_of_size_t data_id
            integrand_id := row.integrand_id
            density_id := row.density_id
            node_id := row.node_id
            weight_id := row.weight_id
            hold_out := row.hold_out
            meas_value := row.meas_value
            meas_std := row.meas_std
            age_lower := row.age_lower
            age_upper := row.age_upper
            time_lower := row.time_lower
            time_upper := row.time_upper
            x := x }
        pure (obj, s.2 + 1)
      else pure s)
    data_table.length (List.replicate n_subset fresh, 0)

/-- The function `data_subset` of `devel/utility/data_subset.cpp`. The last
argument is the content of an element of the result vector after `resize`,
which the source does not initialise. -/
def data_subset (data_table : List data_struct) (covariate_value : List (Option ℚ))
    (covariate_table : List covariate_struct) (child_object : child_info)
    (fresh : data_subset_struct) : Option (List data_subset_struct) :=
  if data_table.length = 0 then some []
  else do
    let c ← data_subset_count data_table.length covariate_value covariate_table child_object
    let r ← data_subset_fill data_table covariate_value covariate_table c.1 c.2 fresh
    pure r.1

/-- Following the specification: the rows that `data_subset` keeps. The node of
the row is the parent or one of its descendants, and every covariate difference
is within the maximum difference of the covariate. -/
def data_subset_keep (covariate_value : List (Option ℚ))
    (covariate_table : List covariate_struct) (child_object : child_info)
    (data_id : Nat) : Bool :=
  decide (child_object.table_id2child data_id ≤ child_object.child_size) &&
  (List.range covariate_table.length).all (fun j =>
    match covariate_value[data_id * covariate_table.length + j]?, covariate_table[j]? with
    | some x_j, some c =>
      decide (Dbl.fin |data_subset_difference x_j c.reference| ≤ c.max_difference)
    | _, _ => false)

/-- Following the specification: the entry of the result for the row `row` with
index `data_id` of the data table. -/
def data_subset_entry (covariate_value : List (Option ℚ))
    (covariate_table : List covariate_struct) (data_id : Nat) (row : data_struct) :
    data_subset_struct :=
  { original_id := data_id
    integrand_id := row.integrand_id
    density_id := row.density_id
    node_id := row.node_id
    weight_id := row.weight_id
    hold_out := row.hold_out
    meas_value := row.meas_value
    meas_std := row.meas_std
    age_lower := row.age_lower
    age_upper := row.age_upper
    time_lower := row.time_lower
    time_upper := row.time_upper
    x := (List.range covariate_table.length).filterMap (fun j =>
      match covariate_value[data_id * covariate_table.length + j]?, covariate_table[j]? with
      | some x_j, some c => some (data_subset_difference x_j c.reference)
      | _, _ => none) }

/-- Following the specification: `data_subset` as an order-preserving filter of
the data table. -/
def data_subset_filter (data_table : List data_struct) (covariate_value : List (Option ℚ))
    (covariate_table : List covariate_struct) (child_object : child_info) :
    List data_subset_struct :=
  (List.range data_table.length).filterMap (fun data_id =>
    if data_subset_keep covariate_value covariate_table child_object data_id then
      (data_table[data_id]?).map (data_subset_entry covariate_value covariate_table data_id)
    else none)

/-! ## bnd_mulcov_command -/

/-- The C library test `isspace` in the C locale: the space and the characters
with the codes 9 to 13. -/
def isspace (c : Char) : Bool :=
  c.toNat = 32 || (9 ≤ c.toNat && c.toNat ≤ 13)

/-- The decimal digits that start `cs`, read as a number. -/
def atoi_digits (cs : List Char) : Int :=
  (cs.takeWhile Char.isDigit).foldl (fun n c => 10 * n + (c.toNat - 48 : Nat)) 0

/-- The C library function `atoi` (its result is not defined when the number
does not fit `int`): white space, an optional sign (the characters with the
codes 45 and 43), and the decimal digits that follow; whatever comes after
the digits is ignored. -/
def atoi (s : String) : Int :=
  match s.toList.dropWhile isspace with
  | [] => 0
  | c :: cs =>
    if c.toNat = 45 then - atoi_digits cs
    else if c.toNat = 43 then atoi_digits cs
    else atoi_digits (c :: cs)

/-- The type `mulcov_type_enum` of a covariate multiplier. -/
inductive mulcov_type_enum where
  | rate_value_enum
  | meas_value_enum
  | meas_noise_enum
deriving DecidableEq

/-- The fields of `mulcov_struct`, a row of the mulcov table, that
`bnd_mulcov_command` reads. -/
structure mulcov_struct where
  mulcov_type : mulcov_type_enum
  covariate_id : Int
deriving DecidableEq

/-- A row of the bnd_mulcov table; `none` is the value nan. -/
structure bnd_mulcov_struct where
  lower : Option Dbl
  upper : Option Dbl
deriving DecidableEq

/-- Conversion of an `int` to `size_t`. -/
def size_t_of_int (i : Int) : Nat := (i % (size_t_mod : Int)).toNat

/-- The field of `data_subset_struct`, as declared for the rows of the
data_subset table, that `bnd_mulcov_command` reads. -/
structure data_subset_row where
  data_id : Int
deriving DecidableEq

/-- The loop over `subset_id` of `bnd_mulcov_command`: the pair
`(cov_min_diff, cov_max_diff)` for the covariate `covariate_id`. A covariate
value that is nan (null) is `none`. -/
def bnd_mulcov_diff (data_cov_value : List (Option ℚ))
    (data_subset_table : List data_subset_row)
    (n_covariate covariate_id : Nat) (cov_ref : ℚ) : Option (Dbl × Dbl) :=
  for_loop
    (fun subset_id s => do
      let row ← data_subset_table[subset_id]?
      let data_id := size_t_of_int row.data_id
      let index := (data_id * n_covariate + covariate_id) % size_t_mod
      let value ← data_cov_value[index]?
      match value with
      | none => pure s
      | some v =>
        let diff := v - cov_ref
        pure (std_min s.1 (Dbl.fin diff), std_max s.2 (Dbl.fin diff)))
    data_subset_table.length (Dbl.pinf, Dbl.ninf)

/-- The quotient `a / b` of a finite double `a` and a double `b` that is not
zero; the quotient by an infinity is zero. -/
def bnd_mulcov_quotient (a : ℚ) (b : Dbl) : Dbl :=
  match b with
  | Dbl.fin q => Dbl.fin (a / q)
  | _ => Dbl.fin 0

/-- The pair `(lower, upper)` that `bnd_mulcov_command` computes from
`cov_min_diff` and `cov_max_diff`. -/
def bnd_mulcov_bound (max_effect : ℚ) (cov_min_diff cov_max_diff : Dbl) : Dbl × Dbl :=
  let upper := Dbl.pinf
  let lower := Dbl.ninf
  let (lower, upper) :=
    if Dbl.fin 0 < cov_max_diff then
      (std_max lower (bnd_mulcov_quotient (- max_effect) cov_max_diff),
       std_min upper (bnd_mulcov_quotient max_effect cov_max_diff))
    else (lower, upper)
  let (lower, upper) :=
    if cov_min_diff < Dbl.fin 0 then
      let upper := std_min upper (bnd_mulcov_quotient (- max_effect) cov_min_diff)
      let lower := std_max upper (bnd_mulcov_quotient max_effect cov_min_diff)
      (lower, upper)
    else (lower, upper)
  if upper = Dbl.pinf then (Dbl.fin 0, Dbl.fin 0) else (lower, upper)

/-- The function `bnd_mulcov_command` of `devel/cmd/bnd_mulcov_command.cpp` up
to the point where it writes `bnd_mulcov_table` to the database: the result is
that table. -/
def bnd_mulcov_command (max_abs_effect : String) (data_cov_value : List (Option ℚ))
    (data_subset_table : List data_subset_row) (covariate_table : List covariate_struct)
    (mulcov_table : List mulcov_struct) : Option (List bnd_mulcov_struct) := do
  let max_effect : ℚ := (atoi max_abs_effect : Int)
  let n_covariate := covariate_table.length
  let n_mulcov := mulcov_table.length
  let bnd_mulcov_table ← for_loop
    (fun mulcov_id t => vec_write t mulcov_id ({ lower := none, upper := none } : bnd_mulcov_struct))
    n_mulcov (List.replicate n_mulcov { lower := none, upper := none })
  for_loop
    (fun covariate_id bnd_mulcov_table => do
      let c ← covariate_table[covariate_id]?
      let cov_ref := c.reference
      let d ← bnd_mulcov_diff data_cov_value data_subset_table n_covariate covariate_id cov_ref
      let b := bnd_mulcov_bound max_effect d.1 d.2
      for_loop
        (fun mulcov_id bnd_mulcov_table => do
          let m ← mulcov_table[mulcov_id]?
          if size_t_of_int m.covariate_id = covariate_id then
            if m.mulcov_type ≠ mulcov_type_enum.meas_noise_enum then
              vec_write bnd_mulcov_table mulcov_id { lower := some b.1, upper := some b.2 }
            else pure bnd_mulcov_table
          else pure bnd_mulcov_table)
        n_mulcov bnd_mulcov_table)
    n_covariate bnd_mulcov_table

/-! ## Addition of doubles -/

/-- The integer nearest to `q`, the even one of the two when `q` lies halfway
between two integers. -/
def round_half_even (q : ℚ) : Int :=
  let f := ⌊q⌋
  if q - f < 1 / 2 then f
  else if 1 / 2 < q - f then f + 1
  else if f % 2 = 0 then f else f + 1

/-- The double nearest to the positive number `q` (IEEE 754 binary64, round to
nearest, ties to even): 53 significant bits, the exponent of the last bit at
least -1074. A number beyond the largest double is rounded as if the exponents
had no upper end. -/
def round_double_pos (q : ℚ) : ℚ :=
  let e := max (Int.log 2 q) (-1022)
  let ulp : ℚ := 2 ^ (e - 52)
  round_half_even (q / ulp) * ulp

/-- The double nearest to `q`. -/
def round_double (q : ℚ) : ℚ :=
  if 0 < q then round_double_pos q
  else if q < 0 then - round_double_pos (- q)
  else 0

/-- The sum `a + b` of two doubles, as the machine computes it: the exact sum
rounded to the nearest double. -/
def double_add (a b : ℚ) : ℚ := round_double (a + b)

/-- The body of `eval_f` from the copy of `x` into `fixed_tmp_` to the
computation of the true objective `obj_tmp`, as `eval_f_compute`, with the sum
of two doubles given by `add`: the exact sum gives `eval_f_compute`, and
`double_add` gives the sums as the machine computes them. -/
def eval_f_compute_with (add : ℚ → ℚ → ℚ) (a : ipopt_fixed) (x : List ℚ) :
    Option eval_f_values := do
  let fixed_tmp ← for_loop (fun j t => do
      let v ← x[j]?
      vec_write t j v) a.n_fixed_ a.fixed_tmp_
  let random_tmp := a.approx_object_.optimize_random fixed_tmp a.random_tmp_
  let H := a.approx_object_.laplace_eval fixed_tmp fixed_tmp random_tmp
  let prior_vec_tmp := a.approx_object_.prior_eval fixed_tmp
  let p0 ← prior_vec_tmp[0]?
  let obj_value ← for_loop (fun j v => do
      let s ← x[a.n_fixed_ + j]?
      pure (add v s)) a.prior_n_abs_ (add H p0)
  let obj_tmp ← for_loop (fun j v => do
      let p ← prior_vec_tmp[1 + j]?
      pure (add v |p|)) a.prior_n_abs_ (add H p0)
  pure { fixed_tmp := fixed_tmp, random_tmp := random_tmp, H := H,
         prior_vec_tmp := prior_vec_tmp, obj_value := obj_value, obj_tmp := obj_tmp }

/-- The member function `ipopt_fixed::eval_f`, as `eval_f`, with the sum of two
doubles given by `add`. -/
def eval_f_with (add : ℚ → ℚ → ℚ) (a : ipopt_fixed) (n : Int) (x : List ℚ) (new_x : Bool) :
    Option (ipopt_fixed × ℚ × Bool) := do
  c_assert (n > 0 ∧ n.toNat = a.n_fixed_ + a.prior_n_abs_)
  let a := eval_f_start a
  let v ← eval_f_compute_with add a x
  pure (eval_f_finish a v, v.obj_value, true)

/-! ## Concrete objects used to evaluate the code -/

/-- An `approx_mixed` object with empty Hessian and Jacobian patterns whose prior
has the smooth part `theta[0]` and `k` absolute value terms, each with
argument `theta[0] - 3`; `laplace_eval` is zero and `optimize_random` returns
its starting point. -/
def approx_example (k : Nat) : approx_mixed :=
  { prior_eval := fun theta => theta.headD 0 :: List.replicate k (theta.headD 0 - 3)
    prior_jac := fun _ => ([], [])
    laplace_hes_fix := fun _ _ => ([], [])
    prior_hes := fun _ _ => ([], [])
    optimize_random := fun _ u => u
    laplace_eval := fun _ _ _ => 0 }

/-- An `approx_mixed` object like `approx_example 1`, except that its prior has
two entries where `theta[0] = 0` and one entry elsewhere. -/
def approx_short : approx_mixed :=
  { approx_example 1 with
    prior_eval := fun theta => if theta.headD 0 = 0 then [0, 0] else [0] }

/-- The adapter the constructor returns for one fixed effect with bounds
[-1, 1] and initial value 0, no random effects, and `approx_example k`. -/
def adapter_example (k : Nat) : Option ipopt_fixed :=
  ipopt_fixed_ctor [Dbl.fin (-1)] [0] [Dbl.fin 1] [] (approx_example k) Dbl.pinf false

/-- The lower sentinel after the constructor loop has seen the lower bounds `v`,
starting from `s`. -/
def sentinel_lower_fold (v : List Dbl) (s : Dbl) : Dbl :=
  v.foldl (fun s lo => if lo ≠ Dbl.ninf then std_min s lo else s) s

/-- The upper sentinel after the constructor loop has seen the upper bounds `v`,
starting from `s`. -/
def sentinel_upper_fold (v : List Dbl) (s : Dbl) : Dbl :=
  v.foldl (fun s up => if up ≠ Dbl.pinf then std_max s up else s) s

/-- An `approx_mixed` object like `approx_example 1`, except that the Hessian of
its Laplace objective has the one entry (0, 0). -/
def approx_hessian_example : approx_mixed :=
  { approx_example 1 with laplace_hes_fix := fun _ _ => ([0], [0]) }

/-- A data table with four rows. -/
def data_table_example : List data_struct :=
  [⟨0, 0, 7, 0, 0, 1 / 2, 1, 0, 10, 2000, 2010⟩,
   ⟨1, 0, 8, 0, 0, 3 / 2, 1, 20, 30, 2000, 2010⟩,
   ⟨0, 0, 3, 0, 1, 5 / 2, 1, 0, 10, 1990, 2000⟩,
   ⟨1, 0, 7, 0, 0, 7 / 2, 1, 40, 50, 1990, 2000⟩]

/-- The values of one covariate for the four rows of `data_table_example`; the
second one is null. -/
def covariate_value_example : List (Option ℚ) := [some 1, none, some 1, some 5]

/-- A covariate table with one covariate: reference 0, maximum difference 2. -/
def covariate_table_example : List covariate_struct := [⟨0, Dbl.fin 2⟩]

/-- A `child_info` object with one child: the rows 0, 1 and 3 of the data table
belong to child 0, and row 2 to no child and not to the parent. -/
def child_example : child_info := ⟨1, fun data_id => if data_id = 2 then 2 else 0⟩

/-- An element of the result vector of `data_subset` before it is filled. -/
def fresh_example : data_subset_struct := ⟨-1, -1, -1, -1, -1, -1, 0, 0, 0, 0, 0, 0, []⟩

/-- A mulcov table with a rate_value and a meas_noise multiplier of covariate
0. -/
def mulcov_table_example : List mulcov_struct :=
  [⟨mulcov_type_enum.rate_value_enum, 0⟩, ⟨mulcov_type_enum.meas_noise_enum, 0⟩]

/-- An `approx_mixed` object like `approx_example 1`, except that
`optimize_random` adds `theta[0]` to each entry of its start vector. -/
def approx_random_example : approx_mixed :=
  { approx_example 1 with
    optimize_random := fun theta u => u.map (fun ui => ui + theta.headD 0) }

/-- The adapter the constructor returns for one fixed effect, the initial
random effects `(1, 2)` and `approx_random_example`. -/
def adapter_random_example : Option ipopt_fixed :=
  ipopt_fixed_ctor [Dbl.fin (-1)] [0] [Dbl.fin 1] [1, 2] approx_random_example Dbl.pinf false

/-- An `approx_mixed` object like `approx_example 1`, except that the Laplace
objective is `1000000` and the prior vector is `(0, 0)`. -/
def approx_large_example : approx_mixed :=
  { approx_example 1 with
    prior_eval := fun _ => [0, 0]
    laplace_eval := fun _ _ _ => 1000000 }

/-- The adapter the constructor returns for one fixed effect and
`approx_large_example`. -/
def adapter_large_example : Option ipopt_fixed :=
  ipopt_fixed_ctor [Dbl.fin (-1)] [0] [Dbl.fin 1] [] approx_large_example Dbl.pinf false

end dismod_at

namespace dismod_at

/-! ## Counted loops -/

theorem for_loop_succ {σ : Type} (body : Nat → σ → Option σ) (n : Nat) (s : σ) :
    for_loop body (n + 1) s = (for_loop body n s).bind (body n) := rfl

/-- A loop that copies `x[0..n)` into a buffer leaves the rest of the buffer. -/
theorem for_loop_copy {α : Type} (x t : List α) (n : Nat) (hx : n ≤ x.length)
    (ht : n ≤ t.length) :
    for_loop (fun j t => do
        let v ← x[j]?
        vec_write t j v) n t = some (x.take n ++ t.drop n) := by
  induction n with
  | zero => simp [for_loop]
  | succ n ih =>
    have hx' : n < x.length := hx
    have ht' : n < t.length := ht
    rw [for_loop_succ, ih (Nat.le_of_lt hx') (Nat.le_of_lt ht')]
    have hlen : (x.take n).length = n := by simp; omega
    simp only [Option.some_bind, List.getElem?_eq_getElem hx', vec_write]
    have hlt : n < (List.take n x ++ List.drop n t).length := by simp; omega
    simp only [Option.bind_eq_bind, Option.some_bind, hlt, if_true]
    congr 1
    rw [List.set_append_right _ _ (by omega), hlen, Nat.sub_self, List.take_succ,
      List.getElem?_eq_getElem hx', List.drop_eq_getElem_cons ht']
    simp only [List.set_cons_zero, List.append_assoc, List.singleton_append, Option.toList]

/-- A loop that adds `f 0, ..., f (n-1)` to an accumulator, each read
succeeding. -/
theorem for_loop_sum (g : Nat → Option ℚ) (f : Nat → ℚ) (n : Nat) (v : ℚ)
    (hg : ∀ j, j < n → g j = some (f j)) :
    for_loop (fun j v => do
        let s ← g j
        pure (v + s)) n v = some (v + ∑ j in Finset.range n, f j) := by
  induction n with
  | zero => simp [for_loop]
  | succ n ih =>
    rw [for_loop_succ, ih (fun j hj => hg j (Nat.lt_succ_of_lt hj)), Finset.sum_range_succ]
    simp [hg n (Nat.lt_succ_self n), add_assoc]

/-- A loop that writes `f 0, ..., f (n-1)` to the entries `k, ..., k + n - 1` of a
buffer, each read succeeding. -/
theorem for_loop_write {α : Type} (g : Nat → Option α) (f : Nat → α) (k n : Nat) (x : List α)
    (hg : ∀ j, j < n → g j = some (f j)) (hx : k + n ≤ x.length) :
    for_loop (fun j x => do
        let v ← g j
        vec_write x (k + j) v) n x
      = some (x.take k ++ (List.range n).map f ++ x.drop (k + n)) := by
  induction n with
  | zero => simp [for_loop]
  | succ n ih =>
    have hlt : k + n < x.length := by omega
    rw [for_loop_succ, ih (fun j hj => hg j (Nat.lt_succ_of_lt hj)) (by omega)]
    have hlen : (x.take k ++ (List.range n).map f).length = k + n := by
      simp only [List.length_append, List.length_take, List.length_map, List.length_range]
      omega
    have hlt' : k + n < (x.take k ++ (List.range n).map f ++ x.drop (k + n)).length := by
      rw [List.length_append, hlen, List.length_drop]
      omega
    simp only [Option.bind_eq_bind, Option.some_bind, hg n (Nat.lt_succ_self n), vec_write,
      hlt', if_true]
    congr 1
    rw [List.set_append_right _ _ (by omega), hlen, Nat.sub_self,
      List.drop_eq_getElem_cons hlt, List.range_succ, List.map_append]
    simp only [List.set_cons_zero, List.append_assoc, List.map_cons, List.map_nil,
      List.singleton_append, Nat.add_assoc]

/-! ## The merging loop -/

/-- A pass of the merging loop moves at least one of the two read positions. -/
theorem merge_step_advance {row_one col_one row_two col_two key_one key_two : List Nat}
    {s s' : merge_state}
    (h : merge_step row_one col_one row_two col_two key_one key_two s = some s') :
    (s'.k_one = s.k_one + 1 ∧ s'.k_two = s.k_two + 1)
    ∨ (s'.k_one = s.k_one + 1 ∧ s'.k_two = s.k_two)
    ∨ (s'.k_one = s.k_one ∧ s'.k_two = s.k_two + 1) := by
  simp only [merge_step, Option.bind_eq_bind, Option.bind_eq_some, Option.pure_def] at h
  obtain ⟨a, _, b, _, h⟩ := h
  split at h
  · simp only [Option.bind_eq_some, Option.some.injEq] at h
    obtain ⟨_, _, _, _, _, _, _, _, _, _, _, _, _, _, _, _, rfl⟩ := h
    exact Or.inl ⟨rfl, rfl⟩
  · split at h
    · simp only [Option.bind_eq_some, Option.some.injEq] at h
      obtain ⟨_, _, _, _, _, _, rfl⟩ := h
      exact Or.inr (Or.inl ⟨rfl, rfl⟩)
    · simp only [Option.bind_eq_some, Option.some.injEq] at h
      obtain ⟨_, _, _, _, _, _, _, _, rfl⟩ := h
      exact Or.inr (Or.inr ⟨rfl, rfl⟩)

/-- Once the fuel covers the entries still to be read, more fuel does not change
the result of the merging loop: the loop never stops for lack of fuel. -/
theorem merge_while_fuel (row_one col_one row_two col_two key_one key_two : List Nat)
    (f : Nat) : ∀ s : merge_state,
      (row_one.length - s.k_one) + (row_two.length - s.k_two) ≤ f →
      merge_while row_one col_one row_two col_two key_one key_two (f + 1) s
        = merge_while row_one col_one row_two col_two key_one key_two f s := by
  induction f with
  | zero =>
    intro s hs
    have hc : ¬ (s.k_one < row_one.length ∧ s.k_two < row_two.length) := by omega
    simp only [merge_while, if_neg hc]
  | succ f ih =>
    intro s hs
    by_cases hc : s.k_one < row_one.length ∧ s.k_two < row_two.length
    · rw [merge_while, if_pos hc, merge_while, if_pos hc]
      cases hstep : merge_step row_one col_one row_two col_two key_one key_two s with
      | none => rfl
      | some s' =>
        simp only [Option.some_bind]
        apply ih
        have := merge_step_advance hstep
        omega
    · rw [merge_while, if_neg hc, merge_while, if_neg hc]

/-- The fuel `n_one + n_two` that `merge_sparse` gives the merging loop is
enough: any larger amount gives the same result. -/
theorem merge_while_fuel_enough (row_one col_one row_two col_two key_one key_two : List Nat)
    (s : merge_state) (extra : Nat) :
    merge_while row_one col_one row_two col_two key_one key_two
        (row_one.length + row_two.length + extra) s
      = merge_while row_one col_one row_two col_two key_one key_two
        (row_one.length + row_two.length) s := by
  induction extra with
  | zero => rfl
  | succ e ih =>
    rw [← ih, ← Nat.add_assoc]
    exact merge_while_fuel row_one col_one row_two col_two key_one key_two _ s (by omega)

/-! ## Order of doubles -/

theorem Dbl.fin_lt_fin (a b : ℚ) : (Dbl.fin a < Dbl.fin b) ↔ a < b := Iff.rfl

theorem Dbl.le_refl (a : Dbl) : a ≤ a := Or.inl rfl

theorem Dbl.le_of_lt {a b : Dbl} (h : a < b) : a ≤ b := Or.inr h

theorem std_min_fin (a b : ℚ) : std_min (Dbl.fin a) (Dbl.fin b) = Dbl.fin (min a b) := by
  unfold std_min
  by_cases h : b < a
  · rw [if_pos ((Dbl.fin_lt_fin b a).2 h), min_eq_right (le_of_lt h)]
  · rw [if_neg (fun h' => h ((Dbl.fin_lt_fin b a).1 h')), min_eq_left (not_lt.1 h)]

theorem std_max_fin (a b : ℚ) : std_max (Dbl.fin a) (Dbl.fin b) = Dbl.fin (max a b) := by
  unfold std_max
  by_cases h : a < b
  · rw [if_pos ((Dbl.fin_lt_fin a b).2 h), max_eq_right (le_of_lt h)]
  · rw [if_neg (fun h' => h ((Dbl.fin_lt_fin a b).1 h')), max_eq_left (not_lt.1 h)]

theorem std_min_fin_pinf (a : ℚ) : std_min (Dbl.fin a) Dbl.pinf = Dbl.fin a := by
  unfold std_min
  exact if_neg (fun h => h)

theorem std_max_fin_ninf (a : ℚ) : std_max (Dbl.fin a) Dbl.ninf = Dbl.fin a := by
  unfold std_max
  exact if_neg (fun h => h)

/-! ## The constructor -/

/-- What a completed constructor call has computed. -/
theorem ipopt_fixed_ctor_some {fixed_lower : List Dbl} {fixed_in : List ℚ}
    {fixed_upper : List Dbl} {random_in : List ℚ} {approx_object : approx_mixed}
    {objective_opt_0 : Dbl} {finalize_solution_ok_0 : Bool} {a : ipopt_fixed}
    (h : ipopt_fixed_ctor fixed_lower fixed_in fixed_upper random_in approx_object
      objective_opt_0 finalize_solution_ok_0 = some a) :
    for_loop (sentinel_step fixed_lower fixed_upper) fixed_in.length
        (Dbl.fin (- ten_pow_19), Dbl.fin ten_pow_19)
      = some (a.nlp_lower_bound_inf_, a.nlp_upper_bound_inf_)
    ∧ 0 < (approx_object.prior_eval fixed_in).length
    ∧ a.prior_n_abs_ = (approx_object.prior_eval fixed_in).length - 1
    ∧ a.n_fixed_ = fixed_in.length
    ∧ a.fixed_in_ = fixed_in
    ∧ a.fixed_lower_ = fixed_lower
    ∧ a.fixed_upper_ = fixed_upper
    ∧ a.approx_object_ = approx_object
    ∧ a.fixed_tmp_.length = fixed_in.length
    ∧ a.fixed_opt_ = []
    ∧ a.random_in_ = random_in := by
  simp only [ipopt_fixed_ctor, Option.bind_eq_bind, Option.bind_eq_some, Option.pure_def,
    c_assert] at h
  obtain ⟨inf, hinf, u, hu, lag, hlag, ha⟩ := h
  have hpos : 0 < (approx_object.prior_eval fixed_in).length := by
    by_contra hne
    simp [hne] at hu
  injection ha with ha
  subst ha
  simp [hinf, hpos]

/-- The sentinel loop computes the two folds over the first `n` bounds. -/
theorem sentinel_loop (fl fu : List Dbl) (n : Nat) (s : Dbl × Dbl) (hl : n ≤ fl.length)
    (hu : n ≤ fu.length) :
    for_loop (sentinel_step fl fu) n s
      = some (sentinel_lower_fold (fl.take n) s.1, sentinel_upper_fold (fu.take n) s.2) := by
  induction n with
  | zero => simp [for_loop, sentinel_lower_fold, sentinel_upper_fold]
  | succ n ih =>
    have hl' : n < fl.length := hl
    have hu' : n < fu.length := hu
    rw [for_loop_succ, ih (Nat.le_of_lt hl') (Nat.le_of_lt hu')]
    simp only [Option.some_bind, sentinel_step, List.getElem?_eq_getElem hl',
      List.getElem?_eq_getElem hu', Option.bind_eq_bind, Option.pure_def,
      sentinel_lower_fold, sentinel_upper_fold, List.take_succ, List.foldl_append,
      Option.toList, List.foldl_cons, List.foldl_nil]

/-- A lower sentinel that no finite bound undercuts stays. -/
theorem sentinel_lower_fold_stay (v : List Dbl) (m : ℚ)
    (h : ∀ q, Dbl.fin q ∈ v → m ≤ q) : sentinel_lower_fold v (Dbl.fin m) = Dbl.fin m := by
  induction v with
  | nil => rfl
  | cons d t ih =>
    have ht : ∀ q, Dbl.fin q ∈ t → m ≤ q := fun q hq => h q (List.mem_cons_of_mem _ hq)
    have ih' := ih ht
    unfold sentinel_lower_fold at ih' ⊢
    cases d with
    | ninf => simpa using ih'
    | pinf => simpa [std_min_fin_pinf] using ih'
    | fin q =>
      have hq : m ≤ q := h q (List.mem_cons_self _ _)
      simpa [std_min_fin, min_eq_left hq] using ih'

/-- The lower sentinel is the smaller of its start and the smallest finite
bound. -/
theorem sentinel_lower_fold_min (v : List Dbl) (c q : ℚ) (h : smallest_finite v q) :
    sentinel_lower_fold v (Dbl.fin c) = Dbl.fin (min c q) := by
  induction v generalizing c with
  | nil => exact absurd h.1 (List.not_mem_nil _)
  | cons d t ih =>
    have hstep : ∃ c', (if d ≠ Dbl.ninf then std_min (Dbl.fin c) d else Dbl.fin c) = Dbl.fin c'
        ∧ min c' q = min c q ∧ (d = Dbl.fin q → c' = min c q) := by
      cases d with
      | ninf => exact ⟨c, by simp, rfl, fun hd => by cases hd⟩
      | pinf => exact ⟨c, by simp [std_min_fin_pinf], rfl, fun hd => by cases hd⟩
      | fin q' =>
        have hq' : q ≤ q' := h.2 q' (List.mem_cons_self _ _)
        refine ⟨min c q', by simp [std_min_fin], ?_, ?_⟩
        · rw [min_assoc, min_eq_right hq']
        · intro hd
          injection hd with hd
          rw [hd]
    obtain ⟨c', hc', hmin, hhead⟩ := hstep
    have hunf : sentinel_lower_fold (d :: t) (Dbl.fin c) = sentinel_lower_fold t (Dbl.fin c') := by
      simp only [sentinel_lower_fold, List.foldl_cons, hc']
    rw [hunf]
    by_cases hmem : Dbl.fin q ∈ t
    · rw [ih c' ⟨hmem, fun q' hq' => h.2 q' (List.mem_cons_of_mem _ hq')⟩, hmin]
    · have hd : d = Dbl.fin q := by
        rcases List.mem_cons.1 h.1 with hd | hd
        · exact hd.symm
        · exact absurd hd hmem
      rw [hhead hd]
      exact sentinel_lower_fold_stay t (min c q)
        (fun q' hq' => le_trans (min_le_right c q) (h.2 q' (List.mem_cons_of_mem _ hq')))

/-- An upper sentinel that no finite bound exceeds stays. -/
theorem sentinel_upper_fold_stay (v : List Dbl) (m : ℚ)
    (h : ∀ q, Dbl.fin q ∈ v → q ≤ m) : sentinel_upper_fold v (Dbl.fin m) = Dbl.fin m := by
  induction v with
  | nil => rfl
  | cons d t ih =>
    have ht : ∀ q, Dbl.fin q ∈ t → q ≤ m := fun q hq => h q (List.mem_cons_of_mem _ hq)
    have ih' := ih ht
    unfold sentinel_upper_fold at ih' ⊢
    cases d with
    | pinf => simpa using ih'
    | ninf => simpa [std_max_fin_ninf] using ih'
    | fin q =>
      have hq : q ≤ m := h q (List.mem_cons_self _ _)
      simpa [std_max_fin, max_eq_left hq] using ih'

/-- The upper sentinel is the larger of its start and the largest finite
bound. -/
theorem sentinel_upper_fold_max (v : List Dbl) (c q : ℚ) (h : largest_finite v q) :
    sentinel_upper_fold v (Dbl.fin c) = Dbl.fin (max c q) := by
  induction v generalizing c with
  | nil => exact absurd h.1 (List.not_mem_nil _)
  | cons d t ih =>
    have hstep : ∃ c', (if d ≠ Dbl.pinf then std_max (Dbl.fin c) d else Dbl.fin c) = Dbl.fin c'
        ∧ max c' q = max c q ∧ (d = Dbl.fin q → c' = max c q) := by
      cases d with
      | pinf => exact ⟨c, by simp, rfl, fun hd => by cases hd⟩
      | ninf => exact ⟨c, by simp [std_max_fin_ninf], rfl, fun hd => by cases hd⟩
      | fin q' =>
        have hq' : q' ≤ q := h.2 q' (List.mem_cons_self _ _)
        refine ⟨max c q', by simp [std_max_fin], ?_, ?_⟩
        · rw [max_assoc, max_eq_right hq']
        · intro hd
          injection hd with hd
          rw [hd]
    obtain ⟨c', hc', hmax, hhead⟩ := hstep
    have hunf : sentinel_upper_fold (d :: t) (Dbl.fin c) = sentinel_upper_fold t (Dbl.fin c') := by
      simp only [sentinel_upper_fold, List.foldl_cons, hc']
    rw [hunf]
    by_cases hmem : Dbl.fin q ∈ t
    · rw [ih c' ⟨hmem, fun q' hq' => h.2 q' (List.mem_cons_of_mem _ hq')⟩, hmax]
    · have hd : d = Dbl.fin q := by
        rcases List.mem_cons.1 h.1 with hd | hd
        · exact hd.symm
        · exact absurd hd hmem
      rw [hhead hd]
      exact sentinel_upper_fold_stay t (max c q)
        (fun q' hq' => le_trans (h.2 q' (List.mem_cons_of_mem _ hq')) (le_max_right c q))

/-! ## eval_f -/

theorem c_assert_of_true {c : Bool} (h : c = true) : c_assert c = some () := by
  simp [c_assert, h]

theorem c_assert_some {c : Bool} {u : Unit} (h : c_assert c = some u) : c = true := by
  by_contra hc
  simp [c_assert, hc] at h

/-- A copying loop that completes keeps the length of the buffer. -/
theorem for_loop_copy_length {α : Type} (x : List α) (n : Nat) (t t' : List α)
    (h : for_loop (fun j t => do
        let v ← x[j]?
        vec_write t j v) n t = some t') : t'.length = t.length := by
  induction n generalizing t' with
  | zero =>
    simp only [for_loop, Option.some.injEq] at h
    rw [← h]
  | succ n ih =>
    rw [for_loop_succ] at h
    simp only [Option.bind_eq_bind, Option.bind_eq_some, vec_write] at h
    obtain ⟨t1, ht1, v, _, hw⟩ := h
    by_cases hlt : n < t1.length
    · rw [if_pos hlt] at hw
      injection hw with hw
      rw [← hw, List.length_set, ih t1 ht1]
    · rw [if_neg hlt] at hw
      cases hw

theorem eval_f_start_fixed_tmp (a : ipopt_fixed) :
    (eval_f_start a).fixed_tmp_ = a.fixed_tmp_ := by
  unfold eval_f_start
  split <;> rfl

theorem eval_f_start_n_fixed (a : ipopt_fixed) :
    (eval_f_start a).n_fixed_ = a.n_fixed_ := by
  unfold eval_f_start
  split <;> rfl

theorem eval_f_start_prior_n_abs (a : ipopt_fixed) :
    (eval_f_start a).prior_n_abs_ = a.prior_n_abs_ := by
  unfold eval_f_start
  split <;> rfl

theorem eval_f_start_approx_object (a : ipopt_fixed) :
    (eval_f_start a).approx_object_ = a.approx_object_ := by
  unfold eval_f_start
  split <;> rfl

theorem eval_f_start_objective_opt (a : ipopt_fixed) :
    (eval_f_start a).objective_opt_
      = if a.fixed_opt_.length = 0 then Dbl.pinf else a.objective_opt_ := by
  unfold eval_f_start
  split <;> rfl

theorem eval_f_start_fixed_opt_length (a : ipopt_fixed) :
    (eval_f_start a).fixed_opt_.length
      = if a.fixed_opt_.length = 0 then a.n_fixed_ else a.fixed_opt_.length := by
  unfold eval_f_start
  split <;> simp

theorem eval_f_finish_n_fixed (a : ipopt_fixed) (v : eval_f_values) :
    (eval_f_finish a v).n_fixed_ = a.n_fixed_ := by
  unfold eval_f_finish
  dsimp only
  split <;> rfl

theorem eval_f_finish_prior_n_abs (a : ipopt_fixed) (v : eval_f_values) :
    (eval_f_finish a v).prior_n_abs_ = a.prior_n_abs_ := by
  unfold eval_f_finish
  dsimp only
  split <;> rfl

theorem eval_f_finish_fixed_tmp (a : ipopt_fixed) (v : eval_f_values) :
    (eval_f_finish a v).fixed_tmp_ = v.fixed_tmp := by
  unfold eval_f_finish
  dsimp only
  split <;> rfl

theorem eval_f_finish_objective_opt (a : ipopt_fixed) (v : eval_f_values) :
    (eval_f_finish a v).objective_opt_
      = if Dbl.fin v.obj_tmp < a.objective_opt_ then Dbl.fin v.obj_tmp
        else a.objective_opt_ := by
  unfold eval_f_finish
  dsimp only
  split <;> rfl

theorem eval_f_finish_fixed_opt (a : ipopt_fixed) (v : eval_f_values) :
    (eval_f_finish a v).fixed_opt_
      = if Dbl.fin v.obj_tmp < a.objective_opt_ then v.fixed_tmp else a.fixed_opt_ := by
  unfold eval_f_finish
  dsimp only
  split <;> rfl

/-- What a completed `eval_f` call has computed. -/
theorem eval_f_some {a : ipopt_fixed} {n : Int} {x : List ℚ} {new_x : Bool}
    {r : ipopt_fixed × ℚ × Bool} (h : eval_f a n x new_x = some r) :
    ∃ v, eval_f_compute (eval_f_start a) x = some v
      ∧ r = (eval_f_finish (eval_f_start a) v, v.obj_value, true)
      ∧ v.fixed_tmp.length = a.fixed_tmp_.length := by
  simp only [eval_f, Option.bind_eq_bind, Option.bind_eq_some, Option.pure_def,
    Option.some.injEq] at h
  obtain ⟨_, _, v, hv, hr⟩ := h
  refine ⟨v, hv, hr.symm, ?_⟩
  simp only [eval_f_compute, Option.bind_eq_bind, Option.bind_eq_some, Option.pure_def,
    Option.some.injEq] at hv
  obtain ⟨ft, hft, _, _, _, _, _, _, hv⟩ := hv
  rw [← hv]
  simpa [eval_f_start_fixed_tmp] using for_loop_copy_length x _ _ ft hft

/-- The values `eval_f` computes when its reads are in range. -/
theorem eval_f_compute_eq (a : ipopt_fixed) (x : List ℚ) (p0 : ℚ)
    (hinv : a.fixed_tmp_.length = a.n_fixed_)
    (hx : x.length = a.n_fixed_ + a.prior_n_abs_)
    (hp : (a.approx_object_.prior_eval (x.take a.n_fixed_)).length = 1 + a.prior_n_abs_)
    (hp0 : (a.approx_object_.prior_eval (x.take a.n_fixed_))[0]? = some p0) :
    eval_f_compute a x = some
      { fixed_tmp := x.take a.n_fixed_
        random_tmp := a.approx_object_.optimize_random (x.take a.n_fixed_) a.random_tmp_
        H := a.approx_object_.laplace_eval (x.take a.n_fixed_) (x.take a.n_fixed_)
          (a.approx_object_.optimize_random (x.take a.n_fixed_) a.random_tmp_)
        prior_vec_tmp := a.approx_object_.prior_eval (x.take a.n_fixed_)
        obj_value := a.approx_object_.laplace_eval (x.take a.n_fixed_) (x.take a.n_fixed_)
            (a.approx_object_.optimize_random (x.take a.n_fixed_) a.random_tmp_) + p0
          + ∑ j in Finset.range a.prior_n_abs_, x.getD (a.n_fixed_ + j) 0
        obj_tmp := a.approx_object_.laplace_eval (x.take a.n_fixed_) (x.take a.n_fixed_)
            (a.approx_object_.optimize_random (x.take a.n_fixed_) a.random_tmp_) + p0
          + ∑ j in Finset.range a.prior_n_abs_,
              |(a.approx_object_.prior_eval (x.take a.n_fixed_)).getD (1 + j) 0| } := by
  have hcopy := for_loop_copy x a.fixed_tmp_ a.n_fixed_ (by omega) (by omega)
  rw [← hinv, List.drop_length, List.append_nil, hinv] at hcopy
  have hsum := for_loop_sum (fun j => x[a.n_fixed_ + j]?) (fun j => x.getD (a.n_fixed_ + j) 0)
    a.prior_n_abs_
    (a.approx_object_.laplace_eval (x.take a.n_fixed_) (x.take a.n_fixed_)
      (a.approx_object_.optimize_random (x.take a.n_fixed_) a.random_tmp_) + p0)
    (fun j hj => by
      have hlt : a.n_fixed_ + j < x.length := by omega
      simp [List.getD_eq_getElem?_getD, List.getElem?_eq_getElem hlt])
  have habs := for_loop_sum
    (fun j => ((a.approx_object_.prior_eval (x.take a.n_fixed_))[1 + j]?).map (fun p => |p|))
    (fun j => |(a.approx_object_.prior_eval (x.take a.n_fixed_)).getD (1 + j) 0|)
    a.prior_n_abs_
    (a.approx_object_.laplace_eval (x.take a.n_fixed_) (x.take a.n_fixed_)
      (a.approx_object_.optimize_random (x.take a.n_fixed_) a.random_tmp_) + p0)
    (fun j hj => by
      have hlt : 1 + j < (a.approx_object_.prior_eval (x.take a.n_fixed_)).length := by omega
      simp [List.getD_eq_getElem?_getD, List.getElem?_eq_getElem hlt])
  have habs' : for_loop (fun j v => do
      let p ← (a.approx_object_.prior_eval (x.take a.n_fixed_))[1 + j]?
      pure (v + |p|)) a.prior_n_abs_
        (a.approx_object_.laplace_eval (x.take a.n_fixed_) (x.take a.n_fixed_)
          (a.approx_object_.optimize_random (x.take a.n_fixed_) a.random_tmp_) + p0)
      = some (a.approx_object_.laplace_eval (x.take a.n_fixed_) (x.take a.n_fixed_)
            (a.approx_object_.optimize_random (x.take a.n_fixed_) a.random_tmp_) + p0
          + ∑ j in Finset.range a.prior_n_abs_,
              |(a.approx_object_.prior_eval (x.take a.n_fixed_)).getD (1 + j) 0|) := by
    rw [← habs]
    congr 1
    funext j v
    beta_reduce
    cases (a.approx_object_.prior_eval (x.take a.n_fixed_))[1 + j]? <;> rfl
  unfold eval_f_compute
  simp only [Option.bind_eq_bind, Option.pure_def] at hcopy hsum habs' ⊢
  rw [hcopy]
  simp only [Option.some_bind, hp0, hsum, habs']

/-- Between calls the buffer `fixed_tmp_` has one entry for each fixed effect. -/
theorem reachable_fixed_tmp_length {a : ipopt_fixed} (h : reachable a) :
    a.fixed_tmp_.length = a.n_fixed_ := by
  induction h with
  | ctor hc =>
    obtain ⟨_, _, _, hn, _, _, _, _, ht, _, _⟩ := ipopt_fixed_ctor_some hc
    rw [ht, hn]
  | eval_f _ he ih =>
    obtain ⟨v, _, hr, hlen⟩ := eval_f_some he
    rw [hr]
    simp only [eval_f_finish_fixed_tmp, eval_f_finish_n_fixed, eval_f_start_n_fixed, hlen, ih]

/-- One completed `eval_f` call on an adapter with a fixed effect: the
incumbent objective becomes the smaller of the true objective of the call and
the incumbent objective before it (plus infinity on the first call), and the
incumbent is in use afterwards. -/
theorem eval_f_step {a : ipopt_fixed} {n : Int} {x : List ℚ} {new_x : Bool}
    {r : ipopt_fixed × ℚ × Bool} {t : ℚ}
    (hinv : a.fixed_tmp_.length = a.n_fixed_) (hn : 1 ≤ a.n_fixed_)
    (h : eval_f a n x new_x = some r) (ht : eval_f_obj_tmp a x = some t) :
    r.1.fixed_tmp_.length = r.1.n_fixed_
    ∧ r.1.n_fixed_ = a.n_fixed_
    ∧ r.1.prior_n_abs_ = a.prior_n_abs_
    ∧ r.1.fixed_opt_.length ≠ 0
    ∧ r.1.objective_opt_
        = (if Dbl.fin t < (if a.fixed_opt_.length = 0 then Dbl.pinf else a.objective_opt_)
           then Dbl.fin t
           else (if a.fixed_opt_.length = 0 then Dbl.pinf else a.objective_opt_)) := by
  obtain ⟨v, hv, hr, hlen⟩ := eval_f_some h
  have htv : t = v.obj_tmp := by
    simp only [eval_f_obj_tmp, hv, Option.map_some', Option.some.injEq] at ht
    exact ht.symm
  subst htv
  rw [hr]
  refine ⟨?_, ?_, ?_, ?_, ?_⟩
  · simp only [eval_f_finish_fixed_tmp, eval_f_finish_n_fixed, eval_f_start_n_fixed, hlen, hinv]
  · simp only [eval_f_finish_n_fixed, eval_f_start_n_fixed]
  · simp only [eval_f_finish_prior_n_abs, eval_f_start_prior_n_abs]
  · simp only [eval_f_finish_fixed_opt]
    split
    · omega
    · rw [eval_f_start_fixed_opt_length]
      split <;> omega
  · simp only [eval_f_finish_objective_opt, eval_f_start_objective_opt]

/-- From a state whose incumbent is in use, the incumbent objective never
increases along a run. -/
theorem eval_f_run_chain (calls : List (List ℚ × Bool)) :
    ∀ (a : ipopt_fixed) (run : List (ipopt_fixed × ℚ)),
      a.fixed_tmp_.length = a.n_fixed_ → 1 ≤ a.n_fixed_ → a.fixed_opt_.length ≠ 0 →
      eval_f_run a calls = some run →
      List.Chain (fun s s' : Dbl => s' ≤ s) a.objective_opt_
        (run.map (fun s => s.1.objective_opt_)) := by
  induction calls with
  | nil =>
    intro a run _ _ _ hrun
    simp only [eval_f_run, Option.some.injEq] at hrun
    rw [← hrun]
    exact List.Chain.nil
  | cons c cs ih =>
    intro a run hinv hn hwarm hrun
    simp only [eval_f_run, Option.bind_eq_bind, Option.bind_eq_some, Option.pure_def,
      Option.some.injEq] at hrun
    obtain ⟨t, ht, r, hr, rest, hrest, hrun⟩ := hrun
    obtain ⟨h1, h2, _, h4, h5⟩ := eval_f_step hinv hn hr ht
    rw [← hrun]
    simp only [List.map_cons]
    refine List.Chain.cons ?_ (ih r.1 rest h1 (by omega) h4 hrest)
    rw [h5, if_neg hwarm]
    split
    · exact Dbl.le_of_lt (by assumption)
    · exact Dbl.le_refl _

/-- Along a run whose true objectives do not increase, the incumbent objective
after the last call is the true objective of that call. -/
theorem eval_f_run_last (calls : List (List ℚ × Bool)) :
    ∀ (a : ipopt_fixed) (run : List (ipopt_fixed × ℚ)),
      a.fixed_tmp_.length = a.n_fixed_ → 1 ≤ a.n_fixed_ →
      eval_f_run a calls = some run →
      (a.fixed_opt_.length = 0 ∨
        ∃ t0, a.objective_opt_ = Dbl.fin t0 ∧ ∀ s ∈ run.head?, s.2 ≤ t0) →
      List.Chain' (fun t t' : ℚ => t' ≤ t) (run.map Prod.snd) →
      ∀ s ∈ run.getLast?, s.1.objective_opt_ = Dbl.fin s.2 := by
  induction calls with
  | nil =>
    intro a run _ _ hrun _ _ s hs
    simp only [eval_f_run, Option.some.injEq] at hrun
    rw [← hrun] at hs
    simp at hs
  | cons c cs ih =>
    intro a run hinv hn hrun hstart hdec s hs
    simp only [eval_f_run, Option.bind_eq_bind, Option.bind_eq_some, Option.pure_def,
      Option.some.injEq] at hrun
    obtain ⟨t, ht, r, hr, rest, hrest, hrun⟩ := hrun
    obtain ⟨h1, h2, _, h4, h5⟩ := eval_f_step hinv hn hr ht
    subst hrun
    have hobj : r.1.objective_opt_ = Dbl.fin t := by
      rw [h5]
      rcases hstart with h0 | ⟨t0, ht0, hle⟩
      · rw [if_pos h0]
        exact if_pos trivial
      · have hle' : t ≤ t0 := hle (r.1, t) (by simp)
        by_cases hwarm : a.fixed_opt_.length = 0
        · rw [if_pos hwarm]
          exact if_pos trivial
        · rw [if_neg hwarm, ht0]
          by_cases hlt : t < t0
          · exact if_pos ((Dbl.fin_lt_fin t t0).2 hlt)
          · rw [if_neg (fun h => hlt ((Dbl.fin_lt_fin t t0).1 h))]
            rw [le_antisymm hle' (not_lt.1 hlt)]
    cases rest with
    | nil =>
      simp only [List.getLast?_singleton, Option.mem_def, Option.some.injEq] at hs
      rw [← hs]
      exact hobj
    | cons s1 rest1 =>
      rw [List.getLast?_cons_cons] at hs
      simp only [List.map_cons] at hdec
      refine ih r.1 (s1 :: rest1) h1 (by omega) hrest (Or.inr ⟨t, hobj, ?_⟩)
        (List.Chain'.tail hdec) s hs
      intro s' hs'
      simp only [List.head?_cons, Option.mem_def, Option.some.injEq] at hs'
      rw [← hs']
      exact (List.chain'_cons.1 hdec).1

/-! ## get_starting_point -/

/-- The two loops of `get_starting_point` write the initial fixed effects and the
absolute values of the entries 1, 2, ... of the prior vector. -/
theorem get_starting_point_fill_eq (a : ipopt_fixed) (vec x : List ℚ)
    (hin : a.fixed_in_.length = a.n_fixed_) (hvec : 1 + a.prior_n_abs_ ≤ vec.length)
    (hx : x.length = a.n_fixed_ + a.prior_n_abs_) :
    get_starting_point_fill a vec x
      = some (a.fixed_in_ ++ (List.range a.prior_n_abs_).map (fun j => |vec.getD (1 + j) 0|)) := by
  have h1 := for_loop_copy a.fixed_in_ x a.n_fixed_ (by omega) (by omega)
  rw [← hin, List.take_length, hin] at h1
  have h2 := for_loop_write (fun j => (vec[1 + j]?).map (fun v => |v|))
    (fun j => |vec.getD (1 + j) 0|) a.n_fixed_ a.prior_n_abs_
    (a.fixed_in_ ++ x.drop a.n_fixed_)
    (fun j hj => by
      have hlt : 1 + j < vec.length := by omega
      simp [List.getD_eq_getElem?_getD, List.getElem?_eq_getElem hlt])
    (by simp only [List.length_append, List.length_drop]; omega)
  have h2' : for_loop (fun j x => do
        let v ← vec[1 + j]?
        vec_write x (a.n_fixed_ + j) |v|) a.prior_n_abs_ (a.fixed_in_ ++ x.drop a.n_fixed_)
      = some (a.fixed_in_ ++ (List.range a.prior_n_abs_).map (fun j => |vec.getD (1 + j) 0|)) := by
    have hd : List.drop (a.n_fixed_ + a.prior_n_abs_) (a.fixed_in_ ++ List.drop a.n_fixed_ x)
        = [] := by
      apply List.drop_eq_nil_of_le
      simp only [List.length_append, List.length_drop]
      omega
    rw [hd, List.append_nil, ← hin, List.take_left, hin] at h2
    rw [← h2]
    congr 1
    funext j y
    beta_reduce
    cases vec[1 + j]? <;> rfl
  unfold get_starting_point_fill
  simp only [Option.bind_eq_bind] at h1 h2' ⊢
  rw [h1]
  exact h2'

/-- For every constructed adapter `get_starting_point` stops at its assertion
`vec.size() > 1 + prior_n_abs_`, whatever its arguments: the constructor has
set `prior_n_abs_` to the size of the same vector minus one. -/
theorem get_starting_point_none {fixed_lower : List Dbl} {fixed_in : List ℚ}
    {fixed_upper : List Dbl} {random_in : List ℚ} {approx_object : approx_mixed}
    {objective_opt_0 : Dbl} {finalize_solution_ok_0 : Bool} {a : ipopt_fixed}
    (hctor : ipopt_fixed_ctor fixed_lower fixed_in fixed_upper random_in approx_object
      objective_opt_0 finalize_solution_ok_0 = some a)
    (n : Int) (init_x : Bool) (x : List ℚ) (init_z : Bool) (m : Int) (init_lambda : Bool) :
    get_starting_point a n init_x x init_z m init_lambda = none := by
  obtain ⟨_, hpos, hnabs, _, hin, _, _, hobj, _⟩ := ipopt_fixed_ctor_some hctor
  have hfalse : decide ((a.approx_object_.prior_eval a.fixed_in_).length > 1 + a.prior_n_abs_)
      = false := by
    rw [hobj, hin, hnabs, decide_eq_false_iff_not]
    omega
  cases hres : get_starting_point a n init_x x init_z m init_lambda with
  | none => rfl
  | some r =>
    simp only [get_starting_point, Option.bind_eq_bind, Option.bind_eq_some] at hres
    obtain ⟨_, _, _, _, _, _, _, _, _, _, u, hu, _⟩ := hres
    have := c_assert_some hu
    rw [hfalse] at this
    cases this

/-! ## merge_sparse evaluated -/

/-- C1 (position maps): on the patterns one = (0,0),(1,1) and two = (0,0), with the
maps zero on entry, the merged list is (0,0),(1,1) and `one_2_out` is 1,0: the
entry (1,1), appended by the closing loop, gets no position, so
`1 <= one_2_out[1]` fails. -/
theorem merge_sparse_tail_entry_unmapped :
    merge_sparse [0, 1] [0, 1] [0] [0] [] [] [0, 0] [0]
      = some { row_out := [0, 1], col_out := [0, 1], one_2_out := [1, 0], two_2_out := [1] } := by
  decide

/-- C2 (output order): on the pattern one = (1,1),(0,1) and two = (2,1), where
`max_col` is 1 and the keys of one are 2,1, the merged list is
(1,1),(0,1),(2,1), with keys 2,1,3: not ascending. -/
theorem merge_sparse_output_not_ascending :
    merge_sparse [1, 0] [1, 1] [2] [1] [] [] [0, 0] [0]
      = some { row_out := [1, 0, 2], col_out := [1, 1, 1], one_2_out := [1, 2],
               two_2_out := [0] }
    ∧ (merge_sparse [1, 0] [1, 1] [2] [1] [] [] [0, 0] [0]).map
        (merge_out_keys (merge_max_col [1, 1] [1])) = some [2, 1, 3]
    ∧ ¬ List.Sorted (fun a b : Nat => a ≤ b) [2, 1, 3] := by
  decide

/-- C3 (uniqueness): on the duplicate-free patterns one = (0,1),(0,0) and
two = (0,0) the merged list is (0,0),(0,1),(0,0), which holds (0,0) twice. -/
theorem merge_sparse_output_duplicate :
    merge_sparse [0, 0] [1, 0] [0] [0] [] [] [0, 0] [0]
      = some { row_out := [0, 0, 0], col_out := [0, 1, 0], one_2_out := [0, 0],
               two_2_out := [1] } := by
  decide

/-- C4 (size): on the duplicate-free patterns one = (1,1),(0,1) and two = (0,1),
which share (0,1), the merged list has 3 = 2 + 1 entries. -/
theorem merge_sparse_size_with_common_entry :
    (merge_sparse [1, 0] [1, 1] [0] [1] [] [] [0, 0] [0]).map
        (fun r => (r.row_out, r.col_out, r.row_out.length))
      = some ([0, 1, 0], [1, 1, 1], 2 + 1) := by
  decide

/-! ## The adapter evaluated -/

/-- C5 (problem shape): for one fixed effect and one absolute value term
`get_nlp_info` reports `n = 1`, not `n_fixed + prior_n_abs = 2`, and
`get_bounds_info` called with the reported sizes fails its assertion on `n`,
while it accepts `n = 2`. -/
theorem get_nlp_info_reports_n_fixed :
    (adapter_example 1).map get_nlp_info
      = some { n := 1, m := 2, nnz_jac_g := 0, nnz_h_lag := 0,
               index_style := IndexStyleEnum.C_STYLE, ok := true }
    ∧ (adapter_example 1).bind
        (fun a => get_bounds_info a 1 [Dbl.fin 0] [Dbl.fin 0] 2
          [Dbl.fin 0, Dbl.fin 0] [Dbl.fin 0, Dbl.fin 0])
      = none
    ∧ ((adapter_example 1).bind
        (fun a => get_bounds_info a 2 [Dbl.fin 0, Dbl.fin 0] [Dbl.fin 0, Dbl.fin 0] 2
          [Dbl.fin 0, Dbl.fin 0] [Dbl.fin 0, Dbl.fin 0])).isSome = true := by
  decide

/-- C6 (bounds): for the bounds [-1,1] x (-inf,+inf) and one absolute value
term, with every buffer entry 7 on entry, `get_bounds_info` leaves
`x_l[1] = +1e19` (the upper sentinel) and `x_u[1] = 7` (never written); the
other entries are as claimed. -/
theorem get_bounds_info_infinite_upper :
    (ipopt_fixed_ctor [Dbl.fin (-1), Dbl.ninf] [0, 0] [Dbl.fin 1, Dbl.pinf] []
        (approx_example 1) Dbl.pinf false).bind
      (fun a => get_bounds_info a 3
        [Dbl.fin 7, Dbl.fin 7, Dbl.fin 7] [Dbl.fin 7, Dbl.fin 7, Dbl.fin 7] 2
        [Dbl.fin 7, Dbl.fin 7] [Dbl.fin 7, Dbl.fin 7])
      = some { x_l := [Dbl.fin (-1), Dbl.fin ten_pow_19, Dbl.fin (-ten_pow_19)]
               x_u := [Dbl.fin 1, Dbl.fin 7, Dbl.fin ten_pow_19]
               g_l := [Dbl.fin 0, Dbl.fin 0]
               g_u := [Dbl.fin ten_pow_19, Dbl.fin ten_pow_19]
               ok := true } := by
  decide

/-- C8 (starting point): for one fixed effect and one absolute value term,
`get_starting_point` called with `init_x = true`, `n = 2` and `m = 2` fails
the assertion `vec.size() > 1 + prior_n_abs_` (2 > 2) and returns nothing;
the two loops behind the assertion would fill `x` with `fixed_in[0]` and
`|vec[1]|`. -/
theorem get_starting_point_assertion_fails :
    (adapter_example 1).bind (fun a => get_starting_point a 2 true [7, 7] false 2 false) = none
    ∧ (adapter_example 1).map
        (fun a => ((a.approx_object_.prior_eval a.fixed_in_).length, 1 + a.prior_n_abs_))
      = some (2, 2)
    ∧ (adapter_example 1).bind
        (fun a => get_starting_point_fill a (a.approx_object_.prior_eval a.fixed_in_) [7, 7])
      = some [0, |0 - 3|] := by
  refine ⟨by decide, by decide, rfl⟩

/-! ## Sentinels -/

/-- C7 as stated fails: with the single bounds -1 and +1, which are the smallest
finite lower and the largest finite upper bound, the constructor leaves the
sentinels at -1e19 and +1e19. (Last line: an entry of `fixed_lower` past the
size of `fixed_in`, here -3e19, is not read at all.) -/
theorem sentinel_differs_from_extreme_bound :
    smallest_finite [Dbl.fin (-1)] (-1)
    ∧ largest_finite [Dbl.fin 1] 1
    ∧ (ipopt_fixed_ctor [Dbl.fin (-1)] [0] [Dbl.fin 1] [] (approx_example 0) Dbl.pinf false).map
        nlp_lower_bound_inf = some (Dbl.fin (-ten_pow_19))
    ∧ (ipopt_fixed_ctor [Dbl.fin (-1)] [0] [Dbl.fin 1] [] (approx_example 0) Dbl.pinf false).map
        nlp_upper_bound_inf = some (Dbl.fin ten_pow_19)
    ∧ Dbl.fin (-ten_pow_19) ≠ Dbl.fin (-1)
    ∧ Dbl.fin ten_pow_19 ≠ Dbl.fin 1
    ∧ (ipopt_fixed_ctor [Dbl.fin (-1), Dbl.fin (-3 * ten_pow_19)] [0] [Dbl.fin 1] []
        (approx_example 0) Dbl.pinf false).map nlp_lower_bound_inf
      = some (Dbl.fin (-ten_pow_19)) := by
  refine ⟨⟨by simp, ?_⟩, ⟨by simp, ?_⟩, by decide, by decide, by decide, by decide, by decide⟩
  · intro q hq
    simp only [List.mem_singleton, Dbl.fin.injEq] at hq
    rw [hq]
  · intro q hq
    simp only [List.mem_singleton, Dbl.fin.injEq] at hq
    rw [hq]

/-- C7 amended: after construction from bound vectors as long as `fixed_in`,
`nlp_lower_bound_inf()` is the smaller of -1e19 and the smallest finite entry
of `fixed_lower`, and `nlp_upper_bound_inf()` is the larger of +1e19 and the
largest finite entry of `fixed_upper`, whenever a finite bound of that kind is
present. -/
theorem sentinel_clamped_extreme_bound (fixed_lower : List Dbl) (fixed_in : List ℚ)
    (fixed_upper : List Dbl) (random_in : List ℚ) (approx_object : approx_mixed)
    (objective_opt_0 : Dbl) (finalize_solution_ok_0 : Bool) (a : ipopt_fixed)
    (hctor : ipopt_fixed_ctor fixed_lower fixed_in fixed_upper random_in approx_object
      objective_opt_0 finalize_solution_ok_0 = some a)
    (hl : fixed_lower.length = fixed_in.length) (hu : fixed_upper.length = fixed_in.length) :
    (∀ q, smallest_finite fixed_lower q →
        nlp_lower_bound_inf a = Dbl.fin (min (-ten_pow_19) q))
    ∧ (∀ q, largest_finite fixed_upper q →
        nlp_upper_bound_inf a = Dbl.fin (max ten_pow_19 q)) := by
  obtain ⟨hloop, _⟩ := ipopt_fixed_ctor_some hctor
  rw [sentinel_loop fixed_lower fixed_upper fixed_in.length _ (le_of_eq hl.symm)
    (le_of_eq hu.symm)] at hloop
  simp only [Option.some.injEq, Prod.mk.injEq] at hloop
  rw [← hl, List.take_length] at hloop
  have hup := hloop.2
  rw [hl, ← hu, List.take_length] at hup
  constructor
  · intro q hq
    unfold nlp_lower_bound_inf
    rw [← hloop.1]
    exact sentinel_lower_fold_min fixed_lower _ q hq
  · intro q hq
    unfold nlp_upper_bound_inf
    rw [← hup]
    exact sentinel_upper_fold_max fixed_upper _ q hq

/-- The constructor completes on the bounds [-2e19, 1] x (-inf, +inf). -/
theorem sentinel_example_ctor :
    (ipopt_fixed_ctor [Dbl.fin (-2 * ten_pow_19), Dbl.ninf] [0, 0] [Dbl.fin 1, Dbl.pinf] []
      (approx_example 0) Dbl.pinf false).isSome = true := by
  decide

/-- C7 amended, at the bounds [-2e19, 1] x (-inf, +inf): the lower sentinel is
min(-1e19, -2e19) and the upper sentinel is max(1e19, 1). -/
theorem sentinel_clamped_extreme_bound_witness :
    ∃ a, ipopt_fixed_ctor [Dbl.fin (-2 * ten_pow_19), Dbl.ninf] [0, 0]
        [Dbl.fin 1, Dbl.pinf] [] (approx_example 0) Dbl.pinf false = some a
      ∧ nlp_lower_bound_inf a = Dbl.fin (min (-ten_pow_19) (-2 * ten_pow_19))
      ∧ nlp_upper_bound_inf a = Dbl.fin (max ten_pow_19 1) := by
  obtain ⟨a, ha⟩ := Option.isSome_iff_exists.1 sentinel_example_ctor
  have h := sentinel_clamped_extreme_bound _ _ _ _ _ _ _ a ha rfl rfl
  refine ⟨a, ha, h.1 _ ⟨by simp, ?_⟩, h.2 _ ⟨by simp, ?_⟩⟩
  · intro q hq
    simp only [List.mem_cons, Dbl.fin.injEq, List.mem_singleton, List.not_mem_nil,
      or_false, reduceCtorEq] at hq
    rw [hq]
  · intro q hq
    simp only [List.mem_cons, Dbl.fin.injEq, List.mem_singleton, List.not_mem_nil,
      or_false, reduceCtorEq] at hq
    rw [hq]

/-! ## The objective -/

/-- C9 as stated fails: the adapter without fixed effects and without absolute
value terms has `n_fixed + prior_n_abs = 0`, and `eval_f` called with the
empty `x` fails its assertion `n > 0`. (Second half: when `prior_eval` returns
at `theta` fewer entries than the `1 + prior_n_abs` it returned at `fixed_in`,
the read of `prior_vec_tmp_[1]` is out of range and `eval_f` does not return.) -/
theorem eval_f_rejects_empty_problem :
    (ipopt_fixed_ctor [] [] [] [] (approx_example 0) Dbl.pinf false).map
        (fun a => a.n_fixed_ + a.prior_n_abs_) = some 0
    ∧ (ipopt_fixed_ctor [] [] [] [] (approx_example 0) Dbl.pinf false).map
        (fun a => (eval_f a 0 [] true).map (fun r => r.2)) = some none
    ∧ (ipopt_fixed_ctor [Dbl.fin (-1)] [0] [Dbl.fin 1] [] approx_short Dbl.pinf false).map
        (fun a => (a.n_fixed_, a.prior_n_abs_)) = some (1, 1)
    ∧ (ipopt_fixed_ctor [Dbl.fin (-1)] [0] [Dbl.fin 1] [] approx_short Dbl.pinf false).map
        (fun a => (eval_f a 2 [1, 0] true).map (fun r => r.2)) = some none := by
  decide

/-- C9 amended: for an adapter with `n = n_fixed + prior_n_abs >= 1`, every `x`
of size `n`, `theta = x[0..n_fixed)`, `u` the value `optimize_random` returns
for `theta` (started from `random_in` while there is no incumbent and from
`random_opt_` afterwards), `H = laplace_eval(theta, theta, u)` and
`p = prior_eval(theta)` with its `1 + prior_n_abs` entries, `eval_f` returns
true and sets `obj_value = H + p[0] + sum over j < prior_n_abs of x[n_fixed + j]`. -/
theorem eval_f_relaxed_objective (a : ipopt_fixed) (x : List ℚ) (new_x : Bool)
    (theta u : List ℚ) (H : ℚ) (p : List ℚ)
    (ha : reachable a)
    (hn : 1 ≤ a.n_fixed_ + a.prior_n_abs_)
    (hx : x.length = a.n_fixed_ + a.prior_n_abs_)
    (htheta : theta = x.take a.n_fixed_)
    (hu : u = a.approx_object_.optimize_random theta
      (if a.fixed_opt_.length = 0 then a.random_in_ else a.random_opt_))
    (hH : H = a.approx_object_.laplace_eval theta theta u)
    (hp : p = a.approx_object_.prior_eval theta)
    (hplen : p.length = 1 + a.prior_n_abs_) :
    ∃ a', eval_f a ((a.n_fixed_ + a.prior_n_abs_ : Nat) : Int) x new_x
      = some (a', H + p.getD 0 0 + ∑ j in Finset.range a.prior_n_abs_, x.getD (a.n_fixed_ + j) 0,
              true) := by
  have hinv := reachable_fixed_tmp_length ha
  have hrt : (eval_f_start a).random_tmp_
      = (if a.fixed_opt_.length = 0 then a.random_in_ else a.random_opt_) := by
    unfold eval_f_start
    split <;> simp [*]
  have hp0 : (a.approx_object_.prior_eval (x.take a.n_fixed_))[0]? = some (p.getD 0 0) := by
    rw [← htheta, ← hp]
    have hlt : 0 < p.length := by omega
    simp [List.getD_eq_getElem?_getD, List.getElem?_eq_getElem hlt]
  have hc := eval_f_compute_eq (eval_f_start a) x (p.getD 0 0)
    (by rw [eval_f_start_fixed_tmp, eval_f_start_n_fixed, hinv])
    (by rw [eval_f_start_n_fixed, eval_f_start_prior_n_abs, hx])
    (by rw [eval_f_start_n_fixed, eval_f_start_prior_n_abs, eval_f_start_approx_object,
          ← htheta, ← hp, hplen])
    (by rw [eval_f_start_n_fixed, eval_f_start_approx_object]; exact hp0)
  have hassert : c_assert (decide
      ((((a.n_fixed_ + a.prior_n_abs_ : Nat) : Int) > 0)
        ∧ ((a.n_fixed_ + a.prior_n_abs_ : Nat) : Int).toNat = a.n_fixed_ + a.prior_n_abs_))
      = some () := by
    apply c_assert_of_true
    simp only [decide_eq_true_eq, Int.toNat_ofNat, and_true]
    omega
  rw [eval_f_start_n_fixed, eval_f_start_prior_n_abs, eval_f_start_approx_object, hrt,
    ← htheta, ← hu, ← hH] at hc
  unfold eval_f
  simp only [Option.bind_eq_bind, Option.pure_def]
  rw [hassert]
  simp only [Option.some_bind, hc]
  exact ⟨_, rfl⟩

/-- The constructor completes on one fixed effect and one absolute value
term. -/
theorem adapter_example_ctor : (adapter_example 1).isSome = true := by
  decide

/-- C9 amended, at the adapter with one fixed effect and one absolute value
term and `x = (1, 5)`: `theta = (1)`, `u = ()`, `H = 0`, `p = (1, 1 - 3)`. -/
theorem eval_f_relaxed_objective_witness :
    ∃ a', eval_f ((adapter_example 1).get adapter_example_ctor) ((1 + 1 : Nat) : Int) [1, 5] true
      = some (a', (0 : ℚ) + [(1 : ℚ), 1 - 3].getD 0 0
          + ∑ j in Finset.range 1, [(1 : ℚ), 5].getD (1 + j) 0, true) :=
  eval_f_relaxed_objective ((adapter_example 1).get adapter_example_ctor) [1, 5] true
    [1] [] 0 [1, 1 - 3] (reachable.ctor (Option.some_get adapter_example_ctor).symm)
    (by decide) rfl rfl rfl rfl rfl rfl

/-- C10: for an adapter with at least one fixed effect and a sequence of
completed `eval_f` calls, the incumbent objective `objective_opt_` after each
call is at most its value after the previous call; and when the true
objectives of the calls do not increase from one call to the next (in
particular when they decrease), `objective_opt_` after the last call is the
true objective of the last call. -/
theorem eval_f_incumbent_monotone (fixed_lower : List Dbl) (fixed_in : List ℚ)
    (fixed_upper : List Dbl) (random_in : List ℚ) (approx_object : approx_mixed)
    (objective_opt_0 : Dbl) (finalize_solution_ok_0 : Bool) (a : ipopt_fixed)
    (calls : List (List ℚ × Bool)) (run : List (ipopt_fixed × ℚ))
    (hctor : ipopt_fixed_ctor fixed_lower fixed_in fixed_upper random_in approx_object
      objective_opt_0 finalize_solution_ok_0 = some a)
    (hn : 1 ≤ a.n_fixed_)
    (hrun : eval_f_run a calls = some run) :
    List.Chain' (fun s s' : ipopt_fixed × ℚ => s'.1.objective_opt_ ≤ s.1.objective_opt_) run
    ∧ (List.Chain' (fun t t' : ℚ => t' ≤ t) (run.map Prod.snd) →
        ∀ s ∈ run.getLast?, s.1.objective_opt_ = Dbl.fin s.2) := by
  have hinv := reachable_fixed_tmp_length (reachable.ctor hctor)
  obtain ⟨_, _, _, _, _, _, _, _, _, hfresh, _⟩ := ipopt_fixed_ctor_some hctor
  constructor
  · cases calls with
    | nil =>
      simp only [eval_f_run, Option.some.injEq] at hrun
      rw [← hrun]
      exact List.chain'_nil
    | cons c cs =>
      simp only [eval_f_run, Option.bind_eq_bind, Option.bind_eq_some, Option.pure_def,
        Option.some.injEq] at hrun
      obtain ⟨t, ht, r, hr, rest, hrest, hrun⟩ := hrun
      obtain ⟨h1, h2, _, h4, _⟩ := eval_f_step hinv hn hr ht
      rw [← hrun]
      have hchain : List.Chain (fun s s' : Dbl => s' ≤ s)
          ((fun s : ipopt_fixed × ℚ => s.1.objective_opt_) (r.1, t))
          (List.map (fun s : ipopt_fixed × ℚ => s.1.objective_opt_) rest) :=
        eval_f_run_chain cs r.1 rest h1 (by omega) h4 hrest
      exact (List.chain_map (fun s : ipopt_fixed × ℚ => s.1.objective_opt_)).1 hchain
  · exact eval_f_run_last calls a run hinv hn hrun (Or.inl (by rw [hfresh]; rfl))

/-- Two `eval_f` calls on the adapter with one fixed effect and one absolute
value term complete. -/
theorem eval_f_run_example :
    (eval_f_run ((adapter_example 1).get adapter_example_ctor)
      [([5, 2], true), ([4, 1], false)]).isSome = true := by
  decide

/-- C10, at the adapter with one fixed effect and one absolute value term and
the calls at `x = (5, 2)` and `x = (4, 1)`, with true objectives
`0 + 5 + |5 - 3|` and `0 + 4 + |4 - 3|`. -/
theorem eval_f_incumbent_monotone_witness :
    ∃ run, eval_f_run ((adapter_example 1).get adapter_example_ctor)
        [([5, 2], true), ([4, 1], false)] = some run
      ∧ run.map Prod.snd = [(0 : ℚ) + 5 + |5 - 3|, 0 + 4 + |4 - 3|]
      ∧ List.Chain' (fun s s' : ipopt_fixed × ℚ => s'.1.objective_opt_ ≤ s.1.objective_opt_) run
      ∧ ∀ s ∈ run.getLast?, s.1.objective_opt_ = Dbl.fin s.2 := by
  have hrun := (Option.some_get eval_f_run_example).symm
  have hts : ((eval_f_run ((adapter_example 1).get adapter_example_ctor)
      [([5, 2], true), ([4, 1], false)]).get eval_f_run_example).map Prod.snd
      = [(0 : ℚ) + 5 + |5 - 3|, 0 + 4 + |4 - 3|] := rfl
  have h := eval_f_incumbent_monotone _ _ _ _ _ _ _
    ((adapter_example 1).get adapter_example_ctor) _ _
    (Option.some_get adapter_example_ctor).symm (by decide) hrun
  refine ⟨_, hrun, hts, h.1, h.2 ?_⟩
  rw [hts]
  norm_num [List.chain'_cons]

/-! ## Profiling of the random effects -/

/-- A copying loop completes only when source and buffer have the entries it
touches. -/
theorem for_loop_copy_bounds {α : Type} (x : List α) (n : Nat) (t t' : List α)
    (h : for_loop (fun j t => do
        let v ← x[j]?
        vec_write t j v) n t = some t') : n ≤ x.length ∧ n ≤ t.length := by
  induction n generalizing t' with
  | zero => exact ⟨Nat.zero_le _, Nat.zero_le _⟩
  | succ n ih =>
    rw [for_loop_succ] at h
    simp only [Option.bind_eq_bind, Option.bind_eq_some, vec_write] at h
    obtain ⟨t1, ht1, v, hv, hw⟩ := h
    have hlen := for_loop_copy_length x n t t1 ht1
    have hx : n < x.length := by
      by_contra hc
      rw [List.getElem?_eq_none (Nat.le_of_not_lt hc)] at hv
      cases hv
    by_cases hlt : n < t1.length
    · exact ⟨hx, by omega⟩
    · rw [if_neg hlt] at hw
      cases hw

theorem eval_f_start_random_in (a : ipopt_fixed) :
    (eval_f_start a).random_in_ = a.random_in_ := by
  unfold eval_f_start
  split <;> rfl

theorem eval_f_start_random_tmp (a : ipopt_fixed) :
    (eval_f_start a).random_tmp_
      = if a.fixed_opt_.length = 0 then a.random_in_ else a.random_opt_ := by
  unfold eval_f_start
  split <;> rfl

theorem eval_f_finish_approx_object (a : ipopt_fixed) (v : eval_f_values) :
    (eval_f_finish a v).approx_object_ = a.approx_object_ := by
  unfold eval_f_finish
  dsimp only
  split <;> rfl

theorem eval_f_finish_random_in (a : ipopt_fixed) (v : eval_f_values) :
    (eval_f_finish a v).random_in_ = a.random_in_ := by
  unfold eval_f_finish
  dsimp only
  split <;> rfl

/-- The point at which a completed `eval_f` call has evaluated the Laplace
objective. -/
theorem eval_f_values_some {a : ipopt_fixed} {n : Int} {x : List ℚ} {new_x : Bool}
    {r : ipopt_fixed × ℚ × Bool}
    (hinv : a.fixed_tmp_.length = a.n_fixed_)
    (h : eval_f a n x new_x = some r) :
    ∃ v, eval_f_compute (eval_f_start a) x = some v
      ∧ r = (eval_f_finish (eval_f_start a) v, v.obj_value, true)
      ∧ v.fixed_tmp = x.take a.n_fixed_
      ∧ v.random_tmp = a.approx_object_.optimize_random (x.take a.n_fixed_)
          (if a.fixed_opt_.length = 0 then a.random_in_ else a.random_opt_)
      ∧ v.H = a.approx_object_.laplace_eval (x.take a.n_fixed_) (x.take a.n_fixed_)
          v.random_tmp := by
  obtain ⟨v, hv, hr, _⟩ := eval_f_some h
  refine ⟨v, hv, hr, ?_⟩
  simp only [eval_f_compute, Option.bind_eq_bind, Option.bind_eq_some, Option.pure_def,
    Option.some.injEq] at hv
  obtain ⟨ft, hft, _, _, _, _, _, _, hv⟩ := hv
  rw [eval_f_start_n_fixed, eval_f_start_fixed_tmp] at hft
  have hb := for_loop_copy_bounds x _ _ ft hft
  have hft' := for_loop_copy x a.fixed_tmp_ a.n_fixed_ hb.1 hb.2
  simp only [Option.bind_eq_bind] at hft'
  rw [hft'] at hft
  have hdrop : List.drop a.n_fixed_ a.fixed_tmp_ = [] :=
    List.drop_eq_nil_of_le (le_of_eq hinv)
  rw [hdrop, List.append_nil, Option.some.injEq] at hft
  subst hft
  subst hv
  simp only [eval_f_start_approx_object, eval_f_start_random_tmp, and_self]

/-- The frame of a completed `eval_f` call: sizes, collaborator and initial
random effects stay. -/
theorem eval_f_frame {a : ipopt_fixed} {n : Int} {x : List ℚ} {new_x : Bool}
    {r : ipopt_fixed × ℚ × Bool} (h : eval_f a n x new_x = some r) :
    r.1.approx_object_ = a.approx_object_ ∧ r.1.random_in_ = a.random_in_ := by
  obtain ⟨v, _, hr, _⟩ := eval_f_some h
  rw [hr]
  simp only [eval_f_finish_approx_object, eval_f_start_approx_object,
    eval_f_finish_random_in, eval_f_start_random_in, and_self]

/-- The state after the last call of a run still has the sizes, the
collaborator and the initial random effects of the start state, and its
incumbent is in use. -/
theorem eval_f_run_last_state (calls : List (List ℚ × Bool)) :
    ∀ (a : ipopt_fixed) (run : List (ipopt_fixed × ℚ)),
      a.fixed_tmp_.length = a.n_fixed_ → 1 ≤ a.n_fixed_ →
      eval_f_run a calls = some run →
      ∀ s ∈ run.getLast?, s.1.fixed_tmp_.length = s.1.n_fixed_
        ∧ s.1.n_fixed_ = a.n_fixed_
        ∧ s.1.approx_object_ = a.approx_object_
        ∧ s.1.random_in_ = a.random_in_
        ∧ s.1.fixed_opt_.length ≠ 0 := by
  induction calls with
  | nil =>
    intro a run _ _ hrun s hs
    simp only [eval_f_run, Option.some.injEq] at hrun
    rw [← hrun] at hs
    simp at hs
  | cons c cs ih =>
    intro a run hinv hn hrun s hs
    simp only [eval_f_run, Option.bind_eq_bind, Option.bind_eq_some, Option.pure_def,
      Option.some.injEq] at hrun
    obtain ⟨t, ht, r, hr, rest, hrest, hrun⟩ := hrun
    obtain ⟨h1, h2, _, h4, _⟩ := eval_f_step hinv hn hr ht
    obtain ⟨h5, h6⟩ := eval_f_frame hr
    subst hrun
    cases rest with
    | nil =>
      simp only [List.getLast?_singleton, Option.mem_def, Option.some.injEq] at hs
      rw [← hs]
      exact ⟨h1, h2, h5, h6, h4⟩
    | cons s1 rest1 =>
      rw [List.getLast?_cons_cons] at hs
      obtain ⟨g1, g2, g3, g4, g5⟩ := ih r.1 (s1 :: rest1) h1 (by omega) hrest s hs
      exact ⟨g1, by rw [g2, h2], by rw [g3, h5], by rw [g4, h6], g5⟩

/-! ## The derivative callbacks evaluated -/

/-- C12 (constraints): for one fixed effect and one absolute value term
(`n = 2`, `m = 2`), `x = (0, 5)` and `g = (7, 7)` on entry, `eval_g` writes
`g[0] = -(0*0 + 5 - 1)` and leaves `g[1] = 7`; the claimed values are
`5 + a` and `5 - a` with `a = prior_eval(theta)[1] = 0 - 3`. -/
theorem eval_g_is_toy_constraint :
    (adapter_example 1).bind (fun a => eval_g a 2 [0, 5] true 2 [7, 7])
      = some ([-(0 * 0 + 5 - 1), 7], true)
    ∧ (adapter_example 1).map (fun a => (a.n_fixed_, a.prior_n_abs_,
        (a.approx_object_.prior_eval [0]).getD 1 0)) = some (1, 1, 0 - 3)
    ∧ -((0 : ℚ) * 0 + 5 - 1) ≠ 5 + (0 - 3) ∧ -((0 : ℚ) * 0 + 5 - 1) ≠ 5 - (0 - 3)
    ∧ (7 : ℚ) ≠ 5 + (0 - 3) ∧ (7 : ℚ) ≠ 5 - (0 - 3) := by
  refine ⟨rfl, rfl, ?_, ?_, ?_, ?_⟩ <;> norm_num

/-- C13 (gradient): for one fixed effect and one absolute value term (`n = 2`)
and `x = (0, 0)`, `eval_grad_f` writes `grad_f = (0, -2 * (0 - 2))`, so the
component of the auxiliary variable is 4, not 1; and for two fixed effects and
one absolute value term (`n = 3`) it fails its assertion `n == 2`. -/
theorem eval_grad_f_is_toy_gradient :
    (adapter_example 1).bind (fun a => eval_grad_f a 2 [0, 0] true [7, 7])
      = some ([0, -2 * (0 - 2)], true)
    ∧ (adapter_example 1).map (fun a => (a.n_fixed_, a.prior_n_abs_)) = some (1, 1)
    ∧ -2 * ((0 : ℚ) - 2) ≠ 1
    ∧ (ipopt_fixed_ctor [Dbl.fin (-1), Dbl.ninf] [0, 0] [Dbl.fin 1, Dbl.pinf] []
        (approx_example 1) Dbl.pinf false).map
        (fun a => (a.n_fixed_ + a.prior_n_abs_, eval_grad_f a 3 [0, 0, 0] true [7, 7, 7]))
      = some (3, none) := by
  refine ⟨rfl, rfl, ?_, by decide⟩
  norm_num

/-! ## The dual mode callbacks and `finalize_solution` -/

/-- C14: called with `values == NULL` and the counts that `get_nlp_info` reports
for the adapter with one fixed effect and one absolute value term
(`nnz_jac_g = 0`, `nnz_h_lag = 0`), `eval_jac_g` and `eval_h` fail their
assertions `nele_jac == 2` and `nele_hess == 2` and do not return: they write
no structure and do not return true. -/
theorem dual_mode_rejects_reported_count :
    (adapter_example 1).map (fun a => ((get_nlp_info a).nnz_jac_g, (get_nlp_info a).nnz_h_lag))
      = some (0, 0)
    ∧ (adapter_example 1).map (fun a => eval_jac_g a 2 [0, 5] true 2 0 [] [] none) = some none
    ∧ (adapter_example 1).map (fun a => eval_h a 2 [0, 5] true 1 2 [0, 0] true 0 [] [] none)
      = some none := by
  decide

/-- The two modes for `nele_jac = 2` and `nele_hess = 2`, the counts of the
Ipopt example problem, which the size assertions accept, and buffers of that
size: with `values == NULL`,
`eval_jac_g` and `eval_h` write only `iRow` and `jCol`, the same pairs for
every `x`, `lambda` and `obj_factor`, and return true; with `values` given (and
`n = 2`, `m = 1`, as asserted in this mode) they write only the two entries
of `values`, one for each pair, leave `iRow` and `jCol` as they were, and
return true. -/
theorem dual_mode_convention (a : ipopt_fixed) (n m : Int) (x lambda : List ℚ)
    (new_x new_lambda : Bool) (obj_factor : ℚ) (iRow jCol : List Int) (values : List ℚ)
    (hi : iRow.length = 2) (hj : jCol.length = 2) :
    eval_jac_g a n x new_x m 2 iRow jCol none
      = some { iRow := [0, 0], jCol := [0, 1], values := none, ok := true }
    ∧ eval_h a n x new_x obj_factor m lambda new_lambda 2 iRow jCol none
      = some { iRow := [0, 1], jCol := [0, 1], values := none, ok := true }
    ∧ (x.length = 2 → values.length = 2 →
        eval_jac_g a 2 x new_x 1 2 iRow jCol (some values)
          = some { iRow := iRow, jCol := jCol, values := some [-2 * x.getD 0 0, -1],
                   ok := true })
    ∧ (lambda.length = 1 → values.length = 2 →
        eval_h a 2 x new_x obj_factor 1 lambda new_lambda 2 iRow jCol (some values)
          = some { iRow := iRow, jCol := jCol,
                   values := some [-2 * lambda.getD 0 0, -2 * obj_factor], ok := true }) := by
  obtain ⟨i0, i1, rfl⟩ := List.length_eq_two.1 hi
  obtain ⟨j0, j1, rfl⟩ := List.length_eq_two.1 hj
  refine ⟨by simp [eval_jac_g, c_assert, vec_write], by simp [eval_h, c_assert, vec_write],
    ?_, ?_⟩
  · intro hx hv
    obtain ⟨x0, x1, rfl⟩ := List.length_eq_two.1 hx
    obtain ⟨v0, v1, rfl⟩ := List.length_eq_two.1 hv
    simp [eval_jac_g, c_assert, vec_write]
  · intro hl hv
    obtain ⟨l0, rfl⟩ := List.length_eq_one.1 hl
    obtain ⟨v0, v1, rfl⟩ := List.length_eq_two.1 hv
    simp [eval_h, c_assert, vec_write]

/-- The two modes at the adapter with one fixed effect and one absolute value
term, buffers holding 7 on entry, `x = (3, 5)`, `lambda = (4)` and
`obj_factor = 1`. -/
theorem dual_mode_convention_example :
    eval_jac_g ((adapter_example 1).get adapter_example_ctor) 2 [3, 5] true 1 2 [7, 7] [7, 7] none
      = some { iRow := [0, 0], jCol := [0, 1], values := none, ok := true }
    ∧ eval_h ((adapter_example 1).get adapter_example_ctor) 2 [3, 5] true 1 1 [4] true 2
        [7, 7] [7, 7] none
      = some { iRow := [0, 1], jCol := [0, 1], values := none, ok := true }
    ∧ eval_jac_g ((adapter_example 1).get adapter_example_ctor) 2 [3, 5] true 1 2 [7, 7] [7, 7]
        (some [7, 7])
      = some { iRow := [7, 7], jCol := [7, 7], values := some [-2 * [(3 : ℚ), 5].getD 0 0, -1],
               ok := true }
    ∧ eval_h ((adapter_example 1).get adapter_example_ctor) 2 [3, 5] true 1 1 [4] true 2
        [7, 7] [7, 7] (some [7, 7])
      = some { iRow := [7, 7], jCol := [7, 7],
               values := some [-2 * [(4 : ℚ)].getD 0 0, -2 * 1], ok := true } :=
  have h := dual_mode_convention ((adapter_example 1).get adapter_example_ctor) 2 1 [3, 5] [4]
    true true 1 [7, 7] [7, 7] [7, 7] rfl rfl
  ⟨h.1, h.2.1, h.2.2.1 rfl rfl, h.2.2.2 rfl rfl⟩

/-- C15: for `n = 2`, `m = 1` and a final point with `-1 <= x0 <= 1`, the four
bound multipliers nonnegative, `|x0^2 + x1 - 1| <= 1e-7`,
`|-2*lambda0*x0 - z_L0 + z_U0| <= 1e-7` and `|2*(x1 - 2) + lambda0| <= 1e-7`,
`finalize_solution` sets `finalize_solution_ok_` to true, whatever the solver
status, `g` and `obj_value`. -/
theorem finalize_solution_accepts_kkt_point (a : ipopt_fixed) (status : SolverReturn)
    (x0 x1 zl0 zl1 zu0 zu1 l0 : ℚ) (g : List ℚ) (obj_value : ℚ)
    (hx : -1 ≤ x0 ∧ x0 ≤ 1)
    (hzl : 0 ≤ zl0 ∧ 0 ≤ zl1) (hzu : 0 ≤ zu0 ∧ 0 ≤ zu1)
    (hg : |x0 ^ 2 + x1 - 1| ≤ 1 / 10 ^ 7)
    (h0 : |-2 * l0 * x0 - zl0 + zu0| ≤ 1 / 10 ^ 7)
    (h1 : |2 * (x1 - 2) + l0| ≤ 1 / 10 ^ 7) :
    finalize_solution a status 2 [x0, x1] [zl0, zl1] [zu0, zu1] 1 g [l0] obj_value
      = some { a with finalize_solution_ok_ := true } := by
  have ht : 10 * finalize_tol = 1 / 10 ^ 7 := by norm_num [finalize_tol]
  have hg' : |x0 * x0 + x1 - 1| ≤ 10 * finalize_tol := by
    rw [ht, ← pow_two]; exact hg
  have h0' : |-l0 * 2 * x0 - zl0 + zu0| ≤ 10 * finalize_tol := by
    rw [ht]
    have : -l0 * 2 * x0 = -2 * l0 * x0 := by ring
    rw [this]; exact h0
  have h1' : |2 * (x1 - 2) + l0| ≤ 10 * finalize_tol := by rw [ht]; exact h1
  have h0'' : |-(l0 * 2 * x0) - zl0 + zu0| ≤ 10 * finalize_tol := by
    rw [← neg_mul, ← neg_mul]; exact h0'
  simp [finalize_solution, finalize_solution_check, hx.1, hx.2, hzl.1, hzl.2, hzu.1, hzu.2,
    hg', h0'', h1']

/-- C15, at the optimum `x = (1, 0)`, `lambda = 4`, `z_L = (0, 0)`,
`z_U = (8, 0)`. -/
theorem finalize_solution_accepts_kkt_point_witness :
    finalize_solution ((adapter_example 1).get adapter_example_ctor) SolverReturn.SUCCESS 2
        [1, 0] [0, 0] [8, 0] 1 [0] [4] 2
      = some { ((adapter_example 1).get adapter_example_ctor) with
               finalize_solution_ok_ := true } :=
  finalize_solution_accepts_kkt_point _ SolverReturn.SUCCESS 1 0 0 0 8 0 4 [0] 2
    (by norm_num) (by norm_num) (by norm_num) (by norm_num) (by norm_num) (by norm_num)

/-- C16: from the optimum `x = (1, 0)`, `lambda = 4`, `z_L = (0, 0)`,
`z_U = (8, 0)` with `n = 2`, `m = 1`, a change of `x0` or of `x1` by `+1e-3` or
by `-1e-3` makes `finalize_solution` set `finalize_solution_ok_` to false,
whatever the state, the solver status, `g` and `obj_value`. -/
theorem finalize_solution_rejects_perturbed_point (a : ipopt_fixed) (status : SolverReturn)
    (g : List ℚ) (obj_value : ℚ) :
    finalize_solution a status 2 [1 + 1 / 1000, 0] [0, 0] [8, 0] 1 g [4] obj_value
      = some { a with finalize_solution_ok_ := false }
    ∧ finalize_solution a status 2 [1 - 1 / 1000, 0] [0, 0] [8, 0] 1 g [4] obj_value
      = some { a with finalize_solution_ok_ := false }
    ∧ finalize_solution a status 2 [1, 0 + 1 / 1000] [0, 0] [8, 0] 1 g [4] obj_value
      = some { a with finalize_solution_ok_ := false }
    ∧ finalize_solution a status 2 [1, 0 - 1 / 1000] [0, 0] [8, 0] 1 g [4] obj_value
      = some { a with finalize_solution_ok_ := false } := by
  refine ⟨?_, ?_, ?_, ?_⟩
  · simp [finalize_solution, finalize_solution_check]
  · simp [finalize_solution, finalize_solution_check, finalize_tol]
    intro _ _ h
    norm_num [abs_le] at h
  · simp [finalize_solution, finalize_solution_check, finalize_tol]
    intro h
    norm_num [abs_le] at h
  · simp [finalize_solution, finalize_solution_check, finalize_tol]
    intro h
    norm_num [abs_le] at h

/-! ## The Hessian recorders -/

/-- The inner loop over one row appends the entries of the row that lie in the
lower triangle. -/
theorem foldl_lower_step (i : Nat) (s : List Nat) (acc : hes_lists) :
    s.foldl (lower_step i) acc
      = { row := acc.row ++ ((s.filter (fun j => j ≤ i)).map (fun j => (i, j))).map Prod.fst
          col := acc.col ++ ((s.filter (fun j => j ≤ i)).map (fun j => (i, j))).map Prod.snd
          key := acc.key } := by
  induction s generalizing acc with
  | nil => simp
  | cons j t ih =>
    rw [List.foldl_cons, ih]
    by_cases hj : j ≤ i
    · simp [lower_step, hj, List.filter_cons]
    · simp [lower_step, hj, List.filter_cons]

theorem lower_entries_succ (pattern : sparsity_pattern) (lo cnt : Nat) :
    lower_entries pattern lo (cnt + 1)
      = lower_entries pattern lo cnt
        ++ ((pattern.getD (lo + cnt) []).filter (fun j => j ≤ lo + cnt)).map
            (fun j => (lo + cnt, j)) := by
  simp [lower_entries, List.range'_concat, List.flatMap_append]

/-- A loop over the rows `lo, ..., lo + cnt - 1` whose passes run the inner loop
collects the lower triangle entries of these rows. -/
theorem for_loop_lower (pattern : sparsity_pattern) (lo cnt : Nat)
    (body : Nat → hes_lists → Option hes_lists) (acc0 : hes_lists)
    (hbody : ∀ k acc, k < cnt →
      body k acc = some ((pattern.getD (lo + k) []).foldl (lower_step (lo + k)) acc)) :
    for_loop body cnt acc0
      = some { row := acc0.row ++ (lower_entries pattern lo cnt).map Prod.fst
               col := acc0.col ++ (lower_entries pattern lo cnt).map Prod.snd
               key := acc0.key } := by
  induction cnt with
  | zero => simp [for_loop, lower_entries]
  | succ n ih =>
    rw [for_loop_succ, ih (fun k acc hk => hbody k acc (Nat.lt_succ_of_lt hk))]
    simp only [Option.some_bind, hbody n _ (Nat.lt_succ_self n), foldl_lower_step,
      lower_entries_succ, List.map_append, List.append_assoc]

/-- Membership in the list of lower triangle entries. -/
theorem mem_lower_entries (pattern : sparsity_pattern) (lo cnt : Nat) (p : Nat × Nat) :
    p ∈ lower_entries pattern lo cnt
      ↔ lo ≤ p.1 ∧ p.1 < lo + cnt ∧ p.2 ∈ pattern.getD p.1 [] ∧ p.2 ≤ p.1 := by
  obtain ⟨i, j⟩ := p
  simp only [lower_entries, List.mem_flatMap, List.mem_range'_1, List.mem_map, List.mem_filter,
    decide_eq_true_eq, Prod.mk.injEq]
  constructor
  · rintro ⟨i', ⟨h1, h2⟩, j', ⟨h3, h4⟩, rfl, rfl⟩
    exact ⟨h1, h2, h3, h4⟩
  · rintro ⟨h1, h2, h3, h4⟩
    exact ⟨i, ⟨h1, h2⟩, j, ⟨h3, h4⟩, rfl, rfl⟩

/-- When no set of the pattern repeats an element, no entry is listed twice. -/
theorem nodup_lower_entries (pattern : sparsity_pattern) (lo cnt : Nat)
    (hset : ∀ s ∈ pattern, s.Nodup) : (lower_entries pattern lo cnt).Nodup := by
  unfold lower_entries
  rw [List.nodup_flatMap]
  constructor
  · intro i _
    have hnd : (pattern.getD i []).Nodup := by
      by_cases hi : i < pattern.length
      · rw [List.getD_eq_getElem _ _ hi]
        exact hset _ (List.getElem_mem hi)
      · rw [List.getD_eq_default _ _ (Nat.le_of_not_lt hi)]
        exact List.nodup_nil
    exact (hnd.filter _).map (fun a b h => (Prod.mk.inj h).2)
  · refine (List.nodup_range' lo cnt).imp_of_mem ?_
    intro a b _ _ hab
    simp only [Function.onFun, List.Disjoint]
    intro p hp hq
    simp only [List.mem_map, List.mem_filter] at hp hq
    obtain ⟨_, _, rfl⟩ := hp
    obtain ⟨_, _, h⟩ := hq
    exact hab (Prod.mk.inj h).1.symm

/-- When every set of the pattern is ascending, the entries are listed in row
major order. -/
theorem row_major_lower_entries (pattern : sparsity_pattern) (lo cnt : Nat)
    (hset : ∀ s ∈ pattern, s.Sorted (fun a b => a < b)) :
    (lower_entries pattern lo cnt).Pairwise row_major := by
  unfold lower_entries
  rw [List.pairwise_flatMap]
  constructor
  · intro i _
    have hs : (pattern.getD i []).Sorted (fun a b => a < b) := by
      by_cases hi : i < pattern.length
      · rw [List.getD_eq_getElem _ _ hi]
        exact hset _ (List.getElem_mem hi)
      · rw [List.getD_eq_default _ _ (Nat.le_of_not_lt hi)]
        exact List.sorted_nil
    rw [List.pairwise_map]
    refine List.Pairwise.imp ?_ (List.Pairwise.filter _ hs)
    intro a b hab
    exact ⟨le_refl _, fun _ => le_of_lt hab⟩
  · have hr : (List.range' lo cnt).Pairwise (fun a b => a < b) := List.pairwise_lt_range' lo cnt
    refine hr.imp ?_
    intro a b hab p hp q hq
    simp only [List.mem_map, List.mem_filter] at hp hq
    obtain ⟨_, _, rfl⟩ := hp
    obtain ⟨_, _, rfl⟩ := hq
    exact ⟨le_of_lt hab, fun h => absurd h (Nat.ne_of_lt hab)⟩


theorem zip_map_fst_snd {α β : Type} (l : List (α × β)) :
    List.zip (l.map Prod.fst) (l.map Prod.snd) = l := by
  induction l with
  | nil => rfl
  | cons h t ih => simp [ih]

theorem std_sets_nodup {pattern : sparsity_pattern} (h : std_sets pattern) :
    ∀ s ∈ pattern, s.Nodup :=
  fun s hs => (h s hs).imp (fun hab => Nat.ne_of_lt hab)

/-- What `approx_mixed::record_hessian` computes, for points of the sizes of
the object and a pattern with a set for each variable. -/
theorem approx_mixed_record_hessian_eq (obj : approx_mixed_recorder)
    (fixed_vec random_vec : List ℚ)
    (hf : fixed_vec.length = obj.n_fixed_) (hr : random_vec.length = obj.n_random_)
    (hlen : (obj.hessian_sparsity fixed_vec random_vec).length = obj.n_fixed_ + obj.n_random_) :
    approx_mixed_record_hessian obj fixed_vec random_vec
      = some { obj with
          hessian_row_ := (lower_entries (obj.hessian_sparsity fixed_vec random_vec)
            obj.n_fixed_ obj.n_random_).map Prod.fst
          hessian_col_ := (lower_entries (obj.hessian_sparsity fixed_vec random_vec)
            obj.n_fixed_ obj.n_random_).map Prod.snd } := by
  have h1 := for_loop_copy fixed_vec (List.replicate (obj.n_fixed_ + obj.n_random_) (0 : ℚ))
    obj.n_fixed_ (by omega) (by simp)
  have h2 := for_loop_write (fun j => random_vec[j]?) (fun j => random_vec.getD j 0)
    obj.n_fixed_ obj.n_random_
    (List.take obj.n_fixed_ fixed_vec
      ++ List.drop obj.n_fixed_ (List.replicate (obj.n_fixed_ + obj.n_random_) (0 : ℚ)))
    (fun j hj => by
      have hlt : j < random_vec.length := by omega
      simp [List.getD_eq_getElem?_getD, List.getElem?_eq_getElem hlt])
    (by simp; omega)
  have h3 := for_loop_lower (obj.hessian_sparsity fixed_vec random_vec) obj.n_fixed_
    obj.n_random_
    (fun k acc => do
      let i := obj.n_fixed_ + k
      let s ← (obj.hessian_sparsity fixed_vec random_vec)[i]?
      pure (s.foldl (fun acc j => if i ≥ obj.n_fixed_ then lower_step i acc j else acc) acc))
    { row := [], col := [], key := [] }
    (fun k acc hk => by
      have hlt : obj.n_fixed_ + k < (obj.hessian_sparsity fixed_vec random_vec).length := by
        omega
      simp [List.getElem?_eq_getElem hlt, List.getD_eq_getElem _ _ hlt])
  unfold approx_mixed_record_hessian
  simp only [Option.bind_eq_bind, Option.pure_def] at h1 h2 h3 ⊢
  rw [h1]
  simp only [Option.some_bind]
  rw [h2]
  simp only [Option.some_bind, Nat.add_sub_cancel_left]
  rw [h3]
  simp

/-- What `approx_mixed::record_hes_ran` computes, for a pattern with a set for
each random effect. -/
theorem approx_mixed_record_hes_ran_eq (obj : approx_mixed_recorder)
    (fixed_vec random_vec : List ℚ)
    (hlen : (obj.hes_ran_sparsity fixed_vec random_vec).length = obj.n_random_) :
    approx_mixed_record_hes_ran obj fixed_vec random_vec
      = some { obj with
          hes_ran_row_ := (lower_entries (obj.hes_ran_sparsity fixed_vec random_vec)
            0 obj.n_random_).map Prod.fst
          hes_ran_col_ := (lower_entries (obj.hes_ran_sparsity fixed_vec random_vec)
            0 obj.n_random_).map Prod.snd } := by
  have h3 := for_loop_lower (obj.hes_ran_sparsity fixed_vec random_vec) 0 obj.n_random_
    (fun i acc => do
      let s ← (obj.hes_ran_sparsity fixed_vec random_vec)[i]?
      pure (s.foldl (lower_step i) acc))
    { row := [], col := [], key := [] }
    (fun k acc hk => by
      have hlt : k < (obj.hes_ran_sparsity fixed_vec random_vec).length := by omega
      simp [List.getElem?_eq_getElem hlt, List.getD_eq_getElem _ _ hlt])
  unfold approx_mixed_record_hes_ran
  simp only [Option.bind_eq_bind, Option.pure_def] at h3 ⊢
  rw [h3]
  simp

/-! ## index_sort -/

theorem index_sort_insert_perm (e : Nat × Nat) (l : List (Nat × Nat)) :
    (index_sort_insert e l).Perm (e :: l) := by
  induction l with
  | nil => exact List.Perm.refl _
  | cons h t ih =>
    unfold index_sort_insert
    split
    · exact List.Perm.refl _
    · exact (List.Perm.cons h ih).trans (List.Perm.swap e h t)

theorem index_sort_insert_sorted (e : Nat × Nat) (l : List (Nat × Nat))
    (hl : l.Pairwise (fun a b => a.1 ≤ b.1)) :
    (index_sort_insert e l).Pairwise (fun a b => a.1 ≤ b.1) := by
  induction l with
  | nil => exact List.pairwise_singleton _ _
  | cons h t ih =>
    unfold index_sort_insert
    rw [List.pairwise_cons] at hl
    split
    · rename_i hlt
      refine List.Pairwise.cons ?_ (List.Pairwise.cons hl.1 hl.2)
      intro b hb
      rcases List.mem_cons.1 hb with rfl | hb
      · exact le_of_lt hlt
      · exact le_trans (le_of_lt hlt) (hl.1 b hb)
    · rename_i hlt
      refine List.Pairwise.cons ?_ (ih hl.2)
      intro b hb
      rcases List.mem_cons.1 ((index_sort_insert_perm e t).mem_iff.1 hb) with rfl | hb
      · exact not_lt.1 hlt
      · exact hl.1 b hb

/-- The list of `(key, index)` pairs behind `index_sort` is a rearrangement of
the pairs it is given, ordered by key. -/
theorem index_sort_fold (l : List (Nat × Nat)) :
    ∀ acc : List (Nat × Nat), acc.Pairwise (fun a b => a.1 ≤ b.1) →
      (l.foldl (fun acc e => index_sort_insert (e.2, e.1) acc) acc).Perm
          (l.map (fun e => (e.2, e.1)) ++ acc)
      ∧ (l.foldl (fun acc e => index_sort_insert (e.2, e.1) acc) acc).Pairwise
          (fun a b => a.1 ≤ b.1) := by
  induction l with
  | nil => intro acc h; exact ⟨List.Perm.refl _, h⟩
  | cons e t ih =>
    intro acc h
    obtain ⟨h1, h2⟩ := ih (index_sort_insert (e.2, e.1) acc) (index_sort_insert_sorted _ acc h)
    refine ⟨?_, h2⟩
    rw [List.foldl_cons]
    refine h1.trans ?_
    rw [List.map_cons, List.cons_append]
    exact ((List.Perm.append_left _ (index_sort_insert_perm (e.2, e.1) acc)).trans
      List.perm_middle)

theorem map_getD_range {α β : Type} (l : List α) (d : α) (f : α → β) :
    (List.range l.length).map (fun k => f (l.getD k d)) = l.map f := by
  apply List.ext_getElem
  · simp
  · intro n h1 h2
    simp only [List.length_map, List.length_range] at h1
    simp [List.getElem?_eq_getElem h1]

/-- Gathering the entries of `E` in the order `index_sort` gives for their keys
rearranges `E` and puts the keys in ascending order. -/
theorem index_sort_gather (E : List (Nat × Nat)) (kf : Nat × Nat → Nat) :
    ((index_sort (E.map kf)).map (fun t => E.getD t (0, 0))).Perm E
    ∧ ((index_sort (E.map kf)).map (fun t => E.getD t (0, 0))).Pairwise
        (fun a b => kf a ≤ kf b)
    ∧ (index_sort (E.map kf)).length = E.length
    ∧ ∀ t ∈ index_sort (E.map kf), t < E.length := by
  obtain ⟨h1, h2⟩ := index_sort_fold (E.map kf).enum [] List.Pairwise.nil
  rw [List.append_nil] at h1
  have hmem : ∀ p ∈ (E.map kf).enum.foldl (fun acc e => index_sort_insert (e.2, e.1) acc) [],
      p.2 < E.length ∧ p.1 = kf (E.getD p.2 (0, 0)) := by
    intro p hp
    have hp' := h1.mem_iff.1 hp
    simp only [List.mem_map] at hp'
    obtain ⟨e, he, rfl⟩ := hp'
    obtain ⟨t, k⟩ := e
    have := List.mem_enum he
    obtain ⟨hlt, hk⟩ := this
    rw [List.length_map] at hlt
    dsimp only
    refine ⟨hlt, ?_⟩
    rw [List.getElem_map] at hk
    rw [List.getD_eq_getElem _ _ hlt]
    exact hk
  unfold index_sort
  refine ⟨?_, ?_, ?_, ?_⟩
  · rw [List.map_map]
    refine (h1.map _).trans ?_
    rw [List.map_map]
    have : (List.map (((fun t => E.getD t (0, 0)) ∘ Prod.snd) ∘ fun e : Nat × Nat => (e.2, e.1))
        (E.map kf).enum) = ((E.map kf).enum.map Prod.fst).map (fun t => E.getD t (0, 0)) := by
      rw [List.map_map]
      rfl
    rw [this, List.enum_map_fst, List.length_map]
    have := map_getD_range E (0, 0) id
    simp only [id] at this
    rw [this, List.map_id]
  · rw [List.map_map, List.pairwise_map]
    refine List.Pairwise.imp_of_mem ?_ h2
    intro a b ha hb hab
    simp only [Function.comp]
    rw [← (hmem a ha).2, ← (hmem b hb).2]
    exact hab
  · rw [List.length_map, h1.length_eq, List.length_map, List.enum_length, List.length_map]
  · intro t ht
    simp only [List.mem_map] at ht
    obtain ⟨p, hp, rfl⟩ := ht
    exact (hmem p hp).1

/-- The inner loop of `cppad_mixed::record_hes_ran` over one row whose elements
are columns of random effects appends the entries in the lower triangle and
their keys. -/
theorem foldlM_cppad_lower_step (n_fixed n_total i : Nat) (s : List Nat) (acc : hes_lists)
    (hs : ∀ j ∈ s, n_fixed ≤ j) :
    s.foldlM (cppad_lower_step n_fixed n_total i) acc
      = some
        { row := acc.row ++ ((s.filter (fun j => j ≤ i)).map (fun j => (i, j))).map Prod.fst
          col := acc.col ++ ((s.filter (fun j => j ≤ i)).map (fun j => (i, j))).map Prod.snd
          key := acc.key ++ ((s.filter (fun j => j ≤ i)).map (fun j => (i, j))).map
            (fun p => p.1 + p.2 * n_total) } := by
  induction s generalizing acc with
  | nil => simp
  | cons j t ih =>
    have hj : n_fixed ≤ j := hs j (List.mem_cons_self _ _)
    rw [List.foldlM_cons]
    by_cases hji : j ≤ i
    · simp [cppad_lower_step, c_assert, hj, hji, List.filter_cons,
        ih _ (fun j' hj' => hs j' (List.mem_cons_of_mem _ hj'))]
    · simp [cppad_lower_step, c_assert, hj, hji, List.filter_cons,
        ih _ (fun j' hj' => hs j' (List.mem_cons_of_mem _ hj'))]

/-- The loop over the rows of the random effects in `cppad_mixed::record_hes_ran`
collects the lower triangle entries of these rows and their keys. -/
theorem for_loop_cppad_lower (pattern : sparsity_pattern) (n_fixed n_total cnt : Nat)
    (acc0 : hes_lists)
    (hlen : n_fixed + cnt ≤ pattern.length)
    (hcols : ∀ i, n_fixed ≤ i → ∀ j ∈ pattern.getD i [], n_fixed ≤ j) :
    for_loop (fun k acc => do
        let i := n_fixed + k
        let s ← pattern[i]?
        s.foldlM (cppad_lower_step n_fixed n_total i) acc) cnt acc0
      = some { row := acc0.row ++ (lower_entries pattern n_fixed cnt).map Prod.fst
               col := acc0.col ++ (lower_entries pattern n_fixed cnt).map Prod.snd
               key := acc0.key ++ (lower_entries pattern n_fixed cnt).map
                 (fun p => p.1 + p.2 * n_total) } := by
  induction cnt with
  | zero => simp [for_loop, lower_entries]
  | succ n ih =>
    have hlt : n_fixed + n < pattern.length := by omega
    rw [for_loop_succ, ih (by omega)]
    simp only [Option.some_bind, Option.bind_eq_bind, List.getElem?_eq_getElem hlt]
    have hrow := hcols (n_fixed + n) (Nat.le_add_right _ _)
    rw [List.getD_eq_getElem _ _ hlt] at hrow
    rw [foldlM_cppad_lower_step _ _ _ _ _ hrow]
    simp only [lower_entries_succ, List.map_append, List.append_assoc,
      List.getD_eq_getElem _ _ hlt]

theorem set_append_drop {α : Type} (l b : List α) (n : Nat) (v : α) (hl : l.length = n)
    (hb : n < b.length) : (l ++ b.drop n).set n v = (l ++ [v]) ++ b.drop (n + 1) := by
  rw [List.set_append_right _ _ (by omega), hl, Nat.sub_self, List.drop_eq_getElem_cons hb]
  simp only [List.set_cons_zero, List.append_assoc, List.singleton_append]

/-- The last loop of `cppad_mixed::record_hes_ran` gathers `row` and `col` in the
order `ind`. -/
theorem for_loop_gather (ind row col : List Nat) (n : Nat) (b1 b2 : List Nat)
    (hn : n ≤ ind.length) (hind : ∀ t ∈ ind, t < row.length ∧ t < col.length)
    (h1 : n ≤ b1.length) (h2 : n ≤ b2.length) :
    for_loop (fun k (out : List Nat × List Nat) => do
        let t ← ind[k]?
        let r ← row[t]?
        let hes_ran_row ← vec_write out.1 k r
        let c ← col[t]?
        let hes_ran_col ← vec_write out.2 k c
        pure (hes_ran_row, hes_ran_col)) n (b1, b2)
      = some ((ind.take n).map (fun t => row.getD t 0) ++ b1.drop n,
              (ind.take n).map (fun t => col.getD t 0) ++ b2.drop n) := by
  induction n with
  | zero => simp [for_loop]
  | succ n ih =>
    have hlt : n < ind.length := hn
    have ht := hind ind[n] (List.getElem_mem hlt)
    rw [for_loop_succ, ih (by omega) (by omega) (by omega)]
    have hl1 : n < ((ind.take n).map (fun t => row.getD t 0) ++ b1.drop n).length := by
      simp only [List.length_append, List.length_map, List.length_take, List.length_drop]
      omega
    have hl2 : n < ((ind.take n).map (fun t => col.getD t 0) ++ b2.drop n).length := by
      simp only [List.length_append, List.length_map, List.length_take, List.length_drop]
      omega
    have hlen1 : ((ind.take n).map (fun t => row.getD t 0)).length = n := by
      simp only [List.length_map, List.length_take]; omega
    have hlen2 : ((ind.take n).map (fun t => col.getD t 0)).length = n := by
      simp only [List.length_map, List.length_take]; omega
    simp only [Option.some_bind, Option.bind_eq_bind, List.getElem?_eq_getElem hlt,
      List.getElem?_eq_getElem ht.1, List.getElem?_eq_getElem ht.2, vec_write, hl1, hl2,
      if_true, Option.pure_def]
    rw [set_append_drop _ b1 n _ hlen1 (by omega), set_append_drop _ b2 n _ hlen2 (by omega),
      List.take_succ, List.getElem?_eq_getElem hlt]
    simp only [Option.toList, List.map_append, List.map_cons, List.map_nil,
      List.getD_eq_getElem _ _ ht.1, List.getD_eq_getElem _ _ ht.2]

theorem getD_map_fst (E : List (Nat × Nat)) (t : Nat) :
    (E.map Prod.fst).getD t 0 = (E.getD t (0, 0)).1 := by
  by_cases h : t < E.length
  · rw [List.getD_eq_getElem _ _ (by simpa using h), List.getD_eq_getElem _ _ h,
      List.getElem_map]
  · rw [List.getD_eq_default _ _ (by simpa using h), List.getD_eq_default _ _ (by omega)]

theorem getD_map_snd (E : List (Nat × Nat)) (t : Nat) :
    (E.map Prod.snd).getD t 0 = (E.getD t (0, 0)).2 := by
  by_cases h : t < E.length
  · rw [List.getD_eq_getElem _ _ (by simpa using h), List.getD_eq_getElem _ _ h,
      List.getElem_map]
  · rw [List.getD_eq_default _ _ (by simpa using h), List.getD_eq_default _ _ (by omega)]

/-- What `cppad_mixed::record_hes_ran` computes on its first call, for points of
the sizes of the object and a pattern with a set for each variable whose
random effect rows hold random effect columns only: the lower triangle
entries of the random effect rows, gathered in the order `index_sort` gives
for the keys `i + j * n_total`. -/
theorem cppad_mixed_record_hes_ran_eq (obj : cppad_mixed) (fixed_vec random_vec : List ℚ)
    (hdone : obj.record_hes_ran_done_ = false)
    (hf : fixed_vec.length = obj.n_fixed_) (hr : random_vec.length = obj.n_random_)
    (hlen : obj.ran_like_sparsity.length = obj.n_fixed_ + obj.n_random_)
    (hcols : ∀ i, obj.n_fixed_ ≤ i → ∀ j ∈ obj.ran_like_sparsity.getD i [], obj.n_fixed_ ≤ j) :
    cppad_mixed_record_hes_ran obj fixed_vec random_vec
      = some { obj with
          hes_ran_row_ := ((index_sort ((lower_entries obj.ran_like_sparsity obj.n_fixed_
              obj.n_random_).map (fun p => p.1 + p.2 * (obj.n_fixed_ + obj.n_random_)))).map
            (fun t => (lower_entries obj.ran_like_sparsity obj.n_fixed_
              obj.n_random_).getD t (0, 0))).map Prod.fst
          hes_ran_col_ := ((index_sort ((lower_entries obj.ran_like_sparsity obj.n_fixed_
              obj.n_random_).map (fun p => p.1 + p.2 * (obj.n_fixed_ + obj.n_random_)))).map
            (fun t => (lower_entries obj.ran_like_sparsity obj.n_fixed_
              obj.n_random_).getD t (0, 0))).map Prod.snd
          record_hes_ran_done_ := true } := by
  have hcollect := for_loop_cppad_lower obj.ran_like_sparsity obj.n_fixed_
    (obj.n_fixed_ + obj.n_random_) obj.n_random_ { row := [], col := [], key := [] }
    (le_of_eq hlen.symm) hcols
  obtain ⟨_, _, hilen, himem⟩ := index_sort_gather
    (lower_entries obj.ran_like_sparsity obj.n_fixed_ obj.n_random_)
    (fun p => p.1 + p.2 * (obj.n_fixed_ + obj.n_random_))
  have hgather := for_loop_gather
    (index_sort ((lower_entries obj.ran_like_sparsity obj.n_fixed_ obj.n_random_).map
      (fun p => p.1 + p.2 * (obj.n_fixed_ + obj.n_random_))))
    ((lower_entries obj.ran_like_sparsity obj.n_fixed_ obj.n_random_).map Prod.fst)
    ((lower_entries obj.ran_like_sparsity obj.n_fixed_ obj.n_random_).map Prod.snd)
    ((lower_entries obj.ran_like_sparsity obj.n_fixed_ obj.n_random_).map Prod.fst).length
    (List.replicate
      ((lower_entries obj.ran_like_sparsity obj.n_fixed_ obj.n_random_).map Prod.fst).length 0)
    (List.replicate
      ((lower_entries obj.ran_like_sparsity obj.n_fixed_ obj.n_random_).map Prod.fst).length 0)
    (by rw [hilen, List.length_map])
    (fun t ht => by
      have := himem t ht
      simp only [List.length_map]
      exact ⟨this, this⟩)
    (by simp) (by simp)
  rw [List.length_map, ← hilen, List.take_length, hilen] at hgather
  simp only [List.drop_replicate, Nat.sub_self, List.replicate_zero, List.append_nil,
    getD_map_fst, getD_map_snd] at hgather
  unfold cppad_mixed_record_hes_ran
  simp only [Option.bind_eq_bind, Option.pure_def, List.nil_append] at hcollect hgather ⊢
  rw [c_assert_of_true (by simp [hdone]), c_assert_of_true (by simp [hf]),
    c_assert_of_true (by simp [hr])]
  simp only [Option.some_bind, Nat.add_sub_cancel_left]
  rw [hcollect]
  simp only [Option.some_bind, List.length_map]
  rw [hgather]
  simp only [Option.some_bind, List.map_map]
  rfl

/-! ## The index lists of the recorders -/

/-- Ascending keys `i + j * n_total` of two pairs with rows below `n_total` put
the pairs in column major order. -/
theorem col_major_of_key_le (n_total : Nat) (a b : Nat × Nat) (ha : a.1 < n_total)
    (hb : b.1 < n_total) (h : a.1 + a.2 * n_total ≤ b.1 + b.2 * n_total) : col_major a b := by
  have hcol : a.2 ≤ b.2 := by
    by_contra hc
    have h1 : b.2 + 1 ≤ a.2 := by omega
    have h2 := Nat.mul_le_mul_right n_total h1
    rw [Nat.add_mul, Nat.one_mul] at h2
    omega
  refine ⟨hcol, fun heq => ?_⟩
  rw [heq] at h
  omega

/-- C17: on its first call, for points of the sizes of the object and a pattern
over `n_total = n_fixed + n_random` variables whose random effect rows hold
random effect columns only, `cppad_mixed::record_hes_ran` completes, and the
list of pairs `(hes_ran_row_[k], hes_ran_col_[k])` holds exactly the pattern
entries `(i, j)` with `n_fixed <= i < n_total` and `j <= i`, each once; every
pair has `row >= col >= n_fixed`; and the list is in column major order. -/
theorem cppad_record_hes_ran_index_lists (obj : cppad_mixed) (fixed_vec random_vec : List ℚ)
    (hdone : obj.record_hes_ran_done_ = false)
    (hf : fixed_vec.length = obj.n_fixed_) (hr : random_vec.length = obj.n_random_)
    (hlen : obj.ran_like_sparsity.length = obj.n_fixed_ + obj.n_random_)
    (hset : std_sets obj.ran_like_sparsity)
    (hcols : ∀ i, obj.n_fixed_ ≤ i → ∀ j ∈ obj.ran_like_sparsity.getD i [], obj.n_fixed_ ≤ j) :
    ∃ obj', cppad_mixed_record_hes_ran obj fixed_vec random_vec = some obj'
      ∧ obj'.hes_ran_row_.length = obj'.hes_ran_col_.length
      ∧ (∀ i j, (i, j) ∈ List.zip obj'.hes_ran_row_ obj'.hes_ran_col_
          ↔ obj.n_fixed_ ≤ i ∧ i < obj.n_fixed_ + obj.n_random_
            ∧ j ∈ obj.ran_like_sparsity.getD i [] ∧ j ≤ i)
      ∧ (List.zip obj'.hes_ran_row_ obj'.hes_ran_col_).Nodup
      ∧ (∀ p ∈ List.zip obj'.hes_ran_row_ obj'.hes_ran_col_, p.1 ≥ p.2 ∧ p.2 ≥ obj.n_fixed_)
      ∧ List.Pairwise col_major (List.zip obj'.hes_ran_row_ obj'.hes_ran_col_)
      ∧ List.Chain' col_major (List.zip obj'.hes_ran_row_ obj'.hes_ran_col_) := by
  obtain ⟨hperm, hsorted, _, _⟩ := index_sort_gather
    (lower_entries obj.ran_like_sparsity obj.n_fixed_ obj.n_random_)
    (fun p => p.1 + p.2 * (obj.n_fixed_ + obj.n_random_))
  have hmem : ∀ p, p ∈ (index_sort ((lower_entries obj.ran_like_sparsity obj.n_fixed_
        obj.n_random_).map (fun p => p.1 + p.2 * (obj.n_fixed_ + obj.n_random_)))).map
        (fun t => (lower_entries obj.ran_like_sparsity obj.n_fixed_ obj.n_random_).getD t (0, 0))
      ↔ obj.n_fixed_ ≤ p.1 ∧ p.1 < obj.n_fixed_ + obj.n_random_
        ∧ p.2 ∈ obj.ran_like_sparsity.getD p.1 [] ∧ p.2 ≤ p.1 :=
    fun p => (hperm.mem_iff).trans (mem_lower_entries _ _ _ p)
  have hpair : List.Pairwise col_major
      ((index_sort ((lower_entries obj.ran_like_sparsity obj.n_fixed_
        obj.n_random_).map (fun p => p.1 + p.2 * (obj.n_fixed_ + obj.n_random_)))).map
        (fun t => (lower_entries obj.ran_like_sparsity obj.n_fixed_ obj.n_random_).getD t
          (0, 0))) := by
    refine List.Pairwise.imp_of_mem ?_ hsorted
    intro a b ha hb hab
    exact col_major_of_key_le _ a b ((hmem a).1 ha).2.1 ((hmem b).1 hb).2.1 hab
  refine ⟨_, cppad_mixed_record_hes_ran_eq obj fixed_vec random_vec hdone hf hr hlen hcols, ?_⟩
  simp only [List.length_map, zip_map_fst_snd, true_and]
  refine ⟨fun i j => hmem (i, j), ?_, ?_, hpair, hpair.chain'⟩
  · exact hperm.nodup_iff.2 (nodup_lower_entries _ _ _ (std_sets_nodup hset))
  · intro p hp
    have h := (hmem p).1 hp
    exact ⟨h.2.2.2, hcols p.1 h.1 p.2 h.2.2.1⟩

/-- C17, at the object with one fixed effect, three random effects and the
pattern rows `{}`, `{1,3}`, `{2}`, `{1,3}`. -/
theorem cppad_record_hes_ran_index_lists_witness :
    ∃ obj', cppad_mixed_record_hes_ran cppad_example [0] [0, 0, 0] = some obj'
      ∧ obj'.hes_ran_row_.length = obj'.hes_ran_col_.length
      ∧ (∀ i j, (i, j) ∈ List.zip obj'.hes_ran_row_ obj'.hes_ran_col_
          ↔ 1 ≤ i ∧ i < 1 + 3 ∧ j ∈ [[], [1, 3], [2], [1, 3]].getD i [] ∧ j ≤ i)
      ∧ (List.zip obj'.hes_ran_row_ obj'.hes_ran_col_).Nodup
      ∧ (∀ p ∈ List.zip obj'.hes_ran_row_ obj'.hes_ran_col_, p.1 ≥ p.2 ∧ p.2 ≥ 1)
      ∧ List.Pairwise col_major (List.zip obj'.hes_ran_row_ obj'.hes_ran_col_)
      ∧ List.Chain' col_major (List.zip obj'.hes_ran_row_ obj'.hes_ran_col_) :=
  cppad_record_hes_ran_index_lists cppad_example [0] [0, 0, 0] rfl rfl rfl rfl (by decide)
    (by
      intro i hi j hj
      have hi' : 1 ≤ i := hi
      show 1 ≤ j
      have hlt : i < 4 := by
        by_contra hc
        rw [List.getD_eq_default _ _ (by simpa [cppad_example] using hc)] at hj
        cases hj
      interval_cases i <;> simp [cppad_example] at hj <;> omega)

/-- C18 as stated fails: for three random effects and the pattern rows `{0,2}`,
`{1}`, `{0,2}`, `approx_mixed::record_hes_ran` lists the lower triangle as
(0,0), (1,1), (2,0), (2,2): the columns 0, 1, 0, 2 are not in column major
order. -/
theorem approx_record_hes_ran_not_col_major :
    (approx_mixed_record_hes_ran recorder_example [0] [0, 0, 0]).map
        (fun o => List.zip o.hes_ran_row_ o.hes_ran_col_)
      = some [(0, 0), (1, 1), (2, 0), (2, 2)]
    ∧ ¬ List.Chain' col_major [(0, 0), (1, 1), (2, 0), (2, 2)] := by
  refine ⟨by decide, ?_⟩
  simp [List.chain'_cons, col_major]

/-- C18 amended: for every pattern with a set for each of the `n_random` random
effects, the index lists that `approx_mixed::record_hes_ran` builds hold
exactly the lower triangle entries (row >= col) of the pattern, each once, in
row major order: sorted by row and, within a row, by column. -/
theorem approx_record_hes_ran_row_major (obj : approx_mixed_recorder)
    (fixed_vec random_vec : List ℚ) (pattern : sparsity_pattern)
    (hpat : pattern = obj.hes_ran_sparsity fixed_vec random_vec)
    (hlen : pattern.length = obj.n_random_) (hset : std_sets pattern) :
    ∃ obj', approx_mixed_record_hes_ran obj fixed_vec random_vec = some obj'
      ∧ obj'.hes_ran_row_.length = obj'.hes_ran_col_.length
      ∧ (∀ i j, (i, j) ∈ List.zip obj'.hes_ran_row_ obj'.hes_ran_col_
          ↔ i < obj.n_random_ ∧ j ∈ pattern.getD i [] ∧ j ≤ i)
      ∧ (List.zip obj'.hes_ran_row_ obj'.hes_ran_col_).Nodup
      ∧ List.Pairwise row_major (List.zip obj'.hes_ran_row_ obj'.hes_ran_col_)
      ∧ List.Chain' row_major (List.zip obj'.hes_ran_row_ obj'.hes_ran_col_) := by
  subst hpat
  refine ⟨_, approx_mixed_record_hes_ran_eq obj fixed_vec random_vec hlen, ?_⟩
  simp only [List.length_map, zip_map_fst_snd, true_and]
  have hrm := row_major_lower_entries (obj.hes_ran_sparsity fixed_vec random_vec) 0
    obj.n_random_ hset
  refine ⟨fun i j => ?_, nodup_lower_entries _ _ _ (std_sets_nodup hset), hrm, hrm.chain'⟩
  rw [mem_lower_entries]
  simp

/-- C18 amended, at three random effects and the pattern rows `{0,2}`, `{1}`,
`{0,2}`. -/
theorem approx_record_hes_ran_row_major_witness :
    ∃ obj', approx_mixed_record_hes_ran recorder_example [0] [0, 0, 0] = some obj'
      ∧ obj'.hes_ran_row_.length = obj'.hes_ran_col_.length
      ∧ (∀ i j, (i, j) ∈ List.zip obj'.hes_ran_row_ obj'.hes_ran_col_
          ↔ i < 3 ∧ j ∈ [[0, 2], [1], [0, 2]].getD i [] ∧ j ≤ i)
      ∧ (List.zip obj'.hes_ran_row_ obj'.hes_ran_col_).Nodup
      ∧ List.Pairwise row_major (List.zip obj'.hes_ran_row_ obj'.hes_ran_col_)
      ∧ List.Chain' row_major (List.zip obj'.hes_ran_row_ obj'.hes_ran_col_) :=
  approx_record_hes_ran_row_major recorder_example [0] [0, 0, 0] [[0, 2], [1], [0, 2]] rfl rfl
    (by decide)

/-- C19: for points of the sizes of the object and every pattern with a set for
each of the `n_both = n_fixed + n_random` variables,
`approx_mixed::record_hessian` completes, and the list of pairs
`(hessian_row_[k], hessian_col_[k])` holds exactly the pattern entries
`(i, j)` with `n_fixed <= i < n_both` and `j <= i`, each once; so it holds no
entry with row below `n_fixed`. -/
theorem approx_record_hessian_index_lists (obj : approx_mixed_recorder)
    (fixed_vec random_vec : List ℚ) (pattern : sparsity_pattern)
    (hpat : pattern = obj.hessian_sparsity fixed_vec random_vec)
    (hf : fixed_vec.length = obj.n_fixed_) (hr : random_vec.length = obj.n_random_)
    (hlen : pattern.length = obj.n_fixed_ + obj.n_random_) (hset : std_sets pattern) :
    ∃ obj', approx_mixed_record_hessian obj fixed_vec random_vec = some obj'
      ∧ obj'.hessian_row_.length = obj'.hessian_col_.length
      ∧ (∀ i j, (i, j) ∈ List.zip obj'.hessian_row_ obj'.hessian_col_
          ↔ obj.n_fixed_ ≤ i ∧ i < obj.n_fixed_ + obj.n_random_
            ∧ j ∈ pattern.getD i [] ∧ j ≤ i)
      ∧ (List.zip obj'.hessian_row_ obj'.hessian_col_).Nodup
      ∧ (∀ p ∈ List.zip obj'.hessian_row_ obj'.hessian_col_, ¬ p.1 < obj.n_fixed_) := by
  subst hpat
  refine ⟨_, approx_mixed_record_hessian_eq obj fixed_vec random_vec hf hr hlen, ?_⟩
  simp only [List.length_map, zip_map_fst_snd, true_and]
  refine ⟨fun i j => mem_lower_entries _ _ _ (i, j),
    nodup_lower_entries _ _ _ (std_sets_nodup hset), ?_⟩
  intro p hp
  have := ((mem_lower_entries _ _ _ p).1 hp).1
  omega

/-- C19, at one fixed effect, three random effects and the pattern rows
`{0,1}`, `{0,1,3}`, `{2}`, `{1,3}`. -/
theorem approx_record_hessian_index_lists_witness :
    ∃ obj', approx_mixed_record_hessian recorder_example [0] [0, 0, 0] = some obj'
      ∧ obj'.hessian_row_.length = obj'.hessian_col_.length
      ∧ (∀ i j, (i, j) ∈ List.zip obj'.hessian_row_ obj'.hessian_col_
          ↔ 1 ≤ i ∧ i < 1 + 3 ∧ j ∈ [[0, 1], [0, 1, 3], [2], [1, 3]].getD i [] ∧ j ≤ i)
      ∧ (List.zip obj'.hessian_row_ obj'.hessian_col_).Nodup
      ∧ (∀ p ∈ List.zip obj'.hessian_row_ obj'.hessian_col_, ¬ p.1 < 1) :=
  approx_record_hessian_index_lists recorder_example [0] [0, 0, 0]
    [[0, 1], [0, 1, 3], [2], [1, 3]] rfl rfl rfl rfl (by decide)

/-- C20 as stated fails for `cppad_mixed::record_hes_ran`: the first call on an
object completes and sets `record_hes_ran_done_`; a second call on the same
object fails the assertion `! record_hes_ran_done_`. -/
theorem cppad_record_hes_ran_second_call_fails :
    (cppad_mixed_record_hes_ran cppad_example [0] [0, 0, 0]).map
        (fun o => (o.hes_ran_row_, o.hes_ran_col_, o.record_hes_ran_done_))
      = some ([1, 3, 2, 3], [1, 1, 2, 3], true)
    ∧ (cppad_mixed_record_hes_ran cppad_example [0] [0, 0, 0]).bind
        (fun o => cppad_mixed_record_hes_ran o [5] [6, 7, 8]) = none := by
  decide

/-- C20 amended: `approx_mixed::record_hes_ran`, called twice on the same object
at two points whose sparsity patterns are identical, completes both times and
leaves `hes_ran_row_` and `hes_ran_col_` after the second call identical to
those after the first; `cppad_mixed::record_hes_ran` completes on its first
call on an object, and every later call on that object fails the assertion
`! record_hes_ran_done_`. -/
theorem recorder_idempotence (obj : approx_mixed_recorder) (theta1 u1 theta2 u2 : List ℚ)
    (cobj : cppad_mixed) (fixed_vec random_vec : List ℚ)
    (hsame : obj.hes_ran_sparsity theta1 u1 = obj.hes_ran_sparsity theta2 u2)
    (hlen : (obj.hes_ran_sparsity theta1 u1).length = obj.n_random_)
    (hdone : cobj.record_hes_ran_done_ = false)
    (hf : fixed_vec.length = cobj.n_fixed_) (hr : random_vec.length = cobj.n_random_)
    (hclen : cobj.ran_like_sparsity.length = cobj.n_fixed_ + cobj.n_random_)
    (hcols : ∀ i, cobj.n_fixed_ ≤ i →
      ∀ j ∈ cobj.ran_like_sparsity.getD i [], cobj.n_fixed_ ≤ j) :
    (∃ o1 o2, approx_mixed_record_hes_ran obj theta1 u1 = some o1
      ∧ approx_mixed_record_hes_ran o1 theta2 u2 = some o2
      ∧ o2.hes_ran_row_ = o1.hes_ran_row_ ∧ o2.hes_ran_col_ = o1.hes_ran_col_)
    ∧ (∃ c1, cppad_mixed_record_hes_ran cobj fixed_vec random_vec = some c1
      ∧ c1.record_hes_ran_done_ = true
      ∧ ∀ fixed_vec2 random_vec2, cppad_mixed_record_hes_ran c1 fixed_vec2 random_vec2 = none) := by
  constructor
  · have h1 := approx_mixed_record_hes_ran_eq obj theta1 u1 hlen
    have h2 := approx_mixed_record_hes_ran_eq
      { obj with
        hes_ran_row_ := (lower_entries (obj.hes_ran_sparsity theta1 u1) 0 obj.n_random_).map
          Prod.fst
        hes_ran_col_ := (lower_entries (obj.hes_ran_sparsity theta1 u1) 0 obj.n_random_).map
          Prod.snd }
      theta2 u2 (by rw [← hsame]; exact hlen)
    refine ⟨_, _, h1, h2, ?_, ?_⟩
    · simp only [hsame]
    · simp only [hsame]
  · refine ⟨_, cppad_mixed_record_hes_ran_eq cobj fixed_vec random_vec hdone hf hr hclen hcols,
      rfl, ?_⟩
    intro f2 r2
    simp [cppad_mixed_record_hes_ran, c_assert]

/-- C20 amended, at the recorder with three random effects (pattern rows
`{0,2}`, `{1}`, `{0,2}` at every point) and the `cppad_mixed` object with one
fixed and three random effects. -/
theorem recorder_idempotence_witness :
    (∃ o1 o2, approx_mixed_record_hes_ran recorder_example [0] [0, 0, 0] = some o1
      ∧ approx_mixed_record_hes_ran o1 [5] [6, 7, 8] = some o2
      ∧ o2.hes_ran_row_ = o1.hes_ran_row_ ∧ o2.hes_ran_col_ = o1.hes_ran_col_)
    ∧ (∃ c1, cppad_mixed_record_hes_ran cppad_example [0] [0, 0, 0] = some c1
      ∧ c1.record_hes_ran_done_ = true
      ∧ ∀ fixed_vec2 random_vec2, cppad_mixed_record_hes_ran c1 fixed_vec2 random_vec2 = none) :=
  recorder_idempotence recorder_example [0] [0, 0, 0] [5] [6, 7, 8] cppad_example [0] [0, 0, 0]
    rfl rfl rfl rfl rfl rfl
    (by
      intro i hi j hj
      have hi' : 1 ≤ i := hi
      show 1 ≤ j
      have hlt : i < 4 := by
        by_contra hc
        rw [List.getD_eq_default _ _ (by simpa [cppad_example] using hc)] at hj
        cases hj
      interval_cases i <;> simp [cppad_example] at hj <;> omega)

/-! ## data_subset is an order-preserving filter -/

/-- A loop that conjoins a test of each index to a flag. -/
theorem for_loop_all (g : Nat → Option Bool) (p : Nat → Bool) (n : Nat) (ok : Bool)
    (hg : ∀ j, j < n → g j = some (p j)) :
    for_loop (fun j ok => do
        let b ← g j
        pure (ok && b)) n ok = some (ok && (List.range n).all p) := by
  induction n with
  | zero => simp [for_loop]
  | succ n ih =>
    rw [for_loop_succ, ih (fun j hj => hg j (Nat.lt_succ_of_lt hj)), List.range_succ]
    simp [hg n (Nat.lt_succ_self n), Bool.and_assoc]

theorem int_of_size_t_eq (n : Nat) (h : n < 2 ^ 31) : int_of_size_t n = n := by
  unfold int_of_size_t
  norm_num at h ⊢
  omega

theorem data_subset_ok_eq (covariate_value : List (Option ℚ))
    (covariate_table : List covariate_struct) (child_object : child_info) (data_id : Nat)
    (h : data_id * covariate_table.length + covariate_table.length ≤ covariate_value.length) :
    data_subset_ok covariate_value covariate_table child_object data_id
      = some (data_subset_keep covariate_value covariate_table child_object data_id) := by
  unfold data_subset_ok data_subset_keep
  by_cases hc : child_object.table_id2child data_id ≤ child_object.child_size
  · simp only [hc, decide_True, if_true, Bool.true_and]
    have := for_loop_all
      (fun j => do
        let x_j ← covariate_value[data_id * covariate_table.length + j]?
        let c ← covariate_table[j]?
        pure (decide (Dbl.fin |data_subset_difference x_j c.reference| ≤ c.max_difference)))
      (fun j =>
        match covariate_value[data_id * covariate_table.length + j]?, covariate_table[j]? with
        | some x_j, some c =>
          decide (Dbl.fin |data_subset_difference x_j c.reference| ≤ c.max_difference)
        | _, _ => false)
      covariate_table.length true
      (by
        intro j hj
        have h1 : data_id * covariate_table.length + j < covariate_value.length := by omega
        simp [List.getElem?_eq_getElem h1, List.getElem?_eq_getElem hj])
    simp only [Bool.true_and] at this
    refine Eq.trans ?_ (this.trans rfl)
    congr 1
    funext j ok
    cases covariate_value[data_id * covariate_table.length + j]? <;> simp
    cases covariate_table[j]? <;> simp
  · simp [hc]

/-- A loop that fills a fresh buffer from its first entry on. -/
theorem for_loop_fill {α : Type} (g : Nat → Option α) (f : Nat → α) (n : Nat) (d : α)
    (hg : ∀ j, j < n → g j = some (f j)) :
    for_loop (fun j x => do
        let v ← g j
        vec_write x j v) n (List.replicate n d) = some ((List.range n).map f) := by
  have h := for_loop_write g f 0 n (List.replicate n d) hg (by simp)
  simp only [Nat.zero_add, List.take_zero, List.nil_append] at h
  rw [h]
  simp

/-- The first loop of a two-pass filter: it records the test of each index and
counts the indices that pass. -/
theorem for_loop_flags (g : Nat → Option Bool) (p : Nat → Bool) (N n : Nat) (hn : n ≤ N)
    (hg : ∀ i, i < n → g i = some (p i)) :
    for_loop (fun i (s : List Bool × Nat) => do
        let b ← g i
        let ok ← vec_write s.1 i b
        pure (ok, if b then s.2 + 1 else s.2)) n (List.replicate N false, 0)
      = some ((List.range n).map p ++ List.replicate (N - n) false,
          ((List.range n).filter p).length) := by
  induction n with
  | zero => simp [for_loop]
  | succ n ih =>
    rw [for_loop_succ, ih (by omega) (fun i hi => hg i (Nat.lt_succ_of_lt hi))]
    have hN : N - n = (N - (n + 1)) + 1 := by omega
    have hlt : n < ((List.range n).map p ++ List.replicate (N - n) false).length := by
      simp; omega
    simp only [Option.some_bind, Option.bind_eq_bind, hg n (Nat.lt_succ_self n), vec_write, hlt,
      if_true, Option.pure_def]
    congr 1
    refine Prod.ext ?_ ?_
    · show ((List.range n).map p ++ List.replicate (N - n) false).set n (p n) = _
      rw [List.set_append_right _ _ (by simp), hN, List.replicate_succ, List.range_succ,
        List.map_append]
      simp
    · show (if p n = true then _ else _) = _
      rw [List.range_succ, List.filter_append]
      cases hp : p n <;> simp [hp]

theorem filter_range_length_lt (p : Nat → Bool) (N n : Nat) (hn : n < N) (hp : p n = true) :
    ((List.range n).filter p).length < ((List.range N).filter p).length := by
  have h1 : ((List.range (n + 1)).filter p).length = ((List.range n).filter p).length + 1 := by
    rw [List.range_succ, List.filter_append]
    simp [hp]
  have h2 : ((List.range (n + 1)).filter p).length ≤ ((List.range N).filter p).length :=
    ((List.range_sublist.2 hn).filter p).length_le
  omega

/-- The second loop of a two-pass filter: it writes the entries of the indices
that passed, in order, over a buffer of the counted size. -/
theorem for_loop_compact {β : Type} (p : Nat → Bool) (e : Nat → Option β) (f : Nat → β)
    (ok : List Bool) (N n : Nat) (fresh : β)
    (hok : ∀ i, i < N → ok[i]? = some (p i))
    (he : ∀ i, i < N → p i = true → e i = some (f i)) (hn : n ≤ N) :
    for_loop (fun i (s : List β × Nat) => do
        let b ← ok[i]?
        if b then
          let _one ← s.1[s.2]?
          let v ← e i
          let obj ← vec_write s.1 s.2 v
          pure (obj, s.2 + 1)
        else pure s) n (List.replicate ((List.range N).filter p).length fresh, 0)
      = some (((List.range n).filter p).map f
            ++ List.replicate
              (((List.range N).filter p).length - ((List.range n).filter p).length) fresh,
          ((List.range n).filter p).length) := by
  induction n with
  | zero => simp [for_loop]
  | succ n ih =>
    have hnN : n < N := hn
    rw [for_loop_succ, ih (by omega)]
    simp only [Option.some_bind, Option.bind_eq_bind, hok n hnN, Option.pure_def]
    cases hp : p n with
    | false =>
      simp only [Bool.false_eq_true, if_false, List.range_succ, List.filter_append]
      simp [hp]
    | true =>
      have hlt := filter_range_length_lt p N n hnN hp
      set c := ((List.range n).filter p).length with hc
      set M := ((List.range N).filter p).length with hM
      have hlen : (((List.range n).filter p).map f).length = c := by simp [hc]
      have hlt2 : c < (((List.range n).filter p).map f ++ List.replicate (M - c) fresh).length := by
        rw [List.length_append, hlen, List.length_replicate]; omega
      have hM2 : M - c = (M - (c + 1)) + 1 := by omega
      simp only [if_true, List.getElem?_eq_getElem hlt2, Option.some_bind, he n hnN hp, vec_write,
        hlt2]
      congr 1
      refine Prod.ext ?_ ?_
      · show (((List.range n).filter p).map f ++ List.replicate (M - c) fresh).set c (f n) = _
        rw [List.set_append_right _ _ (by omega), hlen, Nat.sub_self, hM2, List.replicate_succ,
          List.range_succ, List.filter_append, List.map_append]
        simp [hp, hc]
      · show c + 1 = _
        rw [List.range_succ, List.filter_append]
        simp [hp, hc]

theorem data_subset_x_eq (covariate_value : List (Option ℚ))
    (covariate_table : List covariate_struct) (data_id : Nat) (row : data_struct)
    (h : data_id * covariate_table.length + covariate_table.length ≤ covariate_value.length) :
    data_subset_x covariate_value covariate_table data_id
      = some (data_subset_entry covariate_value covariate_table data_id row).x := by
  unfold data_subset_x data_subset_entry
  have hin : ∀ j, j < covariate_table.length →
      data_id * covariate_table.length + j < covariate_value.length := by
    intro j hj; omega
  have := for_loop_fill
    (fun j => do
      let x_j ← covariate_value[data_id * covariate_table.length + j]?
      let c ← covariate_table[j]?
      pure (data_subset_difference x_j c.reference))
    (fun j => data_subset_difference
      (covariate_value.getD (data_id * covariate_table.length + j) none)
      ((covariate_table.getD j ⟨0, Dbl.pinf⟩).reference))
    covariate_table.length 0
    (by
      intro j hj
      simp [List.getElem?_eq_getElem (hin j hj), List.getElem?_eq_getElem hj,
        List.getD_eq_getElem _ _ (hin j hj), List.getD_eq_getElem _ _ hj])
  refine Eq.trans ?_ (this.trans ?_)
  · show for_loop _ _ _ = _
    congr 1
    funext j x
    beta_reduce
    rcases h1 : covariate_value[data_id * covariate_table.length + j]? with _ | a <;>
      rcases h2 : covariate_table[j]? with _ | c <;> simp
  · congr 1
    rw [← List.filterMap_eq_map]
    apply List.filterMap_congr
    intro j hj
    have hj' : j < covariate_table.length := List.mem_range.1 hj
    simp [List.getElem?_eq_getElem (hin j hj'), List.getElem?_eq_getElem hj',
      List.getD_eq_getElem _ _ (hin j hj'), List.getD_eq_getElem _ _ hj']

theorem filterMap_ite_eq (β : Type) (p : Nat → Bool) (g : Nat → Option β) (f : Nat → β)
    (l : List Nat) (h : ∀ i, i ∈ l → p i = true → g i = some (f i)) :
    l.filterMap (fun i => if p i = true then g i else none) = (l.filter p).map f := by
  induction l with
  | nil => rfl
  | cons a t ih =>
    have ih' := ih (fun i hi => h i (List.mem_cons_of_mem a hi))
    cases hp : p a with
    | false => simp [List.filterMap_cons, List.filter_cons, hp, ih']
    | true =>
      simp [List.filterMap_cons, List.filter_cons, hp, ih', h a (List.mem_cons_self a t) hp]

/-- The function `data_subset` computes the order-preserving filter, for a
covariate value vector with one value per row and covariate and a data table
whose indices fit `int`. -/
theorem data_subset_eq (data_table : List data_struct) (covariate_value : List (Option ℚ))
    (covariate_table : List covariate_struct) (child_object : child_info)
    (fresh : data_subset_struct)
    (hcv : covariate_value.length = data_table.length * covariate_table.length)
    (hint : data_table.length ≤ 2 ^ 31) :
    data_subset data_table covariate_value covariate_table child_object fresh
      = some (data_subset_filter data_table covariate_value covariate_table child_object) := by
  have hin : ∀ i, i < data_table.length →
      i * covariate_table.length + covariate_table.length ≤ covariate_value.length := by
    intro i hi
    rw [hcv]
    calc i * covariate_table.length + covariate_table.length
        = (i + 1) * covariate_table.length := by ring
      _ ≤ data_table.length * covariate_table.length := Nat.mul_le_mul_right _ hi
  unfold data_subset data_subset_filter
  by_cases h0 : data_table.length = 0
  · simp [h0]
  · rw [if_neg h0]
    have hcount := for_loop_flags
      (data_subset_ok covariate_value covariate_table child_object)
      (data_subset_keep covariate_value covariate_table child_object)
      data_table.length data_table.length (Nat.le_refl _)
      (fun i hi => data_subset_ok_eq covariate_value covariate_table child_object i (hin i hi))
    have hfill := for_loop_compact
      (data_subset_keep covariate_value covariate_table child_object)
      (fun data_id => do
        let x ← data_subset_x covariate_value covariate_table data_id
        let row ← data_table[data_id]?
        pure ({ original_id := int_of_size_t data_id
                integrand_id := row.integrand_id
                density_id := row.density_id
                node_id := row.node_id
                weight_id := row.weight_id
                hold_out := row.hold_out
                meas_value := row.meas_value
                meas_std := row.meas_std
                age_lower := row.age_lower
                age_upper := row.age_upper
                time_lower := row.time_lower
                time_upper := row.time_upper
                x := x } : data_subset_struct))
      (fun data_id => data_subset_entry covariate_value covariate_table data_id
        (data_table.getD data_id ⟨0, 0, 0, 0, 0, 0, 0, 0, 0, 0, 0⟩))
      ((List.range data_table.length).map
          (data_subset_keep covariate_value covariate_table child_object)
        ++ List.replicate (data_table.length - data_table.length) false)
      data_table.length data_table.length fresh
      (by
        intro i hi
        simp [List.getElem?_append_left, hi])
      (by
        intro i hi _
        beta_reduce
        rw [data_subset_x_eq covariate_value covariate_table i
          (data_table.getD i ⟨0, 0, 0, 0, 0, 0, 0, 0, 0, 0, 0⟩) (hin i hi)]
        have hlt : i < 2 ^ 31 := by omega
        simp [List.getElem?_eq_getElem hi, List.getD_eq_getElem _ _ hi, data_subset_entry,
          int_of_size_t_eq i hlt])
      (Nat.le_refl _)
    unfold data_subset_count data_subset_fill
    simp only [Option.bind_eq_bind, Option.pure_def] at hcount hfill ⊢
    rw [hcount]
    simp only [Option.some_bind]
    refine Eq.trans ?_ ((congrArg (fun o => o.bind (fun r => some r.1)) hfill).trans ?_)
    · congr 2
      funext data_id s
      rcases hb : (List.map (data_subset_keep covariate_value covariate_table child_object)
          (List.range data_table.length) ++
            List.replicate (data_table.length - data_table.length) false)[data_id]? with _ | b
      · simp
      · cases b
        · simp
        · simp only [Option.some_bind, if_true]
          rcases h1 : s.1[s.2]? with _ | a
          · simp
          · simp only [Option.some_bind]
            rcases h2 : data_subset_x covariate_value covariate_table data_id with _ | x
            · simp
            · rcases h3 : data_table[data_id]? with _ | row <;> simp
    · simp only [Option.some_bind, Nat.sub_self, List.replicate_zero, List.append_nil]
      congr 1
      symm
      apply filterMap_ite_eq
      intro i hi _
      have hi' : i < data_table.length := List.mem_range.1 hi
      simp [List.getElem?_eq_getElem hi', List.getD_eq_getElem _ _ hi']

theorem data_subset_filter_ids (data_table : List data_struct)
    (covariate_value : List (Option ℚ)) (covariate_table : List covariate_struct)
    (child_object : child_info) :
    (data_subset_filter data_table covariate_value covariate_table child_object).map
        (fun e => e.original_id)
      = ((List.range data_table.length).filter
          (data_subset_keep covariate_value covariate_table child_object)).map
          Int.ofNat := by
  unfold data_subset_filter
  rw [filterMap_ite_eq data_subset_struct _ _
    (fun data_id => data_subset_entry covariate_value covariate_table data_id
      (data_table.getD data_id ⟨0, 0, 0, 0, 0, 0, 0, 0, 0, 0, 0⟩))]
  · rw [List.map_map]
    rfl
  · intro i hi _
    have hi' : i < data_table.length := List.mem_range.1 hi
    simp [List.getElem?_eq_getElem hi', List.getD_eq_getElem _ _ hi']

/-- C21: for a covariate value vector with one value for each row and covariate,
and a data table whose indices fit the type `int` of `original_id`,
`data_subset` returns the order-preserving filter of the data table: one entry
for each `data_id` whose node is the parent or a descendant and whose covariate
differences are all within the maximum difference (a null value counting as
difference zero), with `x` the differences and the other fields copied from the
row; the `original_id` of the entries are these `data_id` in increasing order,
so they strictly increase with `subset_id`. -/
theorem data_subset_order_preserving_filter (data_table : List data_struct)
    (covariate_value : List (Option ℚ)) (covariate_table : List covariate_struct)
    (child_object : child_info) (fresh : data_subset_struct)
    (hcv : covariate_value.length = data_table.length * covariate_table.length)
    (hint : data_table.length ≤ 2 ^ 31) :
    ∃ data_subset_obj,
      data_subset data_table covariate_value covariate_table child_object fresh
        = some data_subset_obj
      ∧ data_subset_obj
        = data_subset_filter data_table covariate_value covariate_table child_object
      ∧ data_subset_obj.map (fun e => e.original_id)
        = ((List.range data_table.length).filter
            (data_subset_keep covariate_value covariate_table child_object)).map
            Int.ofNat
      ∧ (data_subset_obj.map (fun e => e.original_id)).Pairwise (fun a b => a < b) := by
  refine ⟨_, data_subset_eq data_table covariate_value covariate_table child_object fresh hcv hint,
    rfl, data_subset_filter_ids data_table covariate_value covariate_table child_object, ?_⟩
  rw [data_subset_filter_ids]
  apply List.Pairwise.map Int.ofNat (R := fun a b => a < b)
  · intro a b hab
    exact Int.ofNat_lt.2 hab
  · exact List.Pairwise.filter _ (List.pairwise_lt_range _)

theorem data_subset_order_preserving_filter_witness :
    ∃ data_subset_obj,
      data_subset data_table_example covariate_value_example covariate_table_example
          child_example fresh_example
        = some data_subset_obj
      ∧ data_subset_obj
        = data_subset_filter data_table_example covariate_value_example
            covariate_table_example child_example
      ∧ data_subset_obj.map (fun e => e.original_id)
        = ((List.range data_table_example.length).filter
            (data_subset_keep covariate_value_example covariate_table_example
              child_example)).map
            Int.ofNat
      ∧ (data_subset_obj.map (fun e => e.original_id)).Pairwise (fun a b => a < b) :=
  data_subset_order_preserving_filter data_table_example covariate_value_example
    covariate_table_example child_example fresh_example (by decide) (by decide)

theorem Dbl.fin_le_fin (a b : ℚ) : (Dbl.fin a ≤ Dbl.fin b) ↔ a ≤ b := by
  show (Dbl.fin a = Dbl.fin b ∨ Dbl.fin a < Dbl.fin b) ↔ a ≤ b
  rw [Dbl.fin_lt_fin, le_iff_eq_or_lt]
  simp

/-- The example: rows 0 and 1 are kept, row 2 is not below the parent, row 3 has
a covariate too far from its reference. -/
theorem data_subset_example :
    data_subset data_table_example covariate_value_example covariate_table_example
        child_example fresh_example
      = some [⟨0, 0, 0, 7, 0, 0, 1 / 2, 1, 0, 10, 2000, 2010, [1 - 0]⟩,
              ⟨1, 1, 0, 8, 0, 0, 3 / 2, 1, 20, 30, 2000, 2010, [0]⟩] := by
  rw [data_subset_eq _ _ _ _ _ (by decide) (by decide)]
  simp [data_subset_filter, data_subset_keep, data_subset_entry, data_table_example,
    covariate_value_example, covariate_table_example, child_example, data_subset_difference,
    List.range_succ, List.filterMap_cons, Dbl.fin_le_fin]
  norm_num

/-! ## bnd_mulcov_command evaluated -/

theorem Dbl.ninf_lt_fin (a : ℚ) : (Dbl.ninf < Dbl.fin a) ↔ True := Iff.rfl

theorem Dbl.fin_lt_pinf (a : ℚ) : (Dbl.fin a < Dbl.pinf) ↔ True := Iff.rfl

theorem Dbl.pinf_lt (a : Dbl) : (Dbl.pinf < a) ↔ False := by
  cases a <;> exact Iff.rfl

theorem Dbl.lt_ninf (a : Dbl) : (a < Dbl.ninf) ↔ False := by
  cases a <;> exact Iff.rfl

theorem Dbl.fin_ne_pinf (a : ℚ) : (Dbl.fin a = Dbl.pinf) ↔ False :=
  ⟨fun h => Dbl.noConfusion h, False.elim⟩

/-- C22: one covariate with reference 0 and the subset values -1 and 3, so that
`D = 3`, and `max_abs_effect = 6`: for the rate_value multiplier the command
stores the upper bound `2 = 6 / 3` and the lower bound `2`, not `-2`, because
the branch for `cov_min_diff < 0` takes `std::max(upper, ...)`; the meas_noise
multiplier keeps nan. With `max_abs_effect = 0.5` and the one subset value 1
it stores the bounds 0, because `atoi` reads 0.5 as 0. -/
theorem bnd_mulcov_command_lower_bound :
    bnd_mulcov_command "6" [some (-1), some 3] [⟨0⟩, ⟨1⟩] [⟨0, Dbl.pinf⟩] mulcov_table_example
      = some [⟨some (Dbl.fin 2), some (Dbl.fin 2)⟩, ⟨none, none⟩]
    ∧ bnd_mulcov_command "0.5" [some 1] [⟨0⟩] [⟨0, Dbl.pinf⟩] mulcov_table_example
      = some [⟨some (Dbl.fin 0), some (Dbl.fin 0)⟩, ⟨none, none⟩] := by
  have h6 : atoi "6" = 6 := by decide
  have h0 : atoi "0.5" = 0 := by decide
  constructor
  · simp [bnd_mulcov_command, h6, for_loop, vec_write, mulcov_table_example, bnd_mulcov_diff,
      size_t_of_int, size_t_mod]
    norm_num [bnd_mulcov_bound, bnd_mulcov_quotient, std_min, std_max, Dbl.fin_lt_fin,
      Dbl.ninf_lt_fin, Dbl.fin_lt_pinf, Dbl.pinf_lt, Dbl.lt_ninf, Dbl.fin_ne_pinf]
  · simp [bnd_mulcov_command, h0, for_loop, vec_write, mulcov_table_example, bnd_mulcov_diff,
      size_t_of_int, size_t_mod]
    norm_num [bnd_mulcov_bound, bnd_mulcov_quotient, std_min, std_max, Dbl.fin_lt_fin,
      Dbl.ninf_lt_fin, Dbl.fin_lt_pinf, Dbl.pinf_lt, Dbl.lt_ninf, Dbl.fin_ne_pinf]

/-! ## The incumbent along a run of eval_f -/

/-- A summing loop completes only when each of its reads succeeds, and then it
has added the values read. -/
theorem for_loop_sum_inv (g : Nat → Option ℚ) (f : ℚ → ℚ) (n : Nat) (v w : ℚ)
    (h : for_loop (fun j v => do
        let s ← g j
        pure (v + f s)) n v = some w) :
    (∀ j, j < n → (g j).isSome = true)
    ∧ w = v + ∑ j in Finset.range n, f ((g j).getD 0) := by
  induction n generalizing w with
  | zero =>
    simp only [for_loop, Option.some.injEq] at h
    simp [h]
  | succ n ih =>
    rw [for_loop_succ] at h
    simp only [Option.bind_eq_bind, Option.bind_eq_some, Option.pure_def,
      Option.some.injEq] at h
    obtain ⟨w1, hw1, s, hs, hw⟩ := h
    obtain ⟨h1, h2⟩ := ih w1 hw1
    refine ⟨?_, ?_⟩
    · intro j hj
      rcases Nat.lt_succ_iff_lt_or_eq.1 hj with hlt | heq
      · exact h1 j hlt
      · rw [heq, hs]; rfl
    · rw [Finset.sum_range_succ, hs, ← hw, h2]
      simp [add_assoc]

/-- What a completed computation of `eval_f` has computed. -/
theorem eval_f_compute_some {a : ipopt_fixed} {x : List ℚ} {v : eval_f_values}
    (hinv : a.fixed_tmp_.length = a.n_fixed_) (h : eval_f_compute a x = some v) :
    v.fixed_tmp = x.take a.n_fixed_
    ∧ v.random_tmp = a.approx_object_.optimize_random v.fixed_tmp a.random_tmp_
    ∧ v.H = a.approx_object_.laplace_eval v.fixed_tmp v.fixed_tmp v.random_tmp
    ∧ v.prior_vec_tmp = a.approx_object_.prior_eval v.fixed_tmp
    ∧ v.obj_value = v.H + v.prior_vec_tmp.getD 0 0
        + ∑ j in Finset.range a.prior_n_abs_, x.getD (a.n_fixed_ + j) 0
    ∧ v.obj_tmp = v.H + v.prior_vec_tmp.getD 0 0
        + ∑ j in Finset.range a.prior_n_abs_, |v.prior_vec_tmp.getD (1 + j) 0| := by
  simp only [eval_f_compute, Option.bind_eq_bind, Option.bind_eq_some, Option.pure_def,
    Option.some.injEq] at h
  obtain ⟨ft, hft, p0, hp0, ov, hov, ot, hot, hv⟩ := h
  have hb := for_loop_copy_bounds x _ _ ft hft
  have hft' := for_loop_copy x a.fixed_tmp_ a.n_fixed_ hb.1 hb.2
  simp only [Option.bind_eq_bind] at hft'
  rw [hft'] at hft
  have hdrop : List.drop a.n_fixed_ a.fixed_tmp_ = [] :=
    List.drop_eq_nil_of_le (le_of_eq hinv)
  rw [hdrop, List.append_nil, Option.some.injEq] at hft
  subst hft
  have h1 := for_loop_sum_inv (fun j => x[a.n_fixed_ + j]?) (fun s => s) a.prior_n_abs_ _ ov hov
  have h2 := for_loop_sum_inv
    (fun j => (a.approx_object_.prior_eval (List.take a.n_fixed_ x))[1 + j]?)
    (fun p => |p|) a.prior_n_abs_ _ ot hot
  subst hv
  refine ⟨rfl, rfl, rfl, rfl, ?_, ?_⟩
  · rw [h1.2]
    simp [List.getD_eq_getElem?_getD, hp0]
  · rw [h2.2]
    simp [List.getD_eq_getElem?_getD, hp0]

theorem Dbl.lt_chain {a b c : Dbl} (h1 : a < b) (h2 : b < c) : a < c := by
  cases a <;> cases b <;> cases c <;> first
    | exact h1.elim
    | exact h2.elim
    | trivial
    | exact (Dbl.fin_lt_fin _ _).2
        (lt_trans ((Dbl.fin_lt_fin _ _).1 h1) ((Dbl.fin_lt_fin _ _).1 h2))

theorem Dbl.fin_lt_of_not_lt {t v : ℚ} {e : Dbl} (h1 : ¬ Dbl.fin t < e) (h2 : Dbl.fin v < e) :
    v < t := by
  cases e with
  | ninf => exact h2.elim
  | pinf => exact (h1 trivial).elim
  | fin q =>
    have h1' : ¬ t < q := fun h => h1 ((Dbl.fin_lt_fin t q).2 h)
    exact lt_of_lt_of_le ((Dbl.fin_lt_fin v q).1 h2) (not_lt.1 h1')

/-- One completed `eval_f` call on an adapter with a fixed effect: the state
afterwards holds the `theta` and the profiled random effects of the call, the
true objective of the call is `H + p[0] + sum |p[1 + j]|`, and the incumbent
is replaced by the three of them when the true objective is below the
incumbent objective (plus infinity on the first call) and kept otherwise. -/
theorem eval_f_call {a : ipopt_fixed} {n : Int} {x : List ℚ} {new_x : Bool}
    {r : ipopt_fixed × ℚ × Bool} {t : ℚ}
    (hinv : a.fixed_tmp_.length = a.n_fixed_)
    (h : eval_f a n x new_x = some r) (ht : eval_f_obj_tmp a x = some t) :
    r.1.fixed_tmp_ = x.take a.n_fixed_
    ∧ r.1.random_tmp_ = a.approx_object_.optimize_random (x.take a.n_fixed_)
        (if a.fixed_opt_.length = 0 then a.random_in_ else a.random_opt_)
    ∧ t = a.approx_object_.laplace_eval (x.take a.n_fixed_) (x.take a.n_fixed_) r.1.random_tmp_
        + (a.approx_object_.prior_eval (x.take a.n_fixed_)).getD 0 0
        + ∑ j in Finset.range a.prior_n_abs_,
            |(a.approx_object_.prior_eval (x.take a.n_fixed_)).getD (1 + j) 0|
    ∧ (Dbl.fin t < (if a.fixed_opt_.length = 0 then Dbl.pinf else a.objective_opt_) →
        r.1.fixed_opt_ = r.1.fixed_tmp_ ∧ r.1.random_opt_ = r.1.random_tmp_
        ∧ r.1.objective_opt_ = Dbl.fin t)
    ∧ (¬ Dbl.fin t < (if a.fixed_opt_.length = 0 then Dbl.pinf else a.objective_opt_) →
        a.fixed_opt_.length ≠ 0 →
        r.1.fixed_opt_ = a.fixed_opt_ ∧ r.1.random_opt_ = a.random_opt_
        ∧ r.1.objective_opt_ = a.objective_opt_) := by
  obtain ⟨v, hv, hr, _⟩ := eval_f_some h
  have htv : t = v.obj_tmp := by
    simp only [eval_f_obj_tmp, hv, Option.map_some', Option.some.injEq] at ht
    exact ht.symm
  subst htv
  obtain ⟨h1, h2, h3, h4, _, h6⟩ := eval_f_compute_some
    (by rw [eval_f_start_fixed_tmp, eval_f_start_n_fixed, hinv]) hv
  rw [eval_f_start_n_fixed] at h1
  rw [eval_f_start_approx_object, eval_f_start_random_tmp, h1] at h2
  rw [eval_f_start_approx_object, h1] at h3 h4
  rw [eval_f_start_prior_n_abs, h3, h4] at h6
  have hobj := eval_f_start_objective_opt a
  have e1 : r.1.fixed_tmp_ = v.fixed_tmp := by rw [hr]; exact eval_f_finish_fixed_tmp _ v
  have e2 : r.1.random_tmp_ = v.random_tmp := by
    rw [hr]; unfold eval_f_finish; dsimp only; split <;> rfl
  refine ⟨by rw [e1, h1], by rw [e2, h2], by rw [e2]; exact h6, ?_, ?_⟩
  · intro hlt
    rw [← hobj] at hlt
    rw [e1, e2, hr]
    unfold eval_f_finish
    dsimp only
    rw [if_pos hlt]
    exact ⟨rfl, rfl, rfl⟩
  · intro hnlt hwarm
    rw [← hobj] at hnlt
    rw [hr]
    unfold eval_f_finish
    dsimp only
    rw [if_neg hnlt]
    unfold eval_f_start
    rw [if_neg hwarm]
    exact ⟨rfl, rfl, rfl⟩

/-- Along a run on an adapter with a fixed effect, either no call has a true
objective below the incumbent objective at the start and the incumbent in use
at the start is still there, or the incumbent is the `theta`, the random
effects and the true objective of the first call that attained the smallest
true objective of the run. -/
theorem eval_f_run_incumbent (calls : List (List ℚ × Bool)) :
    ∀ (a : ipopt_fixed) (run : List (ipopt_fixed × ℚ)),
      a.fixed_tmp_.length = a.n_fixed_ → 1 ≤ a.n_fixed_ →
      eval_f_run a calls = some run →
      ∀ final ∈ run.getLast?,
        ((∀ (i : Nat) (s : ipopt_fixed × ℚ), run[i]? = some s →
            ¬ Dbl.fin s.2 < (if a.fixed_opt_.length = 0 then Dbl.pinf else a.objective_opt_))
          ∧ (a.fixed_opt_.length ≠ 0 →
              final.1.fixed_opt_ = a.fixed_opt_ ∧ final.1.random_opt_ = a.random_opt_
              ∧ final.1.objective_opt_ = a.objective_opt_))
        ∨ (∃ (k : Nat) (s : ipopt_fixed × ℚ), run[k]? = some s
            ∧ final.1.fixed_opt_ = s.1.fixed_tmp_ ∧ final.1.random_opt_ = s.1.random_tmp_
            ∧ final.1.objective_opt_ = Dbl.fin s.2
            ∧ Dbl.fin s.2 < (if a.fixed_opt_.length = 0 then Dbl.pinf else a.objective_opt_)
            ∧ ∀ (i : Nat) (si : ipopt_fixed × ℚ), run[i]? = some si →
                s.2 ≤ si.2 ∧ (i < k → s.2 < si.2)) := by
  induction calls with
  | nil =>
    intro a run _ _ hrun final hfinal
    simp only [eval_f_run, Option.some.injEq] at hrun
    rw [← hrun] at hfinal
    simp at hfinal
  | cons c cs ih =>
    intro a run hinv hn hrun final hfinal
    simp only [eval_f_run, Option.bind_eq_bind, Option.bind_eq_some, Option.pure_def,
      Option.some.injEq] at hrun
    obtain ⟨t, ht, r, hr, rest, hrest, hrun⟩ := hrun
    obtain ⟨h1, h2, _, h4, h5⟩ := eval_f_step hinv hn hr ht
    obtain ⟨_, _, _, hpos, hneg⟩ := eval_f_call hinv hr ht
    subst hrun
    have hwarm : (if r.1.fixed_opt_.length = 0 then Dbl.pinf else r.1.objective_opt_)
        = r.1.objective_opt_ := if_neg h4
    by_cases hlt : Dbl.fin t < (if a.fixed_opt_.length = 0 then Dbl.pinf else a.objective_opt_)
    · -- the first call replaces the incumbent
      obtain ⟨p1, p2, p3⟩ := hpos hlt
      cases rest with
      | nil =>
        simp only [List.getLast?_singleton, Option.mem_def, Option.some.injEq] at hfinal
        subst hfinal
        refine Or.inr ⟨0, (r.1, t), rfl, p1, p2, p3, hlt, ?_⟩
        intro i si hi
        cases i with
        | zero =>
          simp only [List.getElem?_cons_zero, Option.some.injEq] at hi
          subst hi
          exact ⟨le_refl _, fun h => absurd h (Nat.lt_irrefl 0)⟩
        | succ i => simp at hi
      | cons s1 rest1 =>
        rw [List.getLast?_cons_cons] at hfinal
        rcases ih r.1 (s1 :: rest1) h1 (by omega) hrest final hfinal with
          ⟨hall, hkeep⟩ | ⟨k, s, hk, q1, q2, q3, q4, q5⟩
        · obtain ⟨k1, k2, k3⟩ := hkeep h4
          refine Or.inr ⟨0, (r.1, t), rfl, by rw [k1, p1], by rw [k2, p2], by rw [k3, p3], hlt, ?_⟩
          intro i si hi
          cases i with
          | zero =>
            simp only [List.getElem?_cons_zero, Option.some.injEq] at hi
            subst hi
            exact ⟨le_refl _, fun h => absurd h (Nat.lt_irrefl 0)⟩
          | succ i =>
            rw [List.getElem?_cons_succ] at hi
            have := hall i si hi
            rw [hwarm, p3] at this
            exact ⟨not_lt.1 (fun h => this ((Dbl.fin_lt_fin _ _).2 h)),
              fun h => absurd h (Nat.not_lt_zero _)⟩
        · rw [hwarm, p3] at q4
          refine Or.inr ⟨k + 1, s, by rw [List.getElem?_cons_succ]; exact hk, q1, q2, q3,
            Dbl.lt_chain q4 hlt, ?_⟩
          intro i si hi
          cases i with
          | zero =>
            simp only [List.getElem?_cons_zero, Option.some.injEq] at hi
            subst hi
            have hst : s.2 < t := (Dbl.fin_lt_fin _ _).1 q4
            exact ⟨le_of_lt hst, fun _ => hst⟩
          | succ i =>
            rw [List.getElem?_cons_succ] at hi
            exact ⟨(q5 i si hi).1, fun h => (q5 i si hi).2 (Nat.lt_of_succ_lt_succ h)⟩
    · -- the first call keeps the incumbent
      have hobj : r.1.objective_opt_
          = (if a.fixed_opt_.length = 0 then Dbl.pinf else a.objective_opt_) := by
        rw [h5, if_neg hlt]
      cases rest with
      | nil =>
        simp only [List.getLast?_singleton, Option.mem_def, Option.some.injEq] at hfinal
        subst hfinal
        refine Or.inl ⟨?_, hneg hlt⟩
        intro i si hi
        cases i with
        | zero =>
          simp only [List.getElem?_cons_zero, Option.some.injEq] at hi
          subst hi
          exact hlt
        | succ i => simp at hi
      | cons s1 rest1 =>
        rw [List.getLast?_cons_cons] at hfinal
        rcases ih r.1 (s1 :: rest1) h1 (by omega) hrest final hfinal with
          ⟨hall, hkeep⟩ | ⟨k, s, hk, q1, q2, q3, q4, q5⟩
        · refine Or.inl ⟨?_, ?_⟩
          · intro i si hi
            cases i with
            | zero =>
              simp only [List.getElem?_cons_zero, Option.some.injEq] at hi
              subst hi
              exact hlt
            | succ i =>
              rw [List.getElem?_cons_succ] at hi
              have := hall i si hi
              rw [hwarm, hobj] at this
              exact this
          · intro hw
            obtain ⟨k1, k2, k3⟩ := hkeep h4
            obtain ⟨n1, n2, n3⟩ := hneg hlt hw
            exact ⟨by rw [k1, n1], by rw [k2, n2], by rw [k3, n3]⟩
        · rw [hwarm, hobj] at q4
          refine Or.inr ⟨k + 1, s, by rw [List.getElem?_cons_succ]; exact hk, q1, q2, q3, q4, ?_⟩
          intro i si hi
          cases i with
          | zero =>
            simp only [List.getElem?_cons_zero, Option.some.injEq] at hi
            subst hi
            have hst : s.2 < t := Dbl.fin_lt_of_not_lt hlt q4
            exact ⟨le_of_lt hst, fun _ => hst⟩
          | succ i =>
            rw [List.getElem?_cons_succ] at hi
            exact ⟨(q5 i si hi).1, fun h => (q5 i si hi).2 (Nat.lt_of_succ_lt_succ h)⟩

/-- Along a run, the state after each call holds the `theta` and the profiled
random effects of that call, and the true objective recorded for the call is
`H + p[0] + sum |p[1 + j]|` at them. -/
theorem eval_f_run_calls (calls : List (List ℚ × Bool)) :
    ∀ (a : ipopt_fixed) (run : List (ipopt_fixed × ℚ)),
      a.fixed_tmp_.length = a.n_fixed_ → 1 ≤ a.n_fixed_ →
      eval_f_run a calls = some run →
      ∀ (i : Nat) (si : ipopt_fixed × ℚ), run[i]? = some si →
        ∃ (c : List ℚ × Bool) (start : List ℚ), calls[i]? = some c
          ∧ si.1.fixed_tmp_ = c.1.take a.n_fixed_
          ∧ si.1.random_tmp_
            = a.approx_object_.optimize_random (c.1.take a.n_fixed_) start
          ∧ si.2 = a.approx_object_.laplace_eval (c.1.take a.n_fixed_) (c.1.take a.n_fixed_)
                si.1.random_tmp_
              + (a.approx_object_.prior_eval (c.1.take a.n_fixed_)).getD 0 0
              + ∑ j in Finset.range a.prior_n_abs_,
                  |(a.approx_object_.prior_eval (c.1.take a.n_fixed_)).getD (1 + j) 0| := by
  induction calls with
  | nil =>
    intro a run _ _ hrun i si hi
    simp only [eval_f_run, Option.some.injEq] at hrun
    rw [← hrun] at hi
    simp at hi
  | cons c cs ih =>
    intro a run hinv hn hrun i si hi
    simp only [eval_f_run, Option.bind_eq_bind, Option.bind_eq_some, Option.pure_def,
      Option.some.injEq] at hrun
    obtain ⟨t, ht, r, hr, rest, hrest, hrun⟩ := hrun
    obtain ⟨h1, h2, h3, _, _⟩ := eval_f_step hinv hn hr ht
    obtain ⟨c1, c2, c3, _, _⟩ := eval_f_call hinv hr ht
    obtain ⟨f1, _⟩ := eval_f_frame hr
    subst hrun
    cases i with
    | zero =>
      simp only [List.getElem?_cons_zero, Option.some.injEq] at hi
      subst hi
      exact ⟨c, _, by simp, c1, c2, c3⟩
    | succ i =>
      rw [List.getElem?_cons_succ] at hi
      obtain ⟨c', start, g1, g2, g3, g4⟩ := ih r.1 rest h1 (by omega) hrest i si hi
      rw [h2] at g2 g3 g4
      rw [f1] at g3 g4
      rw [h3] at g4
      exact ⟨c', start, by rw [List.getElem?_cons_succ]; exact g1, g2, g3, g4⟩

/-- C25: for an adapter with at least one fixed effect and a non-empty sequence
of completed `eval_f` calls, there is one call `k` of the sequence such that
after the last call `fixed_opt_` is the `theta` of call `k`, `random_opt_` is
the random effects `optimize_random` returned in call `k`, and
`objective_opt_` is the true objective `H + p[0] + sum |p[1 + j]|` of call `k`;
no call of the sequence has a smaller true objective and every call before
call `k` has a larger one. A further completed `eval_f` call whose true
objective is not below `objective_opt_` leaves the three unchanged. -/
theorem eval_f_incumbent_first_minimum (fixed_lower : List Dbl) (fixed_in : List ℚ)
    (fixed_upper : List Dbl) (random_in : List ℚ) (approx_object : approx_mixed)
    (objective_opt_0 : Dbl) (finalize_solution_ok_0 : Bool) (a : ipopt_fixed)
    (calls : List (List ℚ × Bool)) (run : List (ipopt_fixed × ℚ))
    (hctor : ipopt_fixed_ctor fixed_lower fixed_in fixed_upper random_in approx_object
      objective_opt_0 finalize_solution_ok_0 = some a)
    (hn : 1 ≤ a.n_fixed_)
    (hne : calls ≠ [])
    (hrun : eval_f_run a calls = some run) :
    ∃ (final : ipopt_fixed × ℚ) (k : Nat) (s : ipopt_fixed × ℚ) (c : List ℚ × Bool)
        (start : List ℚ),
      run.getLast? = some final ∧ run[k]? = some s ∧ calls[k]? = some c
      ∧ final.1.fixed_opt_ = c.1.take a.n_fixed_
      ∧ final.1.random_opt_ = a.approx_object_.optimize_random (c.1.take a.n_fixed_) start
      ∧ final.1.objective_opt_ = Dbl.fin s.2
      ∧ s.2 = a.approx_object_.laplace_eval (c.1.take a.n_fixed_) (c.1.take a.n_fixed_)
            final.1.random_opt_
          + (a.approx_object_.prior_eval (c.1.take a.n_fixed_)).getD 0 0
          + ∑ j in Finset.range a.prior_n_abs_,
              |(a.approx_object_.prior_eval (c.1.take a.n_fixed_)).getD (1 + j) 0|
      ∧ (∀ (i : Nat) (si : ipopt_fixed × ℚ), run[i]? = some si →
          s.2 ≤ si.2 ∧ (i < k → s.2 < si.2))
      ∧ (∀ (i : Nat) (si : ipopt_fixed × ℚ), run[i]? = some si →
          ∃ ci : List ℚ × Bool, calls[i]? = some ci
            ∧ si.2 = a.approx_object_.laplace_eval (ci.1.take a.n_fixed_)
                  (ci.1.take a.n_fixed_) si.1.random_tmp_
                + (a.approx_object_.prior_eval (ci.1.take a.n_fixed_)).getD 0 0
                + ∑ j in Finset.range a.prior_n_abs_,
                    |(a.approx_object_.prior_eval (ci.1.take a.n_fixed_)).getD (1 + j) 0|)
      ∧ (∀ (n : Int) (x : List ℚ) (new_x : Bool) (r : ipopt_fixed × ℚ × Bool) (t : ℚ),
          eval_f final.1 n x new_x = some r → eval_f_obj_tmp final.1 x = some t →
          ¬ Dbl.fin t < final.1.objective_opt_ →
          r.1.fixed_opt_ = final.1.fixed_opt_ ∧ r.1.random_opt_ = final.1.random_opt_
          ∧ r.1.objective_opt_ = final.1.objective_opt_) := by
  have hinv := reachable_fixed_tmp_length (reachable.ctor hctor)
  obtain ⟨_, _, _, _, _, _, _, _, _, hfresh, _⟩ := ipopt_fixed_ctor_some hctor
  have hcold : a.fixed_opt_.length = 0 := by rw [hfresh]; rfl
  have hlast : ∃ final, run.getLast? = some final := by
    cases calls with
    | nil => exact absurd rfl hne
    | cons c cs =>
      simp only [eval_f_run, Option.bind_eq_bind, Option.bind_eq_some, Option.pure_def,
        Option.some.injEq] at hrun
      obtain ⟨t, _, r, _, rest, _, hrun⟩ := hrun
      rw [← hrun]
      cases hgl : ((r.1, t) :: rest).getLast? with
      | none => simp at hgl
      | some final => exact ⟨final, rfl⟩
  obtain ⟨final, hfinal⟩ := hlast
  obtain ⟨g1, _, _, _, g5⟩ := eval_f_run_last_state calls a run hinv hn hrun final hfinal
  rcases eval_f_run_incumbent calls a run hinv hn hrun final hfinal with
    ⟨hall, _⟩ | ⟨k, s, hk, q1, q2, q3, _, q5⟩
  · -- impossible: the first call is below plus infinity
    exfalso
    cases hrun' : run with
    | nil => rw [hrun'] at hfinal; simp at hfinal
    | cons s0 rest =>
      have := hall 0 s0 (by rw [hrun']; simp)
      rw [if_pos hcold] at this
      exact this trivial
  · obtain ⟨c, start, e1, e2, e3, e4⟩ := eval_f_run_calls calls a run hinv hn hrun k s hk
    refine ⟨final, k, s, c, start, hfinal, hk, e1, by rw [q1, e2], by rw [q2, e3], q3,
      by rw [q2]; exact e4, q5, ?_, ?_⟩
    · intro i si hi
      obtain ⟨ci, _, d1, _, _, d4⟩ := eval_f_run_calls calls a run hinv hn hrun i si hi
      exact ⟨ci, d1, d4⟩
    · intro n x new_x r t hr ht hnlt
      obtain ⟨_, _, _, _, hneg⟩ := eval_f_call g1 hr ht
      rw [if_neg g5] at hneg
      exact hneg hnlt g5

/-- C25, at the adapter with one fixed effect and one absolute value term and
the calls at `x = (5, 2)` and `x = (4, 1)`. -/
theorem eval_f_incumbent_first_minimum_witness :
    ∃ (run : List (ipopt_fixed × ℚ)) (final : ipopt_fixed × ℚ) (k : Nat)
        (s : ipopt_fixed × ℚ),
      eval_f_run ((adapter_example 1).get adapter_example_ctor)
        [([5, 2], true), ([4, 1], false)] = some run
      ∧ run.getLast? = some final ∧ run[k]? = some s
      ∧ final.1.objective_opt_ = Dbl.fin s.2
      ∧ (∀ (i : Nat) (si : ipopt_fixed × ℚ), run[i]? = some si →
          s.2 ≤ si.2 ∧ (i < k → s.2 < si.2)) := by
  have hrun := (Option.some_get eval_f_run_example).symm
  obtain ⟨final, k, s, _, _, h1, h2, _, _, _, h3, _, h4, _⟩ :=
    eval_f_incumbent_first_minimum _ _ _ _ _ _ _
      ((adapter_example 1).get adapter_example_ctor) [([5, 2], true), ([4, 1], false)] _
      (Option.some_get adapter_example_ctor).symm (by decide) (by simp) hrun
  exact ⟨_, final, k, s, hrun, h1, h2, h3, h4⟩

/-! ## Rounding to doubles -/

theorem round_half_even_floor_le (q : ℚ) : ⌊q⌋ ≤ round_half_even q := by
  unfold round_half_even
  dsimp only
  split_ifs <;> omega

theorem round_half_even_le_floor_succ (q : ℚ) : round_half_even q ≤ ⌊q⌋ + 1 := by
  unfold round_half_even
  dsimp only
  split_ifs <;> omega

theorem round_half_even_int (n : Int) : round_half_even (n : ℚ) = n := by
  unfold round_half_even
  simp

/-- Rounding to the nearest integer does not go below an integer lower bound. -/
theorem le_round_half_even {L : Int} {q : ℚ} (h : (L : ℚ) ≤ q) : L ≤ round_half_even q :=
  le_trans (Int.le_floor.2 h) (round_half_even_floor_le q)

/-- Rounding to the nearest integer does not go above an integer upper bound. -/
theorem round_half_even_le {U : Int} {q : ℚ} (h : q ≤ (U : ℚ)) : round_half_even q ≤ U := by
  rcases eq_or_lt_of_le h with heq | hlt
  · rw [heq, round_half_even_int]
  · have : ⌊q⌋ < U := Int.floor_lt.2 hlt
    have := round_half_even_le_floor_succ q
    omega

/-- Rounding to the nearest integer is monotone. -/
theorem round_half_even_mono {q q' : ℚ} (h : q ≤ q') :
    round_half_even q ≤ round_half_even q' := by
  have hf : ⌊q⌋ ≤ ⌊q'⌋ := Int.floor_mono h
  rcases eq_or_lt_of_le hf with heq | hlt
  · unfold round_half_even
    dsimp only
    rw [← heq]
    have hr : q - ⌊q⌋ ≤ q' - ⌊q⌋ := by linarith
    split_ifs <;> first
      | omega
      | (exfalso; linarith)
  · have h1 := round_half_even_le_floor_succ q
    have h2 := round_half_even_floor_le q'
    omega


theorem two_zpow_pos (e : Int) : (0 : ℚ) < 2 ^ e := zpow_pos (by norm_num) e

theorem two_zpow_53_mul (e : Int) : (((2 : Int) ^ 53 : Int) : ℚ) * 2 ^ (e - 52) = 2 ^ (e + 1) := by
  have h : (((2 : Int) ^ 53 : Int) : ℚ) = (2 : ℚ) ^ (53 : Int) := by norm_num
  rw [h, ← zpow_add₀ (by norm_num : (2 : ℚ) ≠ 0)]
  congr 1
  ring

theorem two_zpow_52_mul (e : Int) : (((2 : Int) ^ 52 : Int) : ℚ) * 2 ^ (e - 52) = 2 ^ e := by
  have h : (((2 : Int) ^ 52 : Int) : ℚ) = (2 : ℚ) ^ (52 : Int) := by norm_num
  rw [h, ← zpow_add₀ (by norm_num : (2 : ℚ) ≠ 0)]
  congr 1
  ring

theorem lt_two_zpow_log_succ (q : ℚ) : q < 2 ^ (Int.log 2 q + 1) := by
  have := Int.lt_zpow_succ_log_self (by norm_num : 1 < 2) q
  simpa using this

theorem two_zpow_log_le {q : ℚ} (hq : 0 < q) : (2 : ℚ) ^ (Int.log 2 q) ≤ q := by
  have := Int.zpow_log_le_self (by norm_num : 1 < 2) hq
  simpa using this

/-- A rounded positive number is at most the next power of two. -/
theorem round_double_pos_le (q : ℚ) :
    round_double_pos q ≤ 2 ^ (max (Int.log 2 q) (-1022) + 1) := by
  unfold round_double_pos
  dsimp only
  have hu := two_zpow_pos (max (Int.log 2 q) (-1022) - 52)
  have hq : q ≤ 2 ^ (max (Int.log 2 q) (-1022) + 1) :=
    le_trans (le_of_lt (lt_two_zpow_log_succ q))
      (zpow_le_zpow_right₀ (by norm_num) (by have := le_max_left (Int.log 2 q) (-1022); omega))
  have h1 : q / 2 ^ (max (Int.log 2 q) (-1022) - 52) ≤ (((2 : Int) ^ 53 : Int) : ℚ) := by
    rw [div_le_iff₀ hu, two_zpow_53_mul]
    exact hq
  have h2 := round_half_even_le h1
  calc ((round_half_even (q / 2 ^ (max (Int.log 2 q) (-1022) - 52)) : Int) : ℚ)
        * 2 ^ (max (Int.log 2 q) (-1022) - 52)
      ≤ (((2 : Int) ^ 53 : Int) : ℚ) * 2 ^ (max (Int.log 2 q) (-1022) - 52) :=
        mul_le_mul_of_nonneg_right (by exact_mod_cast h2) (le_of_lt hu)
    _ = 2 ^ (max (Int.log 2 q) (-1022) + 1) := two_zpow_53_mul _

/-- A rounded positive number in the normal range is at least the power of two
below it. -/
theorem le_round_double_pos {q : ℚ} (hq : 0 < q) (hn : -1022 ≤ Int.log 2 q) :
    (2 : ℚ) ^ (Int.log 2 q) ≤ round_double_pos q := by
  unfold round_double_pos
  dsimp only
  rw [max_eq_left hn]
  have hu := two_zpow_pos (Int.log 2 q - 52)
  have h1 : (((2 : Int) ^ 52 : Int) : ℚ) ≤ q / 2 ^ (Int.log 2 q - 52) := by
    rw [le_div_iff₀ hu, two_zpow_52_mul]
    exact two_zpow_log_le hq
  have h2 := le_round_half_even h1
  calc (2 : ℚ) ^ (Int.log 2 q)
      = (((2 : Int) ^ 52 : Int) : ℚ) * 2 ^ (Int.log 2 q - 52) := (two_zpow_52_mul _).symm
    _ ≤ ((round_half_even (q / 2 ^ (Int.log 2 q - 52)) : Int) : ℚ) * 2 ^ (Int.log 2 q - 52) :=
        mul_le_mul_of_nonneg_right (by exact_mod_cast h2) (le_of_lt hu)

theorem round_double_pos_nonneg {q : ℚ} (hq : 0 < q) : 0 ≤ round_double_pos q := by
  unfold round_double_pos
  dsimp only
  have hu := two_zpow_pos (max (Int.log 2 q) (-1022) - 52)
  have h1 : ((0 : Int) : ℚ) ≤ q / 2 ^ (max (Int.log 2 q) (-1022) - 52) := by
    simpa using le_of_lt (div_pos hq hu)
  have h2 := le_round_half_even h1
  exact mul_nonneg (by exact_mod_cast h2) (le_of_lt hu)

/-- Rounding of positive numbers to doubles is monotone. -/
theorem round_double_pos_mono {q q' : ℚ} (hq : 0 < q) (h : q ≤ q') :
    round_double_pos q ≤ round_double_pos q' := by
  have hq' : 0 < q' := lt_of_lt_of_le hq h
  have hlog : Int.log 2 q ≤ Int.log 2 q' := Int.log_mono_right hq h
  have he : max (Int.log 2 q) (-1022) ≤ max (Int.log 2 q') (-1022) :=
    max_le_max hlog (le_refl _)
  rcases eq_or_lt_of_le he with heq | hlt
  · unfold round_double_pos
    dsimp only
    rw [← heq]
    have hu := two_zpow_pos (max (Int.log 2 q) (-1022) - 52)
    have h1 : q / 2 ^ (max (Int.log 2 q) (-1022) - 52)
        ≤ q' / 2 ^ (max (Int.log 2 q) (-1022) - 52) :=
      div_le_div_of_nonneg_right h (le_of_lt hu)
    exact mul_le_mul_of_nonneg_right (by exact_mod_cast round_half_even_mono h1) (le_of_lt hu)
  · have hn : -1022 ≤ Int.log 2 q' := by
      by_contra hc
      rw [max_eq_right (by omega : Int.log 2 q' ≤ -1022)] at hlt
      have := le_max_right (Int.log 2 q) (-1022)
      omega
    rw [max_eq_left hn] at hlt
    calc round_double_pos q ≤ 2 ^ (max (Int.log 2 q) (-1022) + 1) := round_double_pos_le q
      _ ≤ 2 ^ (Int.log 2 q') := zpow_le_zpow_right₀ (by norm_num) (by omega)
      _ ≤ round_double_pos q' := le_round_double_pos hq' hn

/-- Rounding to doubles is monotone. -/
theorem round_double_mono {q q' : ℚ} (h : q ≤ q') : round_double q ≤ round_double q' := by
  unfold round_double
  by_cases h1 : 0 < q
  · have h2 : 0 < q' := lt_of_lt_of_le h1 h
    rw [if_pos h1, if_pos h2]
    exact round_double_pos_mono h1 h
  · rw [if_neg h1]
    by_cases h3 : q < 0
    · rw [if_pos h3]
      have hneg : - round_double_pos (-q) ≤ 0 := by
        have := round_double_pos_nonneg (by linarith : 0 < -q)
        linarith
      by_cases h2 : 0 < q'
      · rw [if_pos h2]
        exact le_trans hneg (round_double_pos_nonneg h2)
      · rw [if_neg h2]
        by_cases h4 : q' < 0
        · rw [if_pos h4]
          have := round_double_pos_mono (by linarith : 0 < -q') (by linarith : -q' ≤ -q)
          linarith
        · rw [if_neg h4]
          exact hneg
    · rw [if_neg h3]
      have hq0 : q = 0 := le_antisymm (not_lt.1 h1) (not_lt.1 h3)
      by_cases h2 : 0 < q'
      · rw [if_pos h2]
        exact round_double_pos_nonneg h2
      · rw [if_neg h2]
        have h4 : ¬ q' < 0 := by
          intro hc
          linarith
        rw [if_neg h4]

/-- The machine sum of doubles is monotone in both summands. -/
theorem double_add_mono {a b c d : ℚ} (h1 : a ≤ c) (h2 : b ≤ d) :
    double_add a b ≤ double_add c d :=
  round_double_mono (add_le_add h1 h2)

/-- The exponent of a positive number between two consecutive powers of two. -/
theorem log_two_eq {q : ℚ} {k : Int} (h1 : (2 : ℚ) ^ k ≤ q) (h2 : q < 2 ^ (k + 1)) :
    Int.log 2 q = k := by
  have hq : 0 < q := lt_of_lt_of_le (two_zpow_pos k) h1
  have a1 : k ≤ Int.log 2 q :=
    (Int.zpow_le_iff_le_log (by norm_num : 1 < 2) hq).1 (by simpa using h1)
  have a2 : Int.log 2 q < k + 1 :=
    (Int.lt_zpow_iff_log_lt (by norm_num : 1 < 2) hq).1 (by simpa using h2)
  omega

/-- A number strictly within half a unit of an integer rounds to it. -/
theorem round_half_even_eq {q : ℚ} {m : Int} (h1 : (m : ℚ) - 1 / 2 < q)
    (h2 : q < (m : ℚ) + 1 / 2) : round_half_even q = m := by
  unfold round_half_even
  dsimp only
  by_cases hq : (m : ℚ) ≤ q
  · have hf : ⌊q⌋ = m := Int.floor_eq_iff.2 ⟨hq, by linarith⟩
    rw [hf, if_pos (by linarith)]
  · have hf : ⌊q⌋ = m - 1 := Int.floor_eq_iff.2 ⟨by push_cast; linarith, by push_cast; linarith⟩
    rw [hf]
    have h3 : ¬ (q - ((m - 1 : Int) : ℚ) < 1 / 2) := by push_cast; linarith
    have h4 : 1 / 2 < q - ((m - 1 : Int) : ℚ) := by push_cast; linarith
    rw [if_neg h3, if_pos h4]
    omega

/-- A number in the normal range that is strictly within half a unit in the
last place of the double `m * 2 ^ (k - 52)` rounds to it. -/
theorem round_double_eq {q : ℚ} {k m : Int} (hk : -1022 ≤ k) (h1 : (2 : ℚ) ^ k ≤ q)
    (h2 : q < 2 ^ (k + 1))
    (h3 : (m : ℚ) - 1 / 2 < q / 2 ^ (k - 52)) (h4 : q / 2 ^ (k - 52) < (m : ℚ) + 1 / 2) :
    round_double q = m * 2 ^ (k - 52) := by
  have hq : 0 < q := lt_of_lt_of_le (two_zpow_pos k) h1
  unfold round_double round_double_pos
  dsimp only
  rw [if_pos hq, log_two_eq h1 h2, max_eq_left hk, round_half_even_eq h3 h4]

theorem round_double_example_1 : round_double (1000000 + 0) = 1000000 := by
  have h := round_double_eq (q := 1000000 + 0) (k := 19) (m := 8589934592000000)
    (by norm_num) (by norm_num) (by norm_num) (by norm_num) (by norm_num)
  rw [h]
  norm_num

theorem round_double_example_2 : round_double (1000000 + 1 / 2 ^ 40) = 1000000 := by
  have h := round_double_eq (q := 1000000 + 1 / 2 ^ 40) (k := 19) (m := 8589934592000000)
    (by norm_num) (by norm_num) (by norm_num) (by norm_num) (by norm_num)
  rw [h]
  norm_num

/-! ## The relaxed and the true objective -/

/-- With the exact sum, `eval_f_with` is `eval_f`. -/
theorem eval_f_with_exact (a : ipopt_fixed) (n : Int) (x : List ℚ) (new_x : Bool) :
    eval_f_with (fun u w => u + w) a n x new_x = eval_f a n x new_x := rfl

/-- A loop that accumulates with `add` completes only when each of its reads
succeeds, and then it has folded the values read. -/
theorem for_loop_fold_inv (add : ℚ → ℚ → ℚ) (g : Nat → Option ℚ) (f : ℚ → ℚ) (n : Nat)
    (v w : ℚ)
    (h : for_loop (fun j v => do
        let s ← g j
        pure (add v (f s))) n v = some w) :
    w = (List.range n).foldl (fun u j => add u (f ((g j).getD 0))) v := by
  induction n generalizing w with
  | zero =>
    simp only [for_loop, Option.some.injEq] at h
    simp [h]
  | succ n ih =>
    rw [for_loop_succ] at h
    simp only [Option.bind_eq_bind, Option.bind_eq_some, Option.pure_def,
      Option.some.injEq] at h
    obtain ⟨w1, hw1, s, hs, hw⟩ := h
    rw [List.range_succ, List.foldl_append, ← ih w1 hw1, ← hw]
    simp [hs]

/-- Folding larger summands from a larger start with a monotone sum gives a
larger result. -/
theorem foldl_add_mono (add : ℚ → ℚ → ℚ)
    (hmono : ∀ u w u' w' : ℚ, u ≤ u' → w ≤ w' → add u w ≤ add u' w')
    (f f' : Nat → ℚ) (n : Nat) (v v' : ℚ) (hv : v ≤ v')
    (hf : ∀ j, j < n → f j ≤ f' j) :
    (List.range n).foldl (fun u j => add u (f j)) v
      ≤ (List.range n).foldl (fun u j => add u (f' j)) v' := by
  induction n with
  | zero => simpa using hv
  | succ n ih =>
    rw [List.range_succ, List.foldl_append, List.foldl_append]
    simp only [List.foldl_cons, List.foldl_nil]
    exact hmono _ _ _ _ (ih (fun j hj => hf j (Nat.lt_succ_of_lt hj))) (hf n (Nat.lt_succ_self n))

/-- Folding the same summands gives the same result. -/
theorem foldl_add_congr (add : ℚ → ℚ → ℚ) (f f' : Nat → ℚ) (n : Nat) (v : ℚ)
    (hf : ∀ j, j < n → f j = f' j) :
    (List.range n).foldl (fun u j => add u (f j)) v
      = (List.range n).foldl (fun u j => add u (f' j)) v := by
  induction n with
  | zero => rfl
  | succ n ih =>
    rw [List.range_succ, List.foldl_append, List.foldl_append,
      ih (fun j hj => hf j (Nat.lt_succ_of_lt hj))]
    simp only [List.foldl_cons, List.foldl_nil]
    rw [hf n (Nat.lt_succ_self n)]

/-- Folding with the exact sum gives the sum. -/
theorem foldl_add_exact (f : Nat → ℚ) (n : Nat) (v : ℚ) :
    (List.range n).foldl (fun u j => u + f j) v = v + ∑ j in Finset.range n, f j := by
  induction n with
  | zero => simp
  | succ n ih =>
    rw [List.range_succ, List.foldl_append, ih, Finset.sum_range_succ]
    simp [add_assoc]

/-- What a completed computation of `eval_f` has computed, for any sum of
doubles. -/
theorem eval_f_compute_with_some {add : ℚ → ℚ → ℚ} {a : ipopt_fixed} {x : List ℚ}
    {v : eval_f_values}
    (hinv : a.fixed_tmp_.length = a.n_fixed_) (h : eval_f_compute_with add a x = some v) :
    v.fixed_tmp = x.take a.n_fixed_
    ∧ v.random_tmp = a.approx_object_.optimize_random v.fixed_tmp a.random_tmp_
    ∧ v.H = a.approx_object_.laplace_eval v.fixed_tmp v.fixed_tmp v.random_tmp
    ∧ v.prior_vec_tmp = a.approx_object_.prior_eval v.fixed_tmp
    ∧ v.obj_value = (List.range a.prior_n_abs_).foldl
        (fun u j => add u (x.getD (a.n_fixed_ + j) 0)) (add v.H (v.prior_vec_tmp.getD 0 0))
    ∧ v.obj_tmp = (List.range a.prior_n_abs_).foldl
        (fun u j => add u |v.prior_vec_tmp.getD (1 + j) 0|)
        (add v.H (v.prior_vec_tmp.getD 0 0)) := by
  simp only [eval_f_compute_with, Option.bind_eq_bind, Option.bind_eq_some, Option.pure_def,
    Option.some.injEq] at h
  obtain ⟨ft, hft, p0, hp0, ov, hov, ot, hot, hv⟩ := h
  have hb := for_loop_copy_bounds x _ _ ft hft
  have hft' := for_loop_copy x a.fixed_tmp_ a.n_fixed_ hb.1 hb.2
  simp only [Option.bind_eq_bind] at hft'
  rw [hft'] at hft
  have hdrop : List.drop a.n_fixed_ a.fixed_tmp_ = [] :=
    List.drop_eq_nil_of_le (le_of_eq hinv)
  rw [hdrop, List.append_nil, Option.some.injEq] at hft
  subst hft
  have h1 := for_loop_fold_inv add (fun j => x[a.n_fixed_ + j]?) (fun s => s)
    a.prior_n_abs_ _ ov hov
  have h2 := for_loop_fold_inv add
    (fun j => (a.approx_object_.prior_eval (List.take a.n_fixed_ x))[1 + j]?)
    (fun p => |p|) a.prior_n_abs_ _ ot hot
  subst hv
  refine ⟨rfl, rfl, rfl, rfl, ?_, ?_⟩
  · rw [h1]
    simp [List.getD_eq_getElem?_getD, hp0]
  · rw [h2]
    simp [List.getD_eq_getElem?_getD, hp0]

/-- What a completed `eval_f` call has computed, for any sum of doubles. -/
theorem eval_f_with_some {add : ℚ → ℚ → ℚ} {a : ipopt_fixed} {n : Int} {x : List ℚ}
    {new_x : Bool} {r : ipopt_fixed × ℚ × Bool} (h : eval_f_with add a n x new_x = some r) :
    ∃ v, eval_f_compute_with add (eval_f_start a) x = some v
      ∧ r = (eval_f_finish (eval_f_start a) v, v.obj_value, true) := by
  simp only [eval_f_with, Option.bind_eq_bind, Option.bind_eq_some, Option.pure_def,
    Option.some.injEq] at h
  obtain ⟨_, _, v, hv, hr⟩ := h
  exact ⟨v, hv, hr.symm⟩


/-- C26 amended: within a completed `eval_f` call at `x`, for every sum of
doubles that is monotone in both summands (the exact sum, and the sum rounded
to the nearest double), with `a_j` the entry `1 + j` of `prior_eval(theta)`:
the value written to `obj_value` and the true objective `obj_tmp`, the one
`eval_f` compares with the incumbent, are the sums of `H + p[0]` with the
`x[n_fixed + j]`, respectively with the `|a_j|`, added one by one; when
`x[n_fixed + j] >= |a_j|` for every `j < prior_n_abs`, `obj_value` is at least
the true objective; when `x[n_fixed + j] = |a_j|` for every `j`, the two are
equal, in particular at the point with `theta = fixed_in` and
`x[n_fixed + j] = |prior_eval(fixed_in)[1 + j]|`; and with exact sums they are
equal only then. -/
theorem eval_f_relaxation_bounds_objective (add : ℚ → ℚ → ℚ) (a : ipopt_fixed) (n : Int)
    (x : List ℚ) (new_x : Bool) (r : ipopt_fixed × ℚ × Bool)
    (hmono : ∀ u w u' w' : ℚ, u ≤ u' → w ≤ w' → add u w ≤ add u' w')
    (hinv : a.fixed_tmp_.length = a.n_fixed_)
    (h : eval_f_with add a n x new_x = some r) :
    ∃ v, eval_f_compute_with add (eval_f_start a) x = some v
      ∧ r = (eval_f_finish (eval_f_start a) v, v.obj_value, true)
      ∧ v.obj_value = (List.range a.prior_n_abs_).foldl
          (fun u j => add u (x.getD (a.n_fixed_ + j) 0))
          (add v.H ((a.approx_object_.prior_eval (x.take a.n_fixed_)).getD 0 0))
      ∧ v.obj_tmp = (List.range a.prior_n_abs_).foldl
          (fun u j => add u |(a.approx_object_.prior_eval (x.take a.n_fixed_)).getD (1 + j) 0|)
          (add v.H ((a.approx_object_.prior_eval (x.take a.n_fixed_)).getD 0 0))
      ∧ ((∀ j, j < a.prior_n_abs_ →
            |(a.approx_object_.prior_eval (x.take a.n_fixed_)).getD (1 + j) 0|
              ≤ x.getD (a.n_fixed_ + j) 0) →
          v.obj_tmp ≤ v.obj_value)
      ∧ ((∀ j, j < a.prior_n_abs_ →
            x.getD (a.n_fixed_ + j) 0
              = |(a.approx_object_.prior_eval (x.take a.n_fixed_)).getD (1 + j) 0|) →
          v.obj_value = v.obj_tmp)
      ∧ (a.fixed_in_.length = a.n_fixed_ →
          x = a.fixed_in_ ++ (List.range a.prior_n_abs_).map
            (fun j => |(a.approx_object_.prior_eval a.fixed_in_).getD (1 + j) 0|) →
          v.obj_value = v.obj_tmp)
      ∧ ((∀ u w : ℚ, add u w = u + w) →
          (∀ j, j < a.prior_n_abs_ →
            |(a.approx_object_.prior_eval (x.take a.n_fixed_)).getD (1 + j) 0|
              ≤ x.getD (a.n_fixed_ + j) 0) →
          (v.obj_value = v.obj_tmp ↔
            ∀ j, j < a.prior_n_abs_ →
              x.getD (a.n_fixed_ + j) 0
                = |(a.approx_object_.prior_eval (x.take a.n_fixed_)).getD (1 + j) 0|)) := by
  obtain ⟨v, hv, hr⟩ := eval_f_with_some h
  obtain ⟨h1, _, _, h4, h5, h6⟩ := eval_f_compute_with_some
    (by rw [eval_f_start_fixed_tmp, eval_f_start_n_fixed, hinv]) hv
  rw [eval_f_start_n_fixed] at h1
  rw [eval_f_start_approx_object, h1] at h4
  rw [eval_f_start_n_fixed, eval_f_start_prior_n_abs, h4] at h5
  rw [eval_f_start_prior_n_abs, h4] at h6
  have hif : (∀ j, j < a.prior_n_abs_ →
        x.getD (a.n_fixed_ + j) 0
          = |(a.approx_object_.prior_eval (x.take a.n_fixed_)).getD (1 + j) 0|) →
      v.obj_value = v.obj_tmp := by
    intro heq
    rw [h5, h6]
    exact foldl_add_congr add _ _ _ _ heq
  refine ⟨v, hv, hr, h5, h6, ?_, hif, ?_, ?_⟩
  · intro hslack
    rw [h5, h6]
    exact foldl_add_mono add hmono _ _ _ _ _ (le_refl _) hslack
  · intro hin hx
    apply hif
    intro j hj
    have htake : x.take a.n_fixed_ = a.fixed_in_ := by
      rw [hx, ← hin, List.take_left]
    rw [htake]
    rw [hx, List.getD_eq_getElem?_getD, List.getElem?_append_right (by omega)]
    simp [hin, hj]
  · intro hexact hslack
    have e5 : v.obj_value = v.H + (a.approx_object_.prior_eval (x.take a.n_fixed_)).getD 0 0
        + ∑ j in Finset.range a.prior_n_abs_, x.getD (a.n_fixed_ + j) 0 := by
      rw [h5, ← foldl_add_exact]
      simp only [hexact]
    have e6 : v.obj_tmp = v.H + (a.approx_object_.prior_eval (x.take a.n_fixed_)).getD 0 0
        + ∑ j in Finset.range a.prior_n_abs_,
            |(a.approx_object_.prior_eval (x.take a.n_fixed_)).getD (1 + j) 0| := by
      rw [h6, ← foldl_add_exact]
      simp only [hexact]
    rw [e5, e6, add_right_inj, eq_comm,
      Finset.sum_eq_sum_iff_of_le (fun j hj => hslack j (Finset.mem_range.1 hj))]
    constructor
    · intro hall j hj
      exact (hall j (Finset.mem_range.2 hj)).symm
    · intro hall j hj
      exact (hall j (Finset.mem_range.1 hj)).symm

/-- The call of `eval_f` at `x = (0, |0 - 3|)`, with sums rounded to doubles, on
the adapter with one fixed effect and one absolute value term completes. -/
theorem eval_f_with_call_example :
    (eval_f_with double_add ((adapter_example 1).get adapter_example_ctor) 2
      [0, |0 - 3|] true).isSome = true := by
  decide

/-- C26 amended, with sums rounded to doubles, at the adapter with one fixed
effect and one absolute value term and the point `x = (0, |0 - 3|)`, where
`theta = fixed_in = (0)` and `a_0 = 0 - 3`. -/
theorem eval_f_relaxation_bounds_objective_witness :
    ∃ (r : ipopt_fixed × ℚ × Bool) (v : eval_f_values),
      eval_f_with double_add ((adapter_example 1).get adapter_example_ctor) 2
        [0, |0 - 3|] true = some r
      ∧ eval_f_compute_with double_add
          (eval_f_start ((adapter_example 1).get adapter_example_ctor)) [0, |0 - 3|] = some v
      ∧ r.2.1 = v.obj_value
      ∧ v.obj_tmp ≤ v.obj_value
      ∧ v.obj_value = v.obj_tmp := by
  have he := (Option.some_get eval_f_with_call_example).symm
  obtain ⟨v, hv, hr, _, _, hge, _, hpoint, _⟩ := eval_f_relaxation_bounds_objective double_add
    ((adapter_example 1).get adapter_example_ctor) 2 [0, |0 - 3|] true _
    (fun _ _ _ _ h1 h2 => double_add_mono h1 h2) rfl he
  refine ⟨_, v, he, hv, by rw [hr], hge ?_, hpoint rfl rfl⟩
  intro j hj
  have hj0 : j = 0 := by
    have : j < 1 := hj
    omega
  subst hj0
  exact le_refl _

/-- The constructor completes on `approx_large_example`. -/
theorem adapter_large_example_ctor : adapter_large_example.isSome = true := by
  decide

/-- The call of `eval_f` at `x = (0, 2^-40)`, with sums rounded to doubles, on
the adapter of `approx_large_example` completes. -/
theorem eval_f_with_large_example :
    (eval_f_with double_add (adapter_large_example.get adapter_large_example_ctor) 2
      [0, 1 / 2 ^ 40] true).isSome = true := by
  decide

/-- C26 as stated fails: with `H = 1000000`, the prior vector `(0, 0)`, so that
`a_0 = 0`, and `x = (0, 2^-40)`, the auxiliary variable `x[1] = 2^-40` is
larger than `|a_0| = 0`, but the sums of doubles `1000000 + 2^-40` and
`1000000 + 0` are both `1000000`: `obj_value` equals the true objective
although `x[1]` differs from `|a_0|`. -/
theorem eval_f_double_rounds_excess_away :
    ∃ (r : ipopt_fixed × ℚ × Bool) (v : eval_f_values),
      eval_f_with double_add (adapter_large_example.get adapter_large_example_ctor) 2
        [0, 1 / 2 ^ 40] true = some r
      ∧ eval_f_compute_with double_add
          (eval_f_start (adapter_large_example.get adapter_large_example_ctor))
          [0, 1 / 2 ^ 40] = some v
      ∧ (adapter_large_example.get adapter_large_example_ctor).n_fixed_ = 1
      ∧ (adapter_large_example.get adapter_large_example_ctor).prior_n_abs_ = 1
      ∧ v.prior_vec_tmp = [0, 0]
      ∧ r.2.1 = v.obj_value
      ∧ v.obj_value = 1000000
      ∧ v.obj_tmp = 1000000
      ∧ |v.prior_vec_tmp.getD 1 0| < ([0, 1 / 2 ^ 40] : List ℚ).getD 1 0 := by
  have he := (Option.some_get eval_f_with_large_example).symm
  obtain ⟨v, hv, hr⟩ := eval_f_with_some he
  obtain ⟨_, _, h3, h4, h5, h6⟩ := eval_f_compute_with_some (a :=
    eval_f_start (adapter_large_example.get adapter_large_example_ctor)) rfl hv
  have hp : v.prior_vec_tmp = [0, 0] := h4
  have hH : v.H = 1000000 := h3
  have e1 : double_add 1000000 0 = 1000000 := round_double_example_1
  have e2 : double_add 1000000 (1 / 2 ^ 40) = 1000000 := round_double_example_2
  have e3 : double_add 1000000 |0| = 1000000 := by rw [abs_zero]; exact e1
  have hv5 : v.obj_value = double_add (double_add v.H (v.prior_vec_tmp.getD 0 0))
      (([0, 1 / 2 ^ 40] : List ℚ).getD (1 + 0) 0) := h5
  have hv6 : v.obj_tmp = double_add (double_add v.H (v.prior_vec_tmp.getD 0 0))
      |v.prior_vec_tmp.getD (1 + 0) 0| := h6
  rw [hH, hp] at hv5 hv6
  refine ⟨_, v, he, hv, rfl, rfl, hp, by rw [hr], ?_, ?_, ?_⟩
  · rw [hv5]
    show double_add (double_add 1000000 0) (1 / 2 ^ 40) = 1000000
    rw [e1, e2]
  · rw [hv6]
    show double_add (double_add 1000000 0) |0| = 1000000
    rw [e1, e3]
  · rw [hp]
    show |(0 : ℚ)| < 1 / 2 ^ 40
    norm_num

/-! ## The constructor and the Hessian patterns -/

/-- Called with empty position maps, `merge_sparse` passes its entry assertions
only for two empty patterns, and then the merged pattern is empty. -/
theorem merge_sparse_empty_maps {row_one col_one row_two col_two : List Nat}
    {res : merge_result}
    (h : merge_sparse row_one col_one row_two col_two [] [] [] [] = some res) :
    row_one = [] ∧ row_two = [] ∧ res.row_out = [] ∧ res.col_out = [] := by
  have h1 : row_one = [] := by
    cases row_one with
    | nil => rfl
    | cons r t => simp [merge_sparse, c_assert] at h
  have h2 : row_two = [] := by
    cases row_two with
    | nil => rfl
    | cons r t => simp [merge_sparse, c_assert] at h
  subst h1 h2
  cases col_one with
  | cons c t => simp [merge_sparse, c_assert] at h
  | nil =>
    cases col_two with
    | cons c t => simp [merge_sparse, c_assert] at h
    | nil =>
      have hres : merge_sparse [] [] [] [] [] [] [] []
          = some { row_out := [], col_out := [], one_2_out := [], two_2_out := [] } := by
        decide
      rw [hres] at h
      injection h with h
      subst h
      exact ⟨rfl, rfl, rfl, rfl⟩

/-- A completed constructor call has found both Hessian patterns empty, and has
stored an empty pattern for the Hessian of the Lagrangian. -/
theorem ipopt_fixed_ctor_patterns {fixed_lower : List Dbl} {fixed_in : List ℚ}
    {fixed_upper : List Dbl} {random_in : List ℚ} {approx_object : approx_mixed}
    {objective_opt_0 : Dbl} {finalize_solution_ok_0 : Bool} {a : ipopt_fixed}
    (h : ipopt_fixed_ctor fixed_lower fixed_in fixed_upper random_in approx_object
      objective_opt_0 finalize_solution_ok_0 = some a) :
    (approx_object.laplace_hes_fix fixed_in random_in).1 = []
    ∧ (approx_object.prior_hes fixed_in (List.replicate fixed_in.length 1)).1 = []
    ∧ a.lag_hes_row_ = [] ∧ a.lag_hes_col_ = [] := by
  simp only [ipopt_fixed_ctor, Option.bind_eq_bind, Option.bind_eq_some, Option.pure_def,
    c_assert] at h
  obtain ⟨inf, _, u, _, lag, hlag, ha⟩ := h
  obtain ⟨h1, h2, h3, h4⟩ := merge_sparse_empty_maps hlag
  injection ha with ha
  subst ha
  exact ⟨h1, h2, h3, h4⟩

/-- C23: the patterns one = (0,1) and two = (1,0) have the largest column index
`max_col = 1`, so both entries have the sort key `1`; the coalescing branch is
taken for two different entries and its assertion `row_one[k_one] ==
row_two[k_two]` fails. -/
theorem merge_sparse_key_collision :
    merge_max_col [1] [0] = 1
    ∧ merge_key (merge_max_col [1] [0]) 0 1 = merge_key (merge_max_col [1] [0]) 1 0
    ∧ merge_sparse [0] [1] [1] [0] [] [] [0] [0] = none := by
  decide

/-- C24: for every adapter the constructor returns, `eval_h` called with
`values = NULL` and with `nele_hess` the value `nnz_h_lag` that `get_nlp_info`
reports stops at its assertion `nele_hess == 2`: the reported value is zero. -/
theorem eval_h_rejects_reported_count (fixed_lower : List Dbl) (fixed_in : List ℚ)
    (fixed_upper : List Dbl) (random_in : List ℚ) (approx_object : approx_mixed)
    (objective_opt_0 : Dbl) (finalize_solution_ok_0 : Bool) (a : ipopt_fixed)
    (n : Int) (x : List ℚ) (new_x : Bool) (obj_factor : ℚ) (m : Int) (lambda : List ℚ)
    (new_lambda : Bool) (iRow jCol : List Int)
    (hctor : ipopt_fixed_ctor fixed_lower fixed_in fixed_upper random_in approx_object
      objective_opt_0 finalize_solution_ok_0 = some a) :
    (get_nlp_info a).nnz_h_lag = 0
    ∧ eval_h a n x new_x obj_factor m lambda new_lambda (get_nlp_info a).nnz_h_lag
        iRow jCol none = none := by
  obtain ⟨_, _, h3, _⟩ := ipopt_fixed_ctor_patterns hctor
  have h0 : (get_nlp_info a).nnz_h_lag = 0 := by
    simp [get_nlp_info, h3]
  refine ⟨h0, ?_⟩
  rw [h0]
  simp [eval_h, c_assert]

/-- C24, at the adapter with one fixed effect and one absolute value term. -/
theorem eval_h_rejects_reported_count_witness :
    (get_nlp_info ((adapter_example 1).get adapter_example_ctor)).nnz_h_lag = 0
    ∧ eval_h ((adapter_example 1).get adapter_example_ctor) 1 [0] true 1 2 [0, 0] true
        (get_nlp_info ((adapter_example 1).get adapter_example_ctor)).nnz_h_lag
        [] [] none = none :=
  eval_h_rejects_reported_count _ _ _ _ _ _ _ ((adapter_example 1).get adapter_example_ctor)
    1 [0] true 1 2 [0, 0] true [] [] (Option.some_get adapter_example_ctor).symm

/-- C27: when the Hessian of the Laplace objective or the Hessian of the prior
has an entry, the constructor does not complete: it passes the empty vectors
`laplace_2_lag_` and `prior_2_lag_` to `merge_sparse`, whose assertions
`row_one.size() == one_2_out.size()` and `row_two.size() == two_2_out.size()`
then fail. -/
theorem ipopt_fixed_ctor_rejects_hessian_entries (fixed_lower : List Dbl) (fixed_in : List ℚ)
    (fixed_upper : List Dbl) (random_in : List ℚ) (approx_object : approx_mixed)
    (objective_opt_0 : Dbl) (finalize_solution_ok_0 : Bool)
    (h : (approx_object.laplace_hes_fix fixed_in random_in).1 ≠ []
      ∨ (approx_object.prior_hes fixed_in (List.replicate fixed_in.length 1)).1 ≠ []) :
    ipopt_fixed_ctor fixed_lower fixed_in fixed_upper random_in approx_object
      objective_opt_0 finalize_solution_ok_0 = none := by
  cases hc : ipopt_fixed_ctor fixed_lower fixed_in fixed_upper random_in approx_object
      objective_opt_0 finalize_solution_ok_0 with
  | none => rfl
  | some a =>
    obtain ⟨h1, h2, _, _⟩ := ipopt_fixed_ctor_patterns hc
    rcases h with h | h
    · exact absurd h1 h
    · exact absurd h2 h

/-- C27, at one fixed effect and a Laplace Hessian with the entry (0, 0). -/
theorem ipopt_fixed_ctor_rejects_hessian_entries_witness :
    ipopt_fixed_ctor [Dbl.fin (-1)] [0] [Dbl.fin 1] [] approx_hessian_example Dbl.pinf false
      = none :=
  ipopt_fixed_ctor_rejects_hessian_entries [Dbl.fin (-1)] [0] [Dbl.fin 1] []
    approx_hessian_example Dbl.pinf false (Or.inl (by decide))

/-- C28: whenever `prior_eval` returns at `fixed_in_` a vector with
`1 + prior_n_abs_` entries, as it did in the constructor, `get_starting_point`
stops at its assertion `vec.size() > 1 + prior_n_abs_`, also for the arguments
`init_x = true`, `init_z = false`, `init_lambda = false`,
`n = n_fixed_ + prior_n_abs_` and `m = 2 * prior_n_abs_`. -/
theorem get_starting_point_length_assertion (a : ipopt_fixed) (n : Int) (init_x : Bool)
    (x : List ℚ) (init_z : Bool) (m : Int) (init_lambda : Bool)
    (h : (a.approx_object_.prior_eval a.fixed_in_).length = 1 + a.prior_n_abs_) :
    get_starting_point a n init_x x init_z m init_lambda = none := by
  have hfalse : decide ((a.approx_object_.prior_eval a.fixed_in_).length > 1 + a.prior_n_abs_)
      = false := by
    rw [h, decide_eq_false_iff_not]
    omega
  cases hres : get_starting_point a n init_x x init_z m init_lambda with
  | none => rfl
  | some r =>
    simp only [get_starting_point, Option.bind_eq_bind, Option.bind_eq_some] at hres
    obtain ⟨_, _, _, _, _, _, _, _, _, _, u, hu, _⟩ := hres
    have := c_assert_some hu
    rw [hfalse] at this
    cases this

/-- C28, at the adapter with one fixed effect and two absolute value terms, with
`n = 1 + 2` and `m = 2 * 2`. -/
theorem get_starting_point_length_assertion_witness :
    get_starting_point ((adapter_example 2).get (by decide)) 3 true [0, 0, 0] false 4 false
      = none :=
  get_starting_point_length_assertion ((adapter_example 2).get (by decide)) 3 true [0, 0, 0]
    false 4 false rfl

/-! ## finalize_solution and the sentinels -/

/-- With an even constraint count the local `ok` of `finalize_solution` ends
false, whatever the point, when the entries it reads are there. -/
theorem finalize_solution_check_even (n : Int) (x z_L z_U : List ℚ) (k : Nat)
    (lambda : List ℚ) (hx : 2 ≤ x.length) (hzl : 2 ≤ z_L.length) (hzu : 2 ≤ z_U.length)
    (hl : 1 ≤ lambda.length) :
    finalize_solution_check n x z_L z_U ((2 * k : Nat) : Int) lambda = some false := by
  have hm : decide ((((2 * k : Nat) : Int)) = 1) = false := by
    rw [decide_eq_false_iff_not]
    omega
  obtain ⟨x0, x1, xt, rfl⟩ : ∃ x0 x1 xt, x = x0 :: x1 :: xt := by
    match x, hx with
    | x0 :: x1 :: xt, _ => exact ⟨x0, x1, xt, rfl⟩
  obtain ⟨zl0, zl1, zlt, rfl⟩ : ∃ a b t, z_L = a :: b :: t := by
    match z_L, hzl with
    | a :: b :: t, _ => exact ⟨a, b, t, rfl⟩
  obtain ⟨zu0, zu1, zut, rfl⟩ : ∃ a b t, z_U = a :: b :: t := by
    match z_U, hzu with
    | a :: b :: t, _ => exact ⟨a, b, t, rfl⟩
  obtain ⟨l0, lt, rfl⟩ : ∃ a t, lambda = a :: t := by
    match lambda, hl with
    | a :: t, _ => exact ⟨a, t, rfl⟩
  unfold finalize_solution_check
  simp only [hm, Bool.and_false, Bool.false_and, List.getElem?_cons_zero,
    List.getElem?_cons_succ, Option.bind_eq_bind, Option.some_bind, Option.pure_def]
  by_cases h1 : 0 ≤ zl0 <;> by_cases h2 : 0 ≤ zu0 <;> simp [h1, h2]

/-- C29: for every adapter, every solver status, every final point whose
buffers hold the entries that `finalize_solution` reads (two in `x`, `z_L` and
`z_U`, one in `lambda`), and every `g` and `obj_value`, a call of
`finalize_solution` with the constraint count `m = 2 * prior_n_abs_` that
`get_nlp_info` reports, and any `n`, completes and sets
`finalize_solution_ok_` to false, leaving the other members. -/
theorem finalize_solution_reported_sizes (a : ipopt_fixed) (status : SolverReturn) (n : Int)
    (x z_L z_U g lambda : List ℚ) (obj_value : ℚ)
    (hx : 2 ≤ x.length) (hzl : 2 ≤ z_L.length) (hzu : 2 ≤ z_U.length)
    (hl : 1 ≤ lambda.length) :
    (get_nlp_info a).m = ((2 * a.prior_n_abs_ : Nat) : Int)
    ∧ finalize_solution a status n x z_L z_U (get_nlp_info a).m g lambda obj_value
      = some { a with finalize_solution_ok_ := false } := by
  have hm : (get_nlp_info a).m = ((2 * a.prior_n_abs_ : Nat) : Int) := by
    simp [get_nlp_info]
  refine ⟨hm, ?_⟩
  unfold finalize_solution
  rw [hm, finalize_solution_check_even n x z_L z_U a.prior_n_abs_ lambda hx hzl hzu hl]
  rfl

/-- C29, at the adapter with one fixed effect and one absolute value term and a
point that satisfies every other check of `finalize_solution`. -/
theorem finalize_solution_reported_sizes_witness :
    (get_nlp_info ((adapter_example 1).get adapter_example_ctor)).m = ((2 * 1 : Nat) : Int)
    ∧ finalize_solution ((adapter_example 1).get adapter_example_ctor) SolverReturn.SUCCESS 2
        [0, 1] [0, 0] [0, 0] (get_nlp_info ((adapter_example 1).get adapter_example_ctor)).m
        [0, 0] [2, 0] 1
      = some { (adapter_example 1).get adapter_example_ctor with
          finalize_solution_ok_ := false } :=
  finalize_solution_reported_sizes ((adapter_example 1).get adapter_example_ctor)
    SolverReturn.SUCCESS 2 [0, 1] [0, 0] [0, 0] [0, 0] [2, 0] 1 (by decide) (by decide)
    (by decide) (by decide)

/-- The lower sentinel after the constructor loop is a finite number: the
smaller of its start and of the finite bounds seen. -/
theorem sentinel_lower_fold_spec (v : List Dbl) (c : ℚ) :
    ∃ m : ℚ, sentinel_lower_fold v (Dbl.fin c) = Dbl.fin m ∧ m ≤ c
      ∧ (∀ q, Dbl.fin q ∈ v → m ≤ q) ∧ (m = c ∨ Dbl.fin m ∈ v) := by
  induction v generalizing c with
  | nil => exact ⟨c, rfl, le_refl _, fun q hq => absurd hq (List.not_mem_nil _), Or.inl rfl⟩
  | cons d t ih =>
    cases d with
    | ninf =>
      obtain ⟨m, h1, h2, h3, h4⟩ := ih c
      refine ⟨m, by simpa [sentinel_lower_fold] using h1, h2, ?_, ?_⟩
      · intro q hq
        rcases List.mem_cons.1 hq with hq | hq
        · cases hq
        · exact h3 q hq
      · exact h4.imp id (fun h => List.mem_cons_of_mem _ h)
    | pinf =>
      obtain ⟨m, h1, h2, h3, h4⟩ := ih c
      refine ⟨m, by simpa [sentinel_lower_fold, std_min_fin_pinf] using h1, h2, ?_, ?_⟩
      · intro q hq
        rcases List.mem_cons.1 hq with hq | hq
        · cases hq
        · exact h3 q hq
      · exact h4.imp id (fun h => List.mem_cons_of_mem _ h)
    | fin q' =>
      obtain ⟨m, h1, h2, h3, h4⟩ := ih (min c q')
      refine ⟨m, by simpa [sentinel_lower_fold, std_min_fin] using h1,
        le_trans h2 (min_le_left _ _), ?_, ?_⟩
      · intro q hq
        rcases List.mem_cons.1 hq with hq | hq
        · injection hq with hq
          rw [hq]
          exact le_trans h2 (min_le_right _ _)
        · exact h3 q hq
      · rcases h4 with h4 | h4
        · rcases min_choice c q' with hc | hc
          · exact Or.inl (by rw [h4, hc])
          · exact Or.inr (by rw [h4, hc]; exact List.mem_cons_self _ _)
        · exact Or.inr (List.mem_cons_of_mem _ h4)

/-- The upper sentinel after the constructor loop is a finite number: the
larger of its start and of the finite bounds seen. -/
theorem sentinel_upper_fold_spec (v : List Dbl) (c : ℚ) :
    ∃ m : ℚ, sentinel_upper_fold v (Dbl.fin c) = Dbl.fin m ∧ c ≤ m
      ∧ (∀ q, Dbl.fin q ∈ v → q ≤ m) ∧ (m = c ∨ Dbl.fin m ∈ v) := by
  induction v generalizing c with
  | nil => exact ⟨c, rfl, le_refl _, fun q hq => absurd hq (List.not_mem_nil _), Or.inl rfl⟩
  | cons d t ih =>
    cases d with
    | pinf =>
      obtain ⟨m, h1, h2, h3, h4⟩ := ih c
      refine ⟨m, by simpa [sentinel_upper_fold] using h1, h2, ?_, ?_⟩
      · intro q hq
        rcases List.mem_cons.1 hq with hq | hq
        · cases hq
        · exact h3 q hq
      · exact h4.imp id (fun h => List.mem_cons_of_mem _ h)
    | ninf =>
      obtain ⟨m, h1, h2, h3, h4⟩ := ih c
      refine ⟨m, by simpa [sentinel_upper_fold, std_max_fin_ninf] using h1, h2, ?_, ?_⟩
      · intro q hq
        rcases List.mem_cons.1 hq with hq | hq
        · cases hq
        · exact h3 q hq
      · exact h4.imp id (fun h => List.mem_cons_of_mem _ h)
    | fin q' =>
      obtain ⟨m, h1, h2, h3, h4⟩ := ih (max c q')
      refine ⟨m, by simpa [sentinel_upper_fold, std_max_fin] using h1,
        le_trans (le_max_left _ _) h2, ?_, ?_⟩
      · intro q hq
        rcases List.mem_cons.1 hq with hq | hq
        · injection hq with hq
          rw [hq]
          exact le_trans (le_max_right _ _) h2
        · exact h3 q hq
      · rcases h4 with h4 | h4
        · rcases max_choice c q' with hc | hc
          · exact Or.inl (by rw [h4, hc])
          · exact Or.inr (by rw [h4, hc]; exact List.mem_cons_self _ _)
        · exact Or.inr (List.mem_cons_of_mem _ h4)

/-- C30: after construction from bound vectors with one entry for each fixed
effect, `nlp_lower_bound_inf()` is the smallest of `-1e19` and the finite
entries of `fixed_lower`, and `nlp_upper_bound_inf()` is the largest of
`+1e19` and the finite entries of `fixed_upper`: each is one of these numbers,
the lower one is at most `-1e19` and at most every finite lower bound, the
upper one is at least `+1e19` and at least every finite upper bound, and the
lower one is below the upper one. -/
theorem sentinel_enclosure (fixed_lower : List Dbl) (fixed_in : List ℚ)
    (fixed_upper : List Dbl) (random_in : List ℚ) (approx_object : approx_mixed)
    (objective_opt_0 : Dbl) (finalize_solution_ok_0 : Bool) (a : ipopt_fixed)
    (hl : fixed_lower.length = fixed_in.length) (hu : fixed_upper.length = fixed_in.length)
    (hctor : ipopt_fixed_ctor fixed_lower fixed_in fixed_upper random_in approx_object
      objective_opt_0 finalize_solution_ok_0 = some a) :
    ∃ lo up : ℚ,
      nlp_lower_bound_inf a = Dbl.fin lo ∧ nlp_upper_bound_inf a = Dbl.fin up
      ∧ (lo = - ten_pow_19 ∨ Dbl.fin lo ∈ fixed_lower)
      ∧ lo ≤ - ten_pow_19 ∧ (∀ q, Dbl.fin q ∈ fixed_lower → lo ≤ q)
      ∧ (up = ten_pow_19 ∨ Dbl.fin up ∈ fixed_upper)
      ∧ ten_pow_19 ≤ up ∧ (∀ q, Dbl.fin q ∈ fixed_upper → q ≤ up)
      ∧ nlp_lower_bound_inf a < nlp_upper_bound_inf a := by
  obtain ⟨hloop, _⟩ := ipopt_fixed_ctor_some hctor
  rw [sentinel_loop fixed_lower fixed_upper fixed_in.length _ (le_of_eq hl.symm)
    (le_of_eq hu.symm), Option.some.injEq, Prod.mk.injEq] at hloop
  have e1 : fixed_lower.take fixed_in.length = fixed_lower := by rw [← hl, List.take_length]
  have e2 : fixed_upper.take fixed_in.length = fixed_upper := by rw [← hu, List.take_length]
  rw [e1, e2] at hloop
  obtain ⟨lo, l1, l2, l3, l4⟩ := sentinel_lower_fold_spec fixed_lower (- ten_pow_19)
  obtain ⟨up, u1, u2, u3, u4⟩ := sentinel_upper_fold_spec fixed_upper ten_pow_19
  have hlo : nlp_lower_bound_inf a = Dbl.fin lo := by
    unfold nlp_lower_bound_inf
    rw [← hloop.1]
    exact l1
  have hup : nlp_upper_bound_inf a = Dbl.fin up := by
    unfold nlp_upper_bound_inf
    rw [← hloop.2]
    exact u1
  refine ⟨lo, up, hlo, hup, l4, l2, l3, u4, u2, u3, ?_⟩
  rw [hlo, hup, Dbl.fin_lt_fin]
  have hpos : (0 : ℚ) < ten_pow_19 := by norm_num [ten_pow_19]
  linarith

/-- C30, at one fixed effect with the bounds -1 and 1: the sentinels are
`-1e19` and `+1e19`. -/
theorem sentinel_enclosure_witness :
    ∃ lo up : ℚ,
      nlp_lower_bound_inf ((adapter_example 1).get adapter_example_ctor) = Dbl.fin lo
      ∧ nlp_upper_bound_inf ((adapter_example 1).get adapter_example_ctor) = Dbl.fin up
      ∧ (lo = - ten_pow_19 ∨ Dbl.fin lo ∈ [Dbl.fin (-1)])
      ∧ lo ≤ - ten_pow_19 ∧ (∀ q, Dbl.fin q ∈ [Dbl.fin (-1)] → lo ≤ q)
      ∧ (up = ten_pow_19 ∨ Dbl.fin up ∈ [Dbl.fin 1])
      ∧ ten_pow_19 ≤ up ∧ (∀ q, Dbl.fin q ∈ [Dbl.fin 1] → q ≤ up)
      ∧ nlp_lower_bound_inf ((adapter_example 1).get adapter_example_ctor)
        < nlp_upper_bound_inf ((adapter_example 1).get adapter_example_ctor) :=
  sentinel_enclosure [Dbl.fin (-1)] [0] [Dbl.fin 1] [] (approx_example 1) Dbl.pinf false
    ((adapter_example 1).get adapter_example_ctor) rfl rfl
    (Option.some_get adapter_example_ctor).symm

/-! ## The start of the profiling -/

/-- Along a run, `optimize_random` is started in the first call from the
initial random effects (from the incumbent, when there is one) and in every
later call from the random effects of the incumbent that the call before has
left. -/
theorem eval_f_run_starts (calls : List (List ℚ × Bool)) :
    ∀ (a : ipopt_fixed) (run : List (ipopt_fixed × ℚ)),
      a.fixed_tmp_.length = a.n_fixed_ → 1 ≤ a.n_fixed_ →
      eval_f_run a calls = some run →
      ∀ (i : Nat) (si : ipopt_fixed × ℚ), run[i]? = some si →
        ∃ c : List ℚ × Bool, calls[i]? = some c
          ∧ si.1.random_tmp_
            = a.approx_object_.optimize_random (c.1.take a.n_fixed_)
                (match i with
                 | 0 => if a.fixed_opt_.length = 0 then a.random_in_ else a.random_opt_
                 | j + 1 => ((run[j]?).map (fun s => s.1.random_opt_)).getD []) := by
  induction calls with
  | nil =>
    intro a run _ _ hrun i si hi
    simp only [eval_f_run, Option.some.injEq] at hrun
    rw [← hrun] at hi
    simp at hi
  | cons c cs ih =>
    intro a run hinv hn hrun i si hi
    simp only [eval_f_run, Option.bind_eq_bind, Option.bind_eq_some, Option.pure_def,
      Option.some.injEq] at hrun
    obtain ⟨t, ht, r, hr, rest, hrest, hrun⟩ := hrun
    obtain ⟨h1, h2, h3, h4, _⟩ := eval_f_step hinv hn hr ht
    obtain ⟨_, c2, _, _, _⟩ := eval_f_call hinv hr ht
    obtain ⟨f1, _⟩ := eval_f_frame hr
    subst hrun
    cases i with
    | zero =>
      simp only [List.getElem?_cons_zero, Option.some.injEq] at hi
      subst hi
      exact ⟨c, by simp, c2⟩
    | succ i =>
      rw [List.getElem?_cons_succ] at hi
      obtain ⟨c', g1, g2⟩ := ih r.1 rest h1 (by omega) hrest i si hi
      rw [h2, f1] at g2
      refine ⟨c', by rw [List.getElem?_cons_succ]; exact g1, ?_⟩
      rw [g2]
      cases i with
      | zero =>
        have h4' : r.1.fixed_opt_ ≠ [] := fun h => h4 (by rw [h]; rfl)
        simp [h4']
      | succ j => simp


/-- C11: for an adapter with at least one fixed effect, after any sequence of
completed `eval_f` calls (with any `new_x` flags), a further completed
`eval_f` call at `x`, whatever its `new_x` flag, evaluates `H` at
`theta = x[0..n_fixed)` and at the random effects that `optimize_random`
returns for this `theta`; `optimize_random` is started from `random_in` when
the call is the first one and from the incumbent's `random_opt_` otherwise.
The incumbent's `random_opt_` are the random effects that `optimize_random`
returned in one earlier call `k`, the first call that attained the smallest
true objective so far (`fixed_opt_` is the `theta` of that call), and
that call started `optimize_random` from `random_in` when `k = 0` and from the
`random_opt_` left by call `k - 1` otherwise. -/
theorem eval_f_profiles_random_effects (fixed_lower : List Dbl) (fixed_in : List ℚ)
    (fixed_upper : List Dbl) (random_in : List ℚ) (approx_object : approx_mixed)
    (objective_opt_0 : Dbl) (finalize_solution_ok_0 : Bool) (a0 a : ipopt_fixed)
    (calls : List (List ℚ × Bool)) (run : List (ipopt_fixed × ℚ))
    (n : Int) (x : List ℚ) (new_x : Bool) (r : ipopt_fixed × ℚ × Bool)
    (hctor : ipopt_fixed_ctor fixed_lower fixed_in fixed_upper random_in approx_object
      objective_opt_0 finalize_solution_ok_0 = some a0)
    (hn : 1 ≤ a0.n_fixed_)
    (hrun : eval_f_run a0 calls = some run)
    (ha : a = ((run.getLast?).map Prod.fst).getD a0)
    (h : eval_f a n x new_x = some r) :
    ∃ v, eval_f_compute (eval_f_start a) x = some v
      ∧ r = (eval_f_finish (eval_f_start a) v, v.obj_value, true)
      ∧ v.fixed_tmp = x.take fixed_in.length
      ∧ v.random_tmp = approx_object.optimize_random (x.take fixed_in.length)
          (if calls = [] then random_in else a.random_opt_)
      ∧ v.H = approx_object.laplace_eval (x.take fixed_in.length) (x.take fixed_in.length)
          v.random_tmp
      ∧ (calls ≠ [] →
          ∃ (k : Nat) (s : ipopt_fixed × ℚ) (c : List ℚ × Bool),
            run[k]? = some s ∧ calls[k]? = some c
            ∧ a.random_opt_ = s.1.random_tmp_
            ∧ s.1.random_tmp_ = approx_object.optimize_random (c.1.take fixed_in.length)
                (match k with
                 | 0 => random_in
                 | j + 1 => ((run[j]?).map (fun s => s.1.random_opt_)).getD [])
            ∧ a.fixed_opt_ = c.1.take fixed_in.length
            ∧ ∀ (i : Nat) (si : ipopt_fixed × ℚ), run[i]? = some si →
                s.2 ≤ si.2 ∧ (i < k → s.2 < si.2)) := by
  have hinv0 := reachable_fixed_tmp_length (reachable.ctor hctor)
  obtain ⟨_, _, _, hnf, _, _, _, hobj, _, hfresh, hrin⟩ := ipopt_fixed_ctor_some hctor
  have hcold : a0.fixed_opt_.length = 0 := by rw [hfresh]; rfl
  cases calls with
  | nil =>
    simp only [eval_f_run, Option.some.injEq] at hrun
    subst hrun
    simp only [List.getLast?_nil, Option.map_none', Option.getD_none] at ha
    subst ha
    obtain ⟨v, hv, hr, h1, h2, h3⟩ := eval_f_values_some hinv0 h
    refine ⟨v, hv, hr, ?_, ?_, ?_, fun hne => absurd rfl hne⟩
    · rw [h1, hnf]
    · rw [h2, hfresh, hobj, hnf, hrin]
      simp
    · rw [h3, hobj, hnf]
  | cons c cs =>
    have hne : run ≠ [] := by
      simp only [eval_f_run, Option.bind_eq_bind, Option.bind_eq_some, Option.pure_def,
        Option.some.injEq] at hrun
      obtain ⟨_, _, _, _, _, _, hrun⟩ := hrun
      rw [← hrun]
      exact List.cons_ne_nil _ _
    obtain ⟨fin, hfin⟩ : ∃ s, run.getLast? = some s := by
      cases hl : run.getLast? with
      | none => exact absurd (List.getLast?_eq_none_iff.1 hl) hne
      | some s => exact ⟨s, rfl⟩
    rw [hfin] at ha
    simp only [Option.map_some', Option.getD_some] at ha
    obtain ⟨g1, g2, g3, g4, g5⟩ := eval_f_run_last_state (c :: cs) a0 run hinv0 hn hrun fin hfin
    rw [← ha] at g1 g2 g3 g4 g5
    obtain ⟨v, hv, hr, h1, h2, h3⟩ := eval_f_values_some g1 h
    refine ⟨v, hv, hr, ?_, ?_, ?_, ?_⟩
    · rw [h1, g2, hnf]
    · rw [h2, if_neg g5, g3, hobj, g2, hnf]
      simp
    · rw [h3, g3, hobj, g2, hnf]
    · intro _
      rcases eval_f_run_incumbent (c :: cs) a0 run hinv0 hn hrun fin hfin with
        ⟨hall, _⟩ | ⟨k, s, hk, q1, q2, _, _, q5⟩
      · exfalso
        cases hrun' : run with
        | nil => exact hne hrun'
        | cons s0 rest =>
          have := hall 0 s0 (by rw [hrun']; simp)
          rw [if_pos hcold] at this
          exact this trivial
      · obtain ⟨ck, e1, e2⟩ := eval_f_run_starts (c :: cs) a0 run hinv0 hn hrun k s hk
        obtain ⟨ck', _, d1, d2, _, _⟩ := eval_f_run_calls (c :: cs) a0 run hinv0 hn hrun k s hk
        have hck : ck' = ck := by
          rw [e1] at d1
          exact (Option.some.inj d1).symm
        subst hck
        rw [← ha] at q1 q2
        refine ⟨k, s, ck', hk, e1, q2, ?_, by rw [q1, d2, hnf], q5⟩
        rw [e2, hobj, hnf]
        cases k with
        | zero => simp [hcold, hrin]
        | succ j => rfl


/-- The constructor completes on `approx_random_example`. -/
theorem adapter_random_example_ctor : adapter_random_example.isSome = true := by
  decide

/-- One `eval_f` call on the adapter with the initial random effects `(1, 2)`
completes. -/
theorem eval_f_random_first_call_example :
    (eval_f_run (adapter_random_example.get adapter_random_example_ctor)
      [([5, 2], true)]).isSome = true := by
  decide

/-- A second `eval_f` call, after the one at `x = (5, 2)`, completes. -/
theorem eval_f_random_second_call_example :
    (eval_f (((((eval_f_run (adapter_random_example.get adapter_random_example_ctor)
        [([5, 2], true)]).get eval_f_random_first_call_example).getLast?).map Prod.fst).getD
          (adapter_random_example.get adapter_random_example_ctor)) 2 [4, 1] false).isSome
      = true := by
  decide

/-- C11, at the adapter with one fixed effect, the initial random effects
`(1, 2)` and an `optimize_random` that adds `theta[0]` to its start vector:
the first call, at `x = (5, 2)`, leaves the incumbent random effects
`(1 + 5, 2 + 5)`, and the call at `x = (4, 1)` with `new_x = false` evaluates
`H` at `theta = (4)` and at the random effects `(1 + 5 + 4, 2 + 5 + 4)` that
`optimize_random` returns when started from them. -/
theorem eval_f_profiles_random_effects_witness :
    ∃ run a r v,
      eval_f_run (adapter_random_example.get adapter_random_example_ctor) [([5, 2], true)]
        = some run
      ∧ a = ((run.getLast?).map Prod.fst).getD
          (adapter_random_example.get adapter_random_example_ctor)
      ∧ eval_f a 2 [4, 1] false = some r
      ∧ eval_f_compute (eval_f_start a) [4, 1] = some v
      ∧ v.fixed_tmp = [4]
      ∧ a.random_opt_ = [1 + 5, 2 + 5]
      ∧ v.random_tmp = [1 + 5 + 4, 2 + 5 + 4]
      ∧ v.H = approx_random_example.laplace_eval [4] [4] v.random_tmp
      ∧ ∃ (k : Nat) (s : ipopt_fixed × ℚ),
          run[k]? = some s ∧ a.random_opt_ = s.1.random_tmp_ ∧ a.fixed_opt_ = [5] := by
  have hrun := (Option.some_get eval_f_random_first_call_example).symm
  have hcall := (Option.some_get eval_f_random_second_call_example).symm
  obtain ⟨v, hv, _, h1, h2, h3, h4⟩ := eval_f_profiles_random_effects
    [Dbl.fin (-1)] [0] [Dbl.fin 1] [1, 2] approx_random_example Dbl.pinf false
    (adapter_random_example.get adapter_random_example_ctor) _ _ _ 2 [4, 1] false _
    (Option.some_get adapter_random_example_ctor).symm (by decide) hrun rfl hcall
  obtain ⟨k, s, c, hk, hc, q1, _, q3, _⟩ := h4 (by simp)
  have hk0 : k = 0 := by
    cases k with
    | zero => rfl
    | succ j => simp at hc
  subst hk0
  have hc' : c = ([5, 2], true) := by
    simp at hc
    exact hc.symm
  subst hc'
  refine ⟨_, _, _, v, hrun, rfl, hcall, hv, h1, rfl, ?_, h3, 0, s, hk, q1, q3⟩
  rw [h2]
  rfl

end dismod_at
